import Mathlib

/-!
# MechaCon cipher (`mechacrypto/cipher.c`)

A shallow embedding of the table-driven DES implementation and of its
multi-key CBC driver, followed by the properties established about them.

Conventions of the embedding:

* `uint64_t`, `uint32_t` and `uint8_t` values are natural numbers; a
  reduction `% 2 ^ w` is written wherever the C expression can exceed its
  type (left shifts, narrowing casts).
* A pointer to bytes or to round keys is a function from the index to the
  value stored there; `p + n` is `fun k => p (n + k)`.
* An array that a function overwrites completely and never reads (an out
  parameter) is returned as a list.
* A local array that is not initialised at its declaration starts with
  indeterminate contents, which the embedding takes as an extra argument.
* `Data` and `Result` are distinct, non-overlapping buffers.
-/

namespace Mechacrypto

/-- PC-1. -/
def PC1_table : List Nat := [
  57, 49, 41, 33, 25, 17, 9, 1,
  58, 50, 42, 34, 26, 18, 10, 2,
  59, 51, 43, 35, 27, 19, 11, 3,
  60, 52, 44, 36, 63, 55, 47, 39,
  31, 23, 15, 7, 62, 54, 46, 38,
  30, 22, 14, 6, 61, 53, 45, 37,
  29, 21, 13, 5, 28, 20, 12, 4]

/-- Left-Shift table. -/
def LS_table : List Nat := [
  1, 1, 2, 2, 2, 2, 2, 2,
  1, 2, 2, 2, 2, 2, 2, 1]

/-- PC-2x: PC-2 of FIPS 46-3 with the odd-numbered lines placed before the even-numbered ones. -/
def PC2x_table : List Nat := [
  14, 17, 11, 24, 1, 5, 23, 19,
  12, 4, 26, 8, 41, 52, 31, 37,
  47, 55, 44, 49, 39, 56, 34, 53,
  3, 28, 15, 6, 21, 10, 16, 7,
  27, 20, 13, 2, 30, 40, 51, 45,
  33, 48, 46, 42, 50, 36, 29, 32]

/-- IP. -/
def IP_table : List Nat := [
  58, 50, 42, 34, 26, 18, 10, 2,
  60, 52, 44, 36, 28, 20, 12, 4,
  62, 54, 46, 38, 30, 22, 14, 6,
  64, 56, 48, 40, 32, 24, 16, 8,
  57, 49, 41, 33, 25, 17, 9, 1,
  59, 51, 43, 35, 27, 19, 11, 3,
  61, 53, 45, 37, 29, 21, 13, 5,
  63, 55, 47, 39, 31, 23, 15, 7]

/-- Inverse IP. -/
def IPinv_table : List Nat := [
  40, 8, 48, 16, 56, 24, 64, 32,
  39, 7, 47, 15, 55, 23, 63, 31,
  38, 6, 46, 14, 54, 22, 62, 30,
  37, 5, 45, 13, 53, 21, 61, 29,
  36, 4, 44, 12, 52, 20, 60, 28,
  35, 3, 43, 11, 51, 19, 59, 27,
  34, 2, 42, 10, 50, 18, 58, 26,
  33, 1, 41, 9, 49, 17, 57, 25]

/-- S1: fused S-box and P permutation, indexed by 6 bits. -/
def SP_box_1 : List Nat := [
  0x00808200, 0x00000000, 0x00008000, 0x00808202, 0x00808002, 0x00008202, 0x00000002, 0x00008000,
  0x00000200, 0x00808200, 0x00808202, 0x00000200, 0x00800202, 0x00808002, 0x00800000, 0x00000002,
  0x00000202, 0x00800200, 0x00800200, 0x00008200, 0x00008200, 0x00808000, 0x00808000, 0x00800202,
  0x00008002, 0x00800002, 0x00800002, 0x00008002, 0x00000000, 0x00000202, 0x00008202, 0x00800000,
  0x00008000, 0x00808202, 0x00000002, 0x00808000, 0x00808200, 0x00800000, 0x00800000, 0x00000200,
  0x00808002, 0x00008000, 0x00008200, 0x00800002, 0x00000200, 0x00000002, 0x00800202, 0x00008202,
  0x00808202, 0x00008002, 0x00808000, 0x00800202, 0x00800002, 0x00000202, 0x00008202, 0x00808200,
  0x00000202, 0x00800200, 0x00800200, 0x00000000, 0x00008002, 0x00008200, 0x00000000, 0x00808002]

/-- S2: fused S-box and P permutation, indexed by 6 bits. -/
def SP_box_2 : List Nat := [
  0x40084010, 0x40004000, 0x00004000, 0x00084010, 0x00080000, 0x00000010, 0x40080010, 0x40004010,
  0x40000010, 0x40084010, 0x40084000, 0x40000000, 0x40004000, 0x00080000, 0x00000010, 0x40080010,
  0x00084000, 0x00080010, 0x40004010, 0x00000000, 0x40000000, 0x00004000, 0x00084010, 0x40080000,
  0x00080010, 0x40000010, 0x00000000, 0x00084000, 0x00004010, 0x40084000, 0x40080000, 0x00004010,
  0x00000000, 0x00084010, 0x40080010, 0x00080000, 0x40004010, 0x40080000, 0x40084000, 0x00004000,
  0x40080000, 0x40004000, 0x00000010, 0x40084010, 0x00084010, 0x00000010, 0x00004000, 0x40000000,
  0x00004010, 0x40084000, 0x00080000, 0x40000010, 0x00080010, 0x40004010, 0x40000010, 0x00080010,
  0x00084000, 0x00000000, 0x40004000, 0x00004010, 0x40000000, 0x40080010, 0x40084010, 0x00084000]

/-- S3: fused S-box and P permutation, indexed by 6 bits. -/
def SP_box_3 : List Nat := [
  0x00000104, 0x04010100, 0x00000000, 0x04010004, 0x04000100, 0x00000000, 0x00010104, 0x04000100,
  0x00010004, 0x04000004, 0x04000004, 0x00010000, 0x04010104, 0x00010004, 0x04010000, 0x00000104,
  0x04000000, 0x00000004, 0x04010100, 0x00000100, 0x00010100, 0x04010000, 0x04010004, 0x00010104,
  0x04000104, 0x00010100, 0x00010000, 0x04000104, 0x00000004, 0x04010104, 0x00000100, 0x04000000,
  0x04010100, 0x04000000, 0x00010004, 0x00000104, 0x00010000, 0x04010100, 0x04000100, 0x00000000,
  0x00000100, 0x00010004, 0x04010104, 0x04000100, 0x04000004, 0x00000100, 0x00000000, 0x04010004,
  0x04000104, 0x00010000, 0x04000000, 0x04010104, 0x00000004, 0x00010104, 0x00010100, 0x04000004,
  0x04010000, 0x04000104, 0x00000104, 0x04010000, 0x00010104, 0x00000004, 0x04010004, 0x00010100]

/-- S4: fused S-box and P permutation, indexed by 6 bits. -/
def SP_box_4 : List Nat := [
  0x80401000, 0x80001040, 0x80001040, 0x00000040, 0x00401040, 0x80400040, 0x80400000, 0x80001000,
  0x00000000, 0x00401000, 0x00401000, 0x80401040, 0x80000040, 0x00000000, 0x00400040, 0x80400000,
  0x80000000, 0x00001000, 0x00400000, 0x80401000, 0x00000040, 0x00400000, 0x80001000, 0x00001040,
  0x80400040, 0x80000000, 0x00001040, 0x00400040, 0x00001000, 0x00401040, 0x80401040, 0x80000040,
  0x00400040, 0x80400000, 0x00401000, 0x80401040, 0x80000040, 0x00000000, 0x00000000, 0x00401000,
  0x00001040, 0x00400040, 0x80400040, 0x80000000, 0x80401000, 0x80001040, 0x80001040, 0x00000040,
  0x80401040, 0x80000040, 0x80000000, 0x00001000, 0x80400000, 0x80001000, 0x00401040, 0x80400040,
  0x80001000, 0x00001040, 0x00400000, 0x80401000, 0x00000040, 0x00400000, 0x00001000, 0x00401040]

/-- S5: fused S-box and P permutation, indexed by 6 bits. -/
def SP_box_5 : List Nat := [
  0x00000080, 0x01040080, 0x01040000, 0x21000080, 0x00040000, 0x00000080, 0x20000000, 0x01040000,
  0x20040080, 0x00040000, 0x01000080, 0x20040080, 0x21000080, 0x21040000, 0x00040080, 0x20000000,
  0x01000000, 0x20040000, 0x20040000, 0x00000000, 0x20000080, 0x21040080, 0x21040080, 0x01000080,
  0x21040000, 0x20000080, 0x00000000, 0x21000000, 0x01040080, 0x01000000, 0x21000000, 0x00040080,
  0x00040000, 0x21000080, 0x00000080, 0x01000000, 0x20000000, 0x01040000, 0x21000080, 0x20040080,
  0x01000080, 0x20000000, 0x21040000, 0x01040080, 0x20040080, 0x00000080, 0x01000000, 0x21040000,
  0x21040080, 0x00040080, 0x21000000, 0x21040080, 0x01040000, 0x00000000, 0x20040000, 0x21000000,
  0x00040080, 0x01000080, 0x20000080, 0x00040000, 0x00000000, 0x20040000, 0x01040080, 0x20000080]

/-- S6: fused S-box and P permutation, indexed by 6 bits. -/
def SP_box_6 : List Nat := [
  0x10000008, 0x10200000, 0x00002000, 0x10202008, 0x10200000, 0x00000008, 0x10202008, 0x00200000,
  0x10002000, 0x00202008, 0x00200000, 0x10000008, 0x00200008, 0x10002000, 0x10000000, 0x00002008,
  0x00000000, 0x00200008, 0x10002008, 0x00002000, 0x00202000, 0x10002008, 0x00000008, 0x10200008,
  0x10200008, 0x00000000, 0x00202008, 0x10202000, 0x00002008, 0x00202000, 0x10202000, 0x10000000,
  0x10002000, 0x00000008, 0x10200008, 0x00202000, 0x10202008, 0x00200000, 0x00002008, 0x10000008,
  0x00200000, 0x10002000, 0x10000000, 0x00002008, 0x10000008, 0x10202008, 0x00202000, 0x10200000,
  0x00202008, 0x10202000, 0x00000000, 0x10200008, 0x00000008, 0x00002000, 0x10200000, 0x00202008,
  0x00002000, 0x00200008, 0x10002008, 0x00000000, 0x10202000, 0x10000000, 0x00200008, 0x10002008]

/-- S7: fused S-box and P permutation, indexed by 6 bits. -/
def SP_box_7 : List Nat := [
  0x00100000, 0x02100001, 0x02000401, 0x00000000, 0x00000400, 0x02000401, 0x00100401, 0x02100400,
  0x02100401, 0x00100000, 0x00000000, 0x02000001, 0x00000001, 0x02000000, 0x02100001, 0x00000401,
  0x02000400, 0x00100401, 0x00100001, 0x02000400, 0x02000001, 0x02100000, 0x02100400, 0x00100001,
  0x02100000, 0x00000400, 0x00000401, 0x02100401, 0x00100400, 0x00000001, 0x02000000, 0x00100400,
  0x02000000, 0x00100400, 0x00100000, 0x02000401, 0x02000401, 0x02100001, 0x02100001, 0x00000001,
  0x00100001, 0x02000000, 0x02000400, 0x00100000, 0x02100400, 0x00000401, 0x00100401, 0x02100400,
  0x00000401, 0x02000001, 0x02100401, 0x02100000, 0x00100400, 0x00000000, 0x00000001, 0x02100401,
  0x00000000, 0x00100401, 0x02100000, 0x00000400, 0x02000001, 0x02000400, 0x00000400, 0x00100001]

/-- S8: fused S-box and P permutation, indexed by 6 bits. -/
def SP_box_8 : List Nat := [
  0x08000820, 0x00000800, 0x00020000, 0x08020820, 0x08000000, 0x08000820, 0x00000020, 0x08000000,
  0x00020020, 0x08020000, 0x08020820, 0x00020800, 0x08020800, 0x00020820, 0x00000800, 0x00000020,
  0x08020000, 0x08000020, 0x08000800, 0x00000820, 0x00020800, 0x00020020, 0x08020020, 0x08020800,
  0x00000820, 0x00000000, 0x00000000, 0x08020020, 0x08000020, 0x08000800, 0x00020820, 0x00020000,
  0x00020820, 0x00020000, 0x08020800, 0x00000800, 0x00000020, 0x08020020, 0x00000800, 0x00020820,
  0x08000800, 0x00000020, 0x08000020, 0x08020000, 0x08020020, 0x08000000, 0x00020000, 0x08000820,
  0x00000000, 0x08020820, 0x00020020, 0x08000020, 0x08020000, 0x08000800, 0x08000820, 0x00000000,
  0x08020820, 0x00020800, 0x00020800, 0x00000820, 0x00000820, 0x00020020, 0x08000000, 0x08020800]

/-! ## Helpers declared in `util.h` -/

/-- Modelled from the spec: `read_be_uint64` of `util.h` (not part of the
sources at hand): "every 8-byte block and key segment is interpreted as a
big-endian 64-bit integer on load". -/
def read_be_uint64 (p : Nat → Nat) : Nat :=
  (List.range 8).foldl (fun acc k => acc * 256 + p k) 0

/-- Modelled from the spec: `write_be_uint64` of `util.h` (not part of the
sources at hand): a 64-bit integer is "serialized big-endian on store". The
eight bytes written are returned. -/
def write_be_uint64 (Value : Nat) : List Nat :=
  (List.range 8).map (fun k => (Value / 256 ^ (7 - k)) % 256)

/-- Modelled from the spec: `memxor(a, b, dst, n)` of `util.h` (not part of
the sources at hand): the bytewise XOR of `n` bytes of `a` and `b`, stored
to `dst`; the bytes written are returned. -/
def memxor (a b : Nat → Nat) (n : Nat) : List Nat :=
  (List.range n).map (fun k => a k ^^^ b k)

/-- A local byte array used through a pointer. -/
def ptr (l : List Nat) : Nat → Nat := fun k => l.getD k 0

/-- The effect of `memcpy(dst + off, src, n)` on the buffer `dst`. -/
def memcpy (dst : Nat → Nat) (off : Nat) (src : Nat → Nat) (n : Nat) : Nat → Nat :=
  fun a => if off ≤ a ∧ a < off + n then src (a - off) else dst a

/-! ## Key schedule of one key -/

/-- The PC-1 loop of `cipherKeyScheduleInner`: the value of `Input`. -/
def keyInput (Key : Nat) : Nat :=
  (List.range 56).foldl (fun Input i =>
    if Key &&& (1 <<< (64 - PC1_table.getD i 0)) ≠ 0 then Input ||| (1 <<< (55 - i))
    else Input) 0

/-- The left shift that round `i` of `cipherKeyScheduleInner` applies to `C`
and to `D`, in 32-bit arithmetic and without masking to 28 bits. -/
def keyShift (i : Nat) (C : Nat) : Nat :=
  if LS_table.getD i 0 = 1 then ((C <<< 1) % 2 ^ 32) ||| (C >>> 27)
  else ((C <<< 2) % 2 ^ 32) ||| (C >>> 26)

/-- The PC-2x loop of `cipherKeyScheduleInner`: the round key `Ki` selected
from the shifted halves. -/
def keySelect (C D : Nat) : Nat :=
  let CD := ((C &&& 0x0FFFFFFF) <<< 28) ||| (D &&& 0x0FFFFFFF)
  (List.range 48).foldl (fun Ki j =>
    if CD &&& (1 <<< (56 - PC2x_table.getD j 0)) ≠ 0
    then Ki ||| (1 <<< (63 - 2 - ((j / 6) * 8 + (j % 6))))
    else Ki) 0

/-- The body of the round loop of `cipherKeyScheduleInner` on the state
`(C, D, RoundKeys)`: round key `i` is stored after the `i` earlier ones. -/
def keyRound (st : Nat × Nat × List Nat) (i : Nat) : Nat × Nat × List Nat :=
  let C := keyShift i st.1
  let D := keyShift i st.2.1
  let Ki := keySelect C D
  (C, D, st.2.2 ++ [Ki])

/-- The function `cipherKeyScheduleInner`: the 16 round keys of a 64-bit key. -/
def cipherKeyScheduleInner (Key : Nat) : List Nat :=
  let Input := keyInput Key
  let C := ((Input >>> 28) % 2 ^ 32) &&& 0x0FFFFFFF
  let D := (Input % 2 ^ 32) &&& 0x0FFFFFFF
  ((List.range 16).foldl keyRound (C, D, [])).2.2

/-! ## Block transform -/

/-- The function `cipherIP`: apply IP to a 64-bit value. -/
def cipherIP (Value : Nat) : Nat :=
  (List.range 64).foldl (fun Output i =>
    if Value &&& (1 <<< (64 - IP_table.getD i 0)) ≠ 0 then Output ||| (1 <<< (63 - i))
    else Output) 0

/-- The function `cipherIPInverse`: apply inverse IP to a 64-bit value. -/
def cipherIPInverse (Value : Nat) : Nat :=
  (List.range 64).foldl (fun Output i =>
    if Value &&& (1 <<< (64 - IPinv_table.getD i 0)) ≠ 0 then Output ||| (1 <<< (63 - i))
    else Output) 0

/-- The value `Tab` of one round of `cipherForward`: the OR of the eight
S+P lookups on `Low` mixed with round key `RK`. -/
def roundTab (Low RK : Nat) : Nat :=
  let X := ((Low <<< 29) % 2 ^ 32) ||| (Low >>> 3)
  let Y := ((Low <<< 1) % 2 ^ 32) ||| (Low >>> 31)
  let X := X ^^^ ((RK >>> 32) % 2 ^ 32)
  let Y := Y ^^^ (RK % 2 ^ 32)
  let Tab0 := SP_box_1.getD ((X >>> 24) &&& 0x3F) 0
  let Tab1 := SP_box_2.getD ((Y >>> 24) &&& 0x3F) 0
  let Tab2 := SP_box_3.getD ((X >>> 16) &&& 0x3F) 0
  let Tab3 := SP_box_4.getD ((Y >>> 16) &&& 0x3F) 0
  let Tab4 := SP_box_5.getD ((X >>> 8) &&& 0x3F) 0
  let Tab5 := SP_box_6.getD ((Y >>> 8) &&& 0x3F) 0
  let Tab6 := SP_box_7.getD ((X >>> 0) &&& 0x3F) 0
  let Tab7 := SP_box_8.getD ((Y >>> 0) &&& 0x3F) 0
  Tab0 ||| Tab1 ||| Tab2 ||| Tab3 ||| Tab4 ||| Tab5 ||| Tab6 ||| Tab7

/-- The body of the round loop of `cipherForward` on the pair `(Low, High)`. -/
def cipherRound (RoundKeys : Nat → Nat) (st : Nat × Nat) (i : Nat) : Nat × Nat :=
  let Low := st.1
  let High := st.2
  let Tab := roundTab Low (RoundKeys i)
  let NewLow := High ^^^ Tab
  (NewLow, Low)

/-- The function `cipherForward`: run the cipher in forward direction; the
value stored to `*Result` is returned. -/
def cipherForward (Value : Nat) (RoundKeys : Nat → Nat) : Nat :=
  let Current := cipherIP Value
  let Low := Current % 2 ^ 32
  let High := (Current >>> 32) % 2 ^ 32
  let st := (List.range 16).foldl (cipherRound RoundKeys) (Low, High)
  cipherIPInverse ((st.1 <<< 32) ||| st.2)

/-! ## Key schedules -/

/-- The function `_cipherKeySchedule`: the 16 round keys of an 8-byte key. -/
def _cipherKeySchedule (Key : Nat → Nat) : List Nat :=
  let KeyValue := read_be_uint64 Key
  cipherKeyScheduleInner KeyValue

/-- The function `_cipherKeyScheduleReverse`: the round keys of an 8-byte
key in reverse order. -/
def _cipherKeyScheduleReverse (Key : Nat → Nat) : List Nat :=
  let KeyValue := read_be_uint64 Key
  let ForwardRoundKeys := cipherKeyScheduleInner KeyValue
  (List.range 16).map (fun i => ForwardRoundKeys.getD (15 - i) 0)

/-- Sixteen round keys stored to `RoundKeys + off`. -/
def storeRoundKeys (RoundKeys : Nat → Nat) (off : Nat) (rk : List Nat) : Nat → Nat :=
  fun j => if off ≤ j ∧ j < off + 16 then rk.getD (j - off) 0 else RoundKeys j

/-- The function `cipherKeySchedule`: the return value and the schedule
table after the call. -/
def cipherKeySchedule (RoundKeys : Nat → Nat) (Keys : Nat → Nat) (KeyCount : Int) :
    Int × (Nat → Nat) :=
  if KeyCount ≠ 1 ∧ KeyCount ≠ 2 ∧ KeyCount ≠ 3 then (-1, RoundKeys)
  else
    let RoundKeys := storeRoundKeys RoundKeys 0 (_cipherKeySchedule (fun k => Keys (0 + k)))
    if KeyCount = 1 then (1, RoundKeys)
    else
      let RoundKeys :=
        storeRoundKeys RoundKeys 16 (_cipherKeyScheduleReverse (fun k => Keys (8 + k)))
      if KeyCount = 2 then (2, RoundKeys)
      else
        let RoundKeys :=
          storeRoundKeys RoundKeys 32 (_cipherKeySchedule (fun k => Keys (16 + k)))
        (3, RoundKeys)

/-- The function `cipherKeyScheduleReverse`: the return value and the
schedule table after the call. -/
def cipherKeyScheduleReverse (RoundKeys : Nat → Nat) (Keys : Nat → Nat) (KeyCount : Int) :
    Int × (Nat → Nat) :=
  if KeyCount ≠ 1 ∧ KeyCount ≠ 2 ∧ KeyCount ≠ 3 then (-1, RoundKeys)
  else
    let RoundKeys :=
      storeRoundKeys RoundKeys 0 (_cipherKeyScheduleReverse (fun k => Keys (0 + k)))
    if KeyCount = 1 then (1, RoundKeys)
    else
      let RoundKeys := storeRoundKeys RoundKeys 16 (_cipherKeySchedule (fun k => Keys (8 + k)))
      if KeyCount = 2 then (2, RoundKeys)
      else
        let RoundKeys :=
          storeRoundKeys RoundKeys 32 ((List.range 16).map (fun j => RoundKeys j))
        let RoundKeys :=
          storeRoundKeys RoundKeys 0 (_cipherKeyScheduleReverse (fun k => Keys (16 + k)))
        (3, RoundKeys)

/-! ## Chained block invocation -/

/-- The function `cipherSingleBlock`: the eight bytes stored to `Result`. -/
def cipherSingleBlock (Data : Nat → Nat) (RoundKeys : Nat → Nat) (KeyCount : Int) :
    List Nat :=
  let Input := read_be_uint64 Data
  let Output := cipherForward Input RoundKeys
  let Output :=
    if KeyCount ≠ 1 then
      let Output := cipherForward Output (fun j => RoundKeys (16 + j))
      if KeyCount = 2 then cipherForward Output RoundKeys
      else cipherForward Output (fun j => RoundKeys (32 + j))
    else Output
  write_be_uint64 Output

/-! ## CBC driver -/

/-- The state of the full-block loop of `cipherCbcEncrypt`. -/
structure EncState where
  /-- The loop counter. -/
  i : Nat
  /-- The chaining block. -/
  LastBlock : List Nat
  /-- The output buffer. -/
  Result : Nat → Nat

/-- The body of the full-block loop of `cipherCbcEncrypt`, with `i++`. -/
def encryptBody (Data : Nat → Nat) (RoundKeys : Nat → Nat) (KeyCount : Int)
    (st : EncState) : EncState :=
  let InputBlock := memxor (ptr st.LastBlock) (fun k => Data (st.i * 8 + k)) 8
  let LastBlock := cipherSingleBlock (ptr InputBlock) RoundKeys KeyCount
  let Result := memcpy st.Result (st.i * 8) (ptr LastBlock) 8
  ⟨st.i + 1, LastBlock, Result⟩

/-- The loop `for (i = 0; Length - i * 8 >= 8; i++)` of `cipherCbcEncrypt`,
run for at most `fuel` tests of its condition; `none` when the fuel runs
out before the condition fails. -/
def encryptLoop (Data : Nat → Nat) (Length : Nat) (RoundKeys : Nat → Nat) (KeyCount : Int) :
    Nat → EncState → Option EncState
  | 0, _ => none
  | fuel + 1, st =>
    if Length - st.i * 8 ≥ 8 then
      encryptLoop Data Length RoundKeys KeyCount fuel (encryptBody Data RoundKeys KeyCount st)
    else some st

/-- The loop `for (k = 0; k < n; k++) Result[off + k] = BaseBlock[k] ^ Data[off + k]`
shared by both drivers. -/
def xorTail (Result : Nat → Nat) (Data : Nat → Nat) (BaseBlock : List Nat) (off n : Nat) :
    Nat → Nat :=
  (List.range n).foldl (fun Result k =>
    Function.update Result (off + k) ((ptr BaseBlock) k ^^^ Data (off + k))) Result

/-- The function `cipherCbcEncrypt`: the return value and the contents of
`Result` after the call. `RoundKeys` is the indeterminate initial content of
the local schedule table. The result is `none` only if the full-block loop
does not finish within `Length + 1` tests of its condition. -/
def cipherCbcEncrypt (Result : Nat → Nat) (Data : Nat → Nat) (Length : Nat)
    (Keys : Nat → Nat) (KeyCount : Int) (IV : Nat → Nat) (RoundKeys : Nat → Nat) :
    Option (Int × (Nat → Nat)) :=
  if Length ≤ 0 then some (-2, Result)
  else
    let ks := cipherKeySchedule RoundKeys Keys KeyCount
    let KeyCount := ks.1
    let RoundKeys := ks.2
    if KeyCount < 1 then some (-1, Result)
    else
      let LastBlock := (List.range 8).map IV
      match encryptLoop Data Length RoundKeys KeyCount (Length + 1) ⟨0, LastBlock, Result⟩ with
      | none => none
      | some st =>
        if Length - st.i * 8 > 0 then
          let BaseBlock := cipherSingleBlock (ptr st.LastBlock) RoundKeys KeyCount
          some (0, xorTail st.Result Data BaseBlock (st.i * 8) (Length - st.i * 8))
        else some (0, st.Result)

/-- The state of the full-block loop of `cipherCbcDecrypt`. -/
structure DecState where
  /-- The loop counter. -/
  i : Nat
  /-- The chaining block. -/
  LastBlock : List Nat
  /-- The last ciphertext block read. -/
  TailBlock : List Nat
  /-- The output buffer. -/
  Result : Nat → Nat

/-- The body of the full-block loop of `cipherCbcDecrypt`, with `i++`. -/
def decryptBody (Data : Nat → Nat) (RoundKeys : Nat → Nat) (KeyCount : Int)
    (st : DecState) : DecState :=
  let TailBlock := (List.range 8).map (fun k => Data (st.i * 8 + k))
  let OutputBlock := cipherSingleBlock (ptr TailBlock) RoundKeys KeyCount
  let OutputBlock := memxor (ptr st.LastBlock) (ptr OutputBlock) 8
  let LastBlock := TailBlock
  let Result := memcpy st.Result (st.i * 8) (ptr OutputBlock) 8
  ⟨st.i + 1, LastBlock, TailBlock, Result⟩

/-- The loop `for (i = 0; Length - i * 8 >= 8; i++)` of `cipherCbcDecrypt`,
run for at most `fuel` tests of its condition; `none` when the fuel runs
out before the condition fails. -/
def decryptLoop (Data : Nat → Nat) (Length : Nat) (RoundKeys : Nat → Nat) (KeyCount : Int) :
    Nat → DecState → Option DecState
  | 0, _ => none
  | fuel + 1, st =>
    if Length - st.i * 8 ≥ 8 then
      decryptLoop Data Length RoundKeys KeyCount fuel (decryptBody Data RoundKeys KeyCount st)
    else some st

/-- The function `cipherCbcDecrypt`: the return value and the contents of
`Result` after the call. `RoundKeys` and `TailBlock` are the indeterminate
initial contents of the local schedule table and of the local array
`TailBlock`, neither of which is initialised at its declaration. The result
is `none` only if the full-block loop does not finish within `Length + 1`
tests of its condition. -/
def cipherCbcDecrypt (Result : Nat → Nat) (Data : Nat → Nat) (Length : Nat)
    (Keys : Nat → Nat) (KeyCount : Int) (IV : Nat → Nat) (RoundKeys : Nat → Nat)
    (TailBlock : List Nat) : Option (Int × (Nat → Nat)) :=
  if Length ≤ 0 then some (-2, Result)
  else
    let ks := cipherKeyScheduleReverse RoundKeys Keys KeyCount
    let KeyCount := ks.1
    let RoundKeys := ks.2
    if KeyCount < 1 then some (-1, Result)
    else
      let LastBlock := (List.range 8).map IV
      match decryptLoop Data Length RoundKeys KeyCount (Length + 1)
          ⟨0, LastBlock, TailBlock, Result⟩ with
      | none => none
      | some st =>
        if Length - st.i * 8 > 0 then
          let RoundKeys := (cipherKeySchedule RoundKeys Keys KeyCount).2
          let BaseBlock := cipherSingleBlock (ptr st.TailBlock) RoundKeys KeyCount
          some (0, xorTail st.Result Data BaseBlock (st.i * 8) (Length - st.i * 8))
        else some (0, st.Result)

/-! ## Auxiliary definitions used to state the properties -/

/-- The 64-bit value that `cipherSingleBlock` computes from its loaded input. -/
def cipherChain (Input : Nat) (RoundKeys : Nat → Nat) (KeyCount : Int) : Nat :=
  if KeyCount = 1 then cipherForward Input RoundKeys
  else if KeyCount = 2 then
    cipherForward (cipherForward (cipherForward Input RoundKeys) (fun j => RoundKeys (16 + j)))
      RoundKeys
  else
    cipherForward (cipherForward (cipherForward Input RoundKeys) (fun j => RoundKeys (16 + j)))
      (fun j => RoundKeys (32 + j))

/-- The chaining block before block `j` of `cipherCbcEncrypt`: the IV for
`j = 0`, output block `j - 1` otherwise. -/
def encChain (Data RoundKeys : Nat → Nat) (KeyCount : Int) (IV : Nat → Nat) : Nat → List Nat
  | 0 => (List.range 8).map IV
  | j + 1 =>
    cipherSingleBlock
      (ptr (memxor (ptr (encChain Data RoundKeys KeyCount IV j)) (fun k => Data (j * 8 + k)) 8))
      RoundKeys KeyCount

/-- The contents of `Result` after a successful `cipherCbcEncrypt`, in
closed form: full blocks, then the tail, then the untouched rest. -/
def encOutput (Result Data : Nat → Nat) (Length : Nat) (RoundKeys : Nat → Nat) (KeyCount : Int)
    (IV : Nat → Nat) : Nat → Nat :=
  fun a =>
    if a < Length / 8 * 8 then ptr (encChain Data RoundKeys KeyCount IV (a / 8 + 1)) (a % 8)
    else if a < Length then
      ptr (cipherSingleBlock (ptr (encChain Data RoundKeys KeyCount IV (Length / 8)))
        RoundKeys KeyCount) (a - Length / 8 * 8) ^^^ Data a
    else Result a

/-- The block `j` of a buffer, as copied by `memcpy(_, Data + j * 8, 8)`. -/
def blockAt (Data : Nat → Nat) (j : Nat) : List Nat :=
  (List.range 8).map (fun k => Data (j * 8 + k))

/-- The contents of `Result` after a successful `cipherCbcDecrypt`, in
closed form. `RoundKeys` is the table used for the full blocks, `TailKeys`
the one used for the tail, `TailBlock` the initial content of that array. -/
def decOutput (Result Data : Nat → Nat) (Length : Nat) (RoundKeys TailKeys : Nat → Nat)
    (KeyCount : Int) (IV : Nat → Nat) (TailBlock : List Nat) : Nat → Nat :=
  fun a =>
    if a < Length / 8 * 8 then
      (if a / 8 = 0 then IV (a % 8) else Data (a - 8))
        ^^^ ptr (cipherSingleBlock (ptr (blockAt Data (a / 8))) RoundKeys KeyCount) (a % 8)
    else if a < Length then
      ptr (cipherSingleBlock
          (ptr (if Length / 8 = 0 then TailBlock else blockAt Data (Length / 8 - 1)))
          TailKeys KeyCount) (a - Length / 8 * 8) ^^^ Data a
    else Result a

/-- A buffer of zero bytes, and a table of zero round keys. -/
def zeroBuf : Nat → Nat := fun _ => 0

/-- The three bytes `41 42 43` followed by zeros. -/
def shortData : Nat → Nat := fun k => [0x41, 0x42, 0x43].getD k 0

/-- Sample data: byte `k` is `(37 * k + 5) mod 256`. -/
def sampleData : Nat → Nat := fun k => (37 * k + 5) % 256

/-- Sample key material `K0 || K1 || K0`: bytes `1..8`, bytes `9..16`, and
bytes `1..8` again. -/
def sampleKeys : Nat → Nat := fun k => if k < 16 then k + 1 else if k < 24 then k - 15 else 0

/-! ## The Data Encryption Standard as FIPS 46-3 defines it

A block of `w` bits is the number whose binary digits are the bits of the
block, the bit FIPS 46-3 numbers 1 being the most significant. -/

/-- Bit `k` of the `w`-bit block `v`, the bits numbered 1 to `w` from the left. -/
def FIPS46.bit (w v k : Nat) : Bool := v.testBit (w - k)

/-- The block made, from left to right, of the bits of the `w`-bit block
`v` at the positions that the table `T` lists. -/
def FIPS46.select (T : List Nat) (w v : Nat) : Nat :=
  T.foldl (fun acc k => Nat.bit (bit w v k) acc) 0

/-- Initial permutation IP. -/
def FIPS46.IP : List Nat := [
  58, 50, 42, 34, 26, 18, 10, 2,
  60, 52, 44, 36, 28, 20, 12, 4,
  62, 54, 46, 38, 30, 22, 14, 6,
  64, 56, 48, 40, 32, 24, 16, 8,
  57, 49, 41, 33, 25, 17, 9, 1,
  59, 51, 43, 35, 27, 19, 11, 3,
  61, 53, 45, 37, 29, 21, 13, 5,
  63, 55, 47, 39, 31, 23, 15, 7]

/-- Inverse initial permutation IP⁻¹. -/
def FIPS46.IPinv : List Nat := [
  40, 8, 48, 16, 56, 24, 64, 32,
  39, 7, 47, 15, 55, 23, 63, 31,
  38, 6, 46, 14, 54, 22, 62, 30,
  37, 5, 45, 13, 53, 21, 61, 29,
  36, 4, 44, 12, 52, 20, 60, 28,
  35, 3, 43, 11, 51, 19, 59, 27,
  34, 2, 42, 10, 50, 18, 58, 26,
  33, 1, 41, 9, 49, 17, 57, 25]

/-- E bit-selection table. -/
def FIPS46.E : List Nat := [
  32, 1, 2, 3, 4, 5,
  4, 5, 6, 7, 8, 9,
  8, 9, 10, 11, 12, 13,
  12, 13, 14, 15, 16, 17,
  16, 17, 18, 19, 20, 21,
  20, 21, 22, 23, 24, 25,
  24, 25, 26, 27, 28, 29,
  28, 29, 30, 31, 32, 1]

/-- Permutation P. -/
def FIPS46.P : List Nat := [
  16, 7, 20, 21,
  29, 12, 28, 17,
  1, 15, 23, 26,
  5, 18, 31, 10,
  2, 8, 24, 14,
  32, 27, 3, 9,
  19, 13, 30, 6,
  22, 11, 4, 25]

/-- Permuted choice 1. -/
def FIPS46.PC1 : List Nat := [
  57, 49, 41, 33, 25, 17, 9,
  1, 58, 50, 42, 34, 26, 18,
  10, 2, 59, 51, 43, 35, 27,
  19, 11, 3, 60, 52, 44, 36,
  63, 55, 47, 39, 31, 23, 15,
  7, 62, 54, 46, 38, 30, 22,
  14, 6, 61, 53, 45, 37, 29,
  21, 13, 5, 28, 20, 12, 4]

/-- Permuted choice 2. -/
def FIPS46.PC2 : List Nat := [
  14, 17, 11, 24, 1, 5,
  3, 28, 15, 6, 21, 10,
  23, 19, 12, 4, 26, 8,
  16, 7, 27, 20, 13, 2,
  41, 52, 31, 37, 47, 55,
  30, 40, 51, 45, 33, 48,
  44, 49, 39, 56, 34, 53,
  46, 42, 50, 36, 29, 32]

/-- Number of left shifts in each of the 16 iterations of the key schedule. -/
def FIPS46.shifts : List Nat := [1, 1, 2, 2, 2, 2, 2, 2, 1, 2, 2, 2, 2, 2, 2, 1]

/-- The selection functions S1 to S8, each as its four rows of 16 columns. -/
def FIPS46.sboxes : List (List Nat) := [
  [14, 4, 13, 1, 2, 15, 11, 8, 3, 10, 6, 12, 5, 9, 0, 7,
   0, 15, 7, 4, 14, 2, 13, 1, 10, 6, 12, 11, 9, 5, 3, 8,
   4, 1, 14, 8, 13, 6, 2, 11, 15, 12, 9, 7, 3, 10, 5, 0,
   15, 12, 8, 2, 4, 9, 1, 7, 5, 11, 3, 14, 10, 0, 6, 13],
  [15, 1, 8, 14, 6, 11, 3, 4, 9, 7, 2, 13, 12, 0, 5, 10,
   3, 13, 4, 7, 15, 2, 8, 14, 12, 0, 1, 10, 6, 9, 11, 5,
   0, 14, 7, 11, 10, 4, 13, 1, 5, 8, 12, 6, 9, 3, 2, 15,
   13, 8, 10, 1, 3, 15, 4, 2, 11, 6, 7, 12, 0, 5, 14, 9],
  [10, 0, 9, 14, 6, 3, 15, 5, 1, 13, 12, 7, 11, 4, 2, 8,
   13, 7, 0, 9, 3, 4, 6, 10, 2, 8, 5, 14, 12, 11, 15, 1,
   13, 6, 4, 9, 8, 15, 3, 0, 11, 1, 2, 12, 5, 10, 14, 7,
   1, 10, 13, 0, 6, 9, 8, 7, 4, 15, 14, 3, 11, 5, 2, 12],
  [7, 13, 14, 3, 0, 6, 9, 10, 1, 2, 8, 5, 11, 12, 4, 15,
   13, 8, 11, 5, 6, 15, 0, 3, 4, 7, 2, 12, 1, 10, 14, 9,
   10, 6, 9, 0, 12, 11, 7, 13, 15, 1, 3, 14, 5, 2, 8, 4,
   3, 15, 0, 6, 10, 1, 13, 8, 9, 4, 5, 11, 12, 7, 2, 14],
  [2, 12, 4, 1, 7, 10, 11, 6, 8, 5, 3, 15, 13, 0, 14, 9,
   14, 11, 2, 12, 4, 7, 13, 1, 5, 0, 15, 10, 3, 9, 8, 6,
   4, 2, 1, 11, 10, 13, 7, 8, 15, 9, 12, 5, 6, 3, 0, 14,
   11, 8, 12, 7, 1, 14, 2, 13, 6, 15, 0, 9, 10, 4, 5, 3],
  [12, 1, 10, 15, 9, 2, 6, 8, 0, 13, 3, 4, 14, 7, 5, 11,
   10, 15, 4, 2, 7, 12, 9, 5, 6, 1, 13, 14, 0, 11, 3, 8,
   9, 14, 15, 5, 2, 8, 12, 3, 7, 0, 4, 10, 1, 13, 11, 6,
   4, 3, 2, 12, 9, 5, 15, 10, 11, 14, 1, 7, 6, 0, 8, 13],
  [4, 11, 2, 14, 15, 0, 8, 13, 3, 12, 9, 7, 5, 10, 6, 1,
   13, 0, 11, 7, 4, 9, 1, 10, 14, 3, 5, 12, 2, 15, 8, 6,
   1, 4, 11, 13, 12, 3, 7, 14, 10, 15, 6, 8, 0, 5, 9, 2,
   6, 11, 13, 8, 1, 4, 10, 7, 9, 5, 0, 15, 14, 2, 3, 12],
  [13, 2, 8, 4, 6, 15, 11, 1, 10, 9, 3, 14, 5, 0, 12, 7,
   1, 15, 13, 8, 10, 3, 7, 4, 12, 5, 6, 11, 0, 14, 9, 2,
   7, 11, 4, 1, 9, 12, 14, 2, 0, 6, 10, 13, 15, 3, 5, 8,
   2, 1, 14, 7, 4, 10, 8, 13, 15, 12, 9, 0, 3, 5, 6, 11]]

/-- The value `S_(i+1)(B)` for a block `B` of 6 bits: the first and last
bits of `B` give the row, the middle four bits the column. -/
def FIPS46.S (i B : Nat) : Nat :=
  let row := 2 * (B / 32 % 2) + B % 2
  let col := B / 2 % 16
  (sboxes.getD i []).getD (16 * row + col) 0

/-- The cipher function `f(R, K) = P(S1(B1) S2(B2) ... S8(B8))`, where
`B1 B2 ... B8 = K ⊕ E(R)`. -/
def FIPS46.f (R K : Nat) : Nat :=
  let B := K ^^^ select E 32 R
  select P 32 ((List.range 8).foldl (fun acc i => 16 * acc + S i (B / 64 ^ (7 - i) % 64)) 0)

/-- One left shift of a 28-bit block: a rotation by one place to the left. -/
def FIPS46.leftShift (c : Nat) : Nat := (2 * c) % 2 ^ 28 + c / 2 ^ 27

/-- The blocks `C_n` and `D_n` of the key schedule. -/
def FIPS46.CD (key : Nat) : Nat → Nat × Nat
  | 0 => (select PC1 64 key / 2 ^ 28, select PC1 64 key % 2 ^ 28)
  | n + 1 => (leftShift^[shifts.getD n 0] (CD key n).1, leftShift^[shifts.getD n 0] (CD key n).2)

/-- The key `K_n = PC-2(C_n D_n)` of iteration `n`, for `n` from 1 to 16. -/
def FIPS46.KS (n key : Nat) : Nat := select PC2 56 ((CD key n).1 * 2 ^ 28 + (CD key n).2)

/-- The blocks `(L_n, R_n)`: `L_n = R_(n-1)` and
`R_n = L_(n-1) ⊕ f(R_(n-1), K_n)`. -/
def FIPS46.LR (key : Nat) (LR₀ : Nat × Nat) : Nat → Nat × Nat
  | 0 => LR₀
  | n + 1 => ((LR key LR₀ n).2, (LR key LR₀ n).1 ^^^ f (LR key LR₀ n).2 (KS (n + 1) key))

/-- Enciphering of a 64-bit block under a 64-bit key: IP, 16 iterations,
and IP⁻¹ applied to the preoutput block `R_16 L_16`. -/
def FIPS46.encrypt (key block : Nat) : Nat :=
  let LR₀ := (select IP 64 block / 2 ^ 32, select IP 64 block % 2 ^ 32)
  let LR₁₆ := LR key LR₀ 16
  select IPinv 64 (LR₁₆.2 * 2 ^ 32 + LR₁₆.1)

/-- The halves `(C, D)` after `n` rounds of the loop of `cipherKeyScheduleInner`. -/
def keyHalves (C D : Nat) : Nat → Nat × Nat
  | 0 => (C, D)
  | n + 1 => (keyShift n (keyHalves C D n).1, keyShift n (keyHalves C D n).2)

/-- The part of `C` above bit 27 only repeats bits of the low 28 bits. -/
def HighCopies (C : Nat) : Prop :=
  C < 2 ^ 32 ∧ ∀ b, 28 ≤ b → C.testBit b = true → C.testBit (b - 28) = true

/-- Bytes `8 k .. 8 k + 7` of `Keys` read as a big-endian 64-bit integer. -/
def keyAt (Keys : Nat → Nat) (k : Nat) : Nat :=
  Keys (8 * k) * 256 ^ 7 + Keys (8 * k + 1) * 256 ^ 6 + Keys (8 * k + 2) * 256 ^ 5
    + Keys (8 * k + 3) * 256 ^ 4 + Keys (8 * k + 4) * 256 ^ 3 + Keys (8 * k + 5) * 256 ^ 2
    + Keys (8 * k + 6) * 256 + Keys (8 * k + 7)

/-- The Forward schedule of a 64-bit key: the round keys in the order in
which `cipherKeyScheduleInner` derives them. -/
def forwardSchedule (Key : Nat) (i : Nat) : Nat := (cipherKeyScheduleInner Key).getD i 0

/-- The Reverse schedule of a 64-bit key: the Forward schedule stored
index-reversed (position `15 - i`). -/
def reverseSchedule (Key : Nat) (i : Nat) : Nat := (cipherKeyScheduleInner Key).getD (15 - i) 0

/-- The state `(C, D, RoundKeys)` of the round loop of
`cipherKeyScheduleInner` after its first `n` rounds (rounds `0 .. n - 1`). -/
def keyState (Key : Nat) (n : Nat) : Nat × Nat × List Nat :=
  let Input := keyInput Key
  let C := ((Input >>> 28) % 2 ^ 32) &&& 0x0FFFFFFF
  let D := (Input % 2 ^ 32) &&& 0x0FFFFFFF
  (List.range n).foldl keyRound (C, D, [])

/-- The value of `CD` that the PC-2x loop of `cipherKeyScheduleInner` reads. -/
def keyCD (C D : Nat) : Nat := ((C &&& 0x0FFFFFFF) <<< 28) ||| (D &&& 0x0FFFFFFF)

/-- The left rotation by `s` places of a block of 28 bits. -/
def rotl28 (c s : Nat) : Nat := ((c <<< (s % 28)) % 2 ^ 28) ||| (c >>> (28 - s % 28))

/-- The cumulative rotation amount `LS_table[0] + ... + LS_table[i]`. -/
def shiftSum (i : Nat) : Nat := ((List.range (i + 1)).map (fun r => LS_table.getD r 0)).sum

/-- The 8-byte key `13 34 57 79 9B BC DF F1`. -/
def exampleKey : Nat → Nat := fun k => [0x13, 0x34, 0x57, 0x79, 0x9B, 0xBC, 0xDF, 0xF1].getD k 0

/-- Sixteen bytes that differ from sixteen zero bytes in block 0 (byte 0 is
`01`) and whose block 1 is `AC 5E 30 58 1D CB 7B 71`. -/
def divergeData : Nat → Nat := fun k =>
  [0x01, 0, 0, 0, 0, 0, 0, 0, 0xAC, 0x5E, 0x30, 0x58, 0x1D, 0xCB, 0x7B, 0x71].getD k 0

/-- The key `12 34 56 78 9A BC DE F0`: `exampleKey` with the least
significant bit of every byte cleared. -/
def exampleKeyEven : Nat → Nat := fun k =>
  [0x12, 0x34, 0x56, 0x78, 0x9A, 0xBC, 0xDE, 0xF0].getD k 0

/-- Key material `K || K || K` for the key `exampleKey`. -/
def exampleKeyThrice : Nat → Nat := fun k => exampleKey (k % 8)

/-! ## Properties -/

theorem and_one_shiftLeft_ne_zero (v s : Nat) : (v &&& (1 <<< s) ≠ 0) ↔ v.testBit s = true := by
  rw [Nat.one_shiftLeft]
  constructor
  · intro h
    by_contra hb
    apply h
    apply Nat.eq_of_testBit_eq
    intro i
    simp only [Nat.testBit_and, Nat.testBit_two_pow, Nat.zero_testBit]
    by_cases hi : s = i
    · subst hi; simp [hb]
    · simp [hi]
  · intro h h0
    have := congrArg (fun x => x.testBit s) h0
    simp [Nat.testBit_and, Nat.testBit_two_pow, h] at this

/-- Bits of the result of a loop that sets bit `p i` when `c i` holds. -/
theorem testBit_selectLoop (c : Nat → Prop) [DecidablePred c] (p : Nat → Nat) (n b : Nat) :
    ((List.range n).foldl (fun out i => if c i then out ||| (1 <<< p i) else out) 0).testBit b
      = decide (∃ i, i < n ∧ c i ∧ p i = b) := by
  induction n with
  | zero => simp
  | succ n ih =>
    rw [List.range_succ, List.foldl_append]
    simp only [List.foldl_cons, List.foldl_nil]
    by_cases hc : c n
    · simp only [hc, if_true]
      rw [Nat.testBit_or, ih, Nat.one_shiftLeft, Nat.testBit_two_pow, Bool.eq_iff_iff]
      simp only [Bool.or_eq_true, decide_eq_true_eq]
      constructor
      · rintro (⟨i, hi, h1, h2⟩ | h)
        · exact ⟨i, by omega, h1, h2⟩
        · exact ⟨n, by omega, hc, h⟩
      · rintro ⟨i, hi, h1, h2⟩
        by_cases hin : i = n
        · subst hin; exact Or.inr h2
        · exact Or.inl ⟨i, by omega, h1, h2⟩
    · simp only [hc, if_false]
      rw [ih, Bool.eq_iff_iff]
      simp only [decide_eq_true_eq]
      constructor
      · rintro ⟨i, hi, h1, h2⟩
        exact ⟨i, by omega, h1, h2⟩
      · rintro ⟨i, hi, h1, h2⟩
        by_cases hin : i = n
        · subst hin; exact absurd h1 hc
        · exact ⟨i, by omega, h1, h2⟩

theorem testBit_cipherIP (v b : Nat) :
    (cipherIP v).testBit b = (decide (b < 64) && v.testBit (64 - IP_table.getD (63 - b) 0)) := by
  unfold cipherIP
  rw [testBit_selectLoop (fun i => v &&& (1 <<< (64 - IP_table.getD i 0)) ≠ 0) (fun i => 63 - i)]
  rw [Bool.eq_iff_iff]
  simp only [and_one_shiftLeft_ne_zero, decide_eq_true_eq, Bool.and_eq_true]
  constructor
  · rintro ⟨i, hi, h1, h2⟩
    have : i = 63 - b := by omega
    subst this
    exact ⟨by omega, h1⟩
  · rintro ⟨hb, h⟩
    exact ⟨63 - b, by omega, h, by omega⟩

theorem testBit_cipherIPInverse (v b : Nat) :
    (cipherIPInverse v).testBit b
      = (decide (b < 64) && v.testBit (64 - IPinv_table.getD (63 - b) 0)) := by
  unfold cipherIPInverse
  rw [testBit_selectLoop (fun i => v &&& (1 <<< (64 - IPinv_table.getD i 0)) ≠ 0)
    (fun i => 63 - i)]
  rw [Bool.eq_iff_iff]
  simp only [and_one_shiftLeft_ne_zero, decide_eq_true_eq, Bool.and_eq_true]
  constructor
  · rintro ⟨i, hi, h1, h2⟩
    have : i = 63 - b := by omega
    subst this
    exact ⟨by omega, h1⟩
  · rintro ⟨hb, h⟩
    exact ⟨63 - b, by omega, h, by omega⟩

theorem IP_IPinv_table : ∀ b, b < 64 →
    (64 - IPinv_table.getD (63 - b) 0 < 64 ∧
      64 - IP_table.getD (63 - (64 - IPinv_table.getD (63 - b) 0)) 0 = b) ∧
    (64 - IP_table.getD (63 - b) 0 < 64 ∧
      64 - IPinv_table.getD (63 - (64 - IP_table.getD (63 - b) 0)) 0 = b) := by
  decide

theorem cipherIP_lt (v : Nat) : cipherIP v < 2 ^ 64 := by
  apply Nat.lt_pow_two_of_testBit
  intro i hi
  rw [testBit_cipherIP]
  simp; omega

theorem cipherIPInverse_lt (v : Nat) : cipherIPInverse v < 2 ^ 64 := by
  apply Nat.lt_pow_two_of_testBit
  intro i hi
  rw [testBit_cipherIPInverse]
  simp; omega

theorem cipherIPInverse_cipherIP (v : Nat) (hv : v < 2 ^ 64) :
    cipherIPInverse (cipherIP v) = v := by
  apply Nat.eq_of_testBit_eq
  intro b
  rw [testBit_cipherIPInverse, testBit_cipherIP]
  by_cases hb : b < 64
  · obtain ⟨⟨h1, h2⟩, -⟩ := IP_IPinv_table b hb
    simp only [hb, h1, h2, decide_True, Bool.true_and]
  · simp only [hb, decide_False, Bool.false_and]
    exact (Nat.testBit_lt_two_pow (lt_of_lt_of_le hv (Nat.pow_le_pow_right (by omega) (by omega)))).symm

theorem cipherIP_cipherIPInverse (v : Nat) (hv : v < 2 ^ 64) :
    cipherIP (cipherIPInverse v) = v := by
  apply Nat.eq_of_testBit_eq
  intro b
  rw [testBit_cipherIP, testBit_cipherIPInverse]
  by_cases hb : b < 64
  · obtain ⟨-, h1, h2⟩ := IP_IPinv_table b hb
    simp only [hb, h1, h2, decide_True, Bool.true_and]
  · simp only [hb, decide_False, Bool.false_and]
    exact (Nat.testBit_lt_two_pow (lt_of_lt_of_le hv (Nat.pow_le_pow_right (by omega) (by omega)))).symm

theorem getD_lt_of_all (l : List Nat) (B : Nat) (hB : 0 < B) (h : l.all (fun x => decide (x < B)) = true)
    (i : Nat) : l.getD i 0 < B := by
  rw [List.getD_eq_getElem?_getD]
  cases hi : l[i]? with
  | none => simpa using hB
  | some x =>
    simp only [Option.getD_some]
    have hx : x ∈ l := List.getElem?_mem hi
    have := List.all_eq_true.mp h x hx
    simpa using this

theorem SP_box_lt (i : Nat) :
    SP_box_1.getD i 0 < 2 ^ 32 ∧ SP_box_2.getD i 0 < 2 ^ 32 ∧ SP_box_3.getD i 0 < 2 ^ 32 ∧
    SP_box_4.getD i 0 < 2 ^ 32 ∧ SP_box_5.getD i 0 < 2 ^ 32 ∧ SP_box_6.getD i 0 < 2 ^ 32 ∧
    SP_box_7.getD i 0 < 2 ^ 32 ∧ SP_box_8.getD i 0 < 2 ^ 32 :=
  ⟨getD_lt_of_all _ _ (by decide) (by decide) i, getD_lt_of_all _ _ (by decide) (by decide) i,
   getD_lt_of_all _ _ (by decide) (by decide) i, getD_lt_of_all _ _ (by decide) (by decide) i,
   getD_lt_of_all _ _ (by decide) (by decide) i, getD_lt_of_all _ _ (by decide) (by decide) i,
   getD_lt_of_all _ _ (by decide) (by decide) i, getD_lt_of_all _ _ (by decide) (by decide) i⟩

theorem roundTab_lt (Low RK : Nat) : roundTab Low RK < 2 ^ 32 := by
  unfold roundTab
  simp only []
  refine Nat.or_lt_two_pow (Nat.or_lt_two_pow (Nat.or_lt_two_pow (Nat.or_lt_two_pow
    (Nat.or_lt_two_pow (Nat.or_lt_two_pow (Nat.or_lt_two_pow ?_ ?_) ?_) ?_) ?_) ?_) ?_) ?_
  · exact (SP_box_lt _).1
  · exact (SP_box_lt _).2.1
  · exact (SP_box_lt _).2.2.1
  · exact (SP_box_lt _).2.2.2.1
  · exact (SP_box_lt _).2.2.2.2.1
  · exact (SP_box_lt _).2.2.2.2.2.1
  · exact (SP_box_lt _).2.2.2.2.2.2.1
  · exact (SP_box_lt _).2.2.2.2.2.2.2

/-- The round loop of `cipherForward` keeps both halves within 32 bits. -/
theorem rounds_lt (rk : Nat → Nat) (n : Nat) (st : Nat × Nat)
    (h1 : st.1 < 2 ^ 32) (h2 : st.2 < 2 ^ 32) :
    ((List.range n).foldl (cipherRound rk) st).1 < 2 ^ 32 ∧
    ((List.range n).foldl (cipherRound rk) st).2 < 2 ^ 32 := by
  induction n with
  | zero => exact ⟨h1, h2⟩
  | succ n ih =>
    rw [List.range_succ, List.foldl_append]
    simp only [List.foldl_cons, List.foldl_nil, cipherRound]
    exact ⟨Nat.xor_lt_two_pow ih.2 (roundTab_lt _ _), ih.1⟩

/-- One round undoes itself on the swapped pair when given the same round key. -/
theorem cipherRound_swap (rk rk' : Nat → Nat) (i j : Nat) (h : rk' j = rk i) (st : Nat × Nat) :
    cipherRound rk' (cipherRound rk st i).swap j = st.swap := by
  simp only [cipherRound, Prod.swap, h]
  rw [Nat.xor_assoc, Nat.xor_self, Nat.xor_zero]

/-- Running the rounds on the swapped result with the keys in reverse order
gives back the swapped start. -/
theorem rounds_reverse (n : Nat) : ∀ (rk rk' : Nat → Nat) (st : Nat × Nat),
    (∀ i, i < n → rk' i = rk (n - 1 - i)) →
    (List.range n).foldl (cipherRound rk') ((List.range n).foldl (cipherRound rk) st).swap
      = st.swap := by
  induction n with
  | zero => intro rk rk' st _; rfl
  | succ n ih =>
    intro rk rk' st h
    have e1 : (List.range (n + 1)).foldl (cipherRound rk) st
        = cipherRound rk ((List.range n).foldl (cipherRound rk) st) n := by
      rw [List.range_succ, List.foldl_append]; rfl
    rw [e1, List.range_succ_eq_map, List.foldl_cons, List.foldl_map]
    rw [cipherRound_swap rk rk' n 0 (by simpa using h 0 (by omega))]
    have := ih rk (fun j => rk' (j + 1)) st (fun i hi => by
      have := h (i + 1) (by omega)
      simp only [this]; congr 1; omega)
    exact this

theorem split_combine (L H : Nat) (hL : L < 2 ^ 32) (hH : H < 2 ^ 32) :
    ((L <<< 32) ||| H) < 2 ^ 64 ∧ ((L <<< 32) ||| H) % 2 ^ 32 = H ∧
      (((L <<< 32) ||| H) >>> 32) % 2 ^ 32 = L := by
  have e : (L <<< 32) ||| H = L * 2 ^ 32 + H := by
    rw [Nat.shiftLeft_eq, Nat.mul_comm]
    exact (Nat.mul_add_lt_is_or hH L).symm
  rw [e, Nat.shiftRight_eq_div_pow]
  refine ⟨by omega, by omega, by omega⟩

theorem combine_split (v : Nat) (hv : v < 2 ^ 64) :
    (((v >>> 32) % 2 ^ 32) <<< 32) ||| (v % 2 ^ 32) = v := by
  have e : (((v >>> 32) % 2 ^ 32) <<< 32) ||| (v % 2 ^ 32)
      = ((v >>> 32) % 2 ^ 32) * 2 ^ 32 + v % 2 ^ 32 := by
    rw [Nat.shiftLeft_eq, Nat.mul_comm]
    exact (Nat.mul_add_lt_is_or (Nat.mod_lt _ (by decide)) _).symm
  rw [e, Nat.shiftRight_eq_div_pow]
  omega

theorem cipherForward_lt (v : Nat) (rk : Nat → Nat) : cipherForward v rk < 2 ^ 64 :=
  cipherIPInverse_lt _

/-- The forward transform with the index-reversed schedule inverts the
forward transform. -/
theorem cipherForward_reverse (x : Nat) (hx : x < 2 ^ 64) (rk rk' : Nat → Nat)
    (h : ∀ i, i < 16 → rk' i = rk (15 - i)) :
    cipherForward (cipherForward x rk) rk' = x := by
  unfold cipherForward
  simp only []
  have hL : cipherIP x % 2 ^ 32 < 2 ^ 32 := Nat.mod_lt _ (by decide)
  have hH : (cipherIP x >>> 32) % 2 ^ 32 < 2 ^ 32 := Nat.mod_lt _ (by decide)
  obtain ⟨b1, b2⟩ := rounds_lt rk 16 (cipherIP x % 2 ^ 32, (cipherIP x >>> 32) % 2 ^ 32) hL hH
  generalize hst : (List.range 16).foldl (cipherRound rk)
    (cipherIP x % 2 ^ 32, (cipherIP x >>> 32) % 2 ^ 32) = st at b1 b2
  obtain ⟨c1, c2, c3⟩ := split_combine st.1 st.2 b1 b2
  rw [cipherIP_cipherIPInverse _ c1, c2, c3]
  have := rounds_reverse 16 rk rk' (cipherIP x % 2 ^ 32, (cipherIP x >>> 32) % 2 ^ 32)
    (fun i hi => by rw [h i hi])
  rw [hst] at this
  change (List.range 16).foldl (cipherRound rk') st.swap = _ at this
  have e : (st.2, st.1) = st.swap := rfl
  rw [e, this]
  simp only [Prod.swap]
  rw [combine_split _ (cipherIP_lt x), cipherIPInverse_cipherIP x hx]

theorem cipherSingleBlock_eq (Data RoundKeys : Nat → Nat) (KeyCount : Int) :
    cipherSingleBlock Data RoundKeys KeyCount
      = write_be_uint64 (cipherChain (read_be_uint64 Data) RoundKeys KeyCount) := by
  unfold cipherSingleBlock cipherChain
  by_cases h1 : KeyCount = 1
  · simp [h1]
  · by_cases h2 : KeyCount = 2
    · simp [h2]
    · simp [h1, h2]

theorem cipherChain_lt (x : Nat) (rk : Nat → Nat) (n : Int) : cipherChain x rk n < 2 ^ 64 := by
  unfold cipherChain
  split
  · exact cipherForward_lt _ _
  · split <;> exact cipherForward_lt _ _

theorem read_be_uint64_eq (p : Nat → Nat) :
    read_be_uint64 p = ((((((p 0 * 256 + p 1) * 256 + p 2) * 256 + p 3) * 256 + p 4) * 256
      + p 5) * 256 + p 6) * 256 + p 7 := by
  simp [read_be_uint64, List.range_succ]

theorem write_be_uint64_eq (v : Nat) :
    write_be_uint64 v = [v / 256 ^ 7 % 256, v / 256 ^ 6 % 256, v / 256 ^ 5 % 256,
      v / 256 ^ 4 % 256, v / 256 ^ 3 % 256, v / 256 ^ 2 % 256, v / 256 ^ 1 % 256,
      v / 256 ^ 0 % 256] := by
  simp [write_be_uint64, List.range_succ]

theorem write_be_uint64_length (v : Nat) : (write_be_uint64 v).length = 8 := by
  simp [write_be_uint64]

theorem write_be_uint64_lt (v k : Nat) : ptr (write_be_uint64 v) k < 256 := by
  unfold ptr write_be_uint64
  rw [List.getD_eq_getElem?_getD, List.getElem?_map]
  cases h : (List.range 8)[k]? with
  | none => simp
  | some x => simp; omega

theorem read_write_be_uint64 (v : Nat) (hv : v < 2 ^ 64) :
    read_be_uint64 (ptr (write_be_uint64 v)) = v := by
  rw [read_be_uint64_eq, write_be_uint64_eq]
  simp only [ptr, List.getD_cons_zero, List.getD_cons_succ]
  norm_num
  omega

theorem range8_map (p : Nat → Nat) :
    (List.range 8).map p = [p 0, p 1, p 2, p 3, p 4, p 5, p 6, p 7] := by
  simp [List.range_succ]

theorem write_read_be_uint64 (p : Nat → Nat) (hp : ∀ k, k < 8 → p k < 256) :
    write_be_uint64 (read_be_uint64 p) = (List.range 8).map p := by
  rw [read_be_uint64_eq, write_be_uint64_eq, range8_map]
  have h0 := hp 0 (by omega); have h1 := hp 1 (by omega); have h2 := hp 2 (by omega)
  have h3 := hp 3 (by omega); have h4 := hp 4 (by omega); have h5 := hp 5 (by omega)
  have h6 := hp 6 (by omega); have h7 := hp 7 (by omega)
  norm_num
  refine ⟨?_, ?_, ?_, ?_, ?_, ?_, ?_, ?_⟩ <;> omega

theorem reverse_getD (K : Nat → Nat) (i : Nat) (hi : i < 16) :
    (_cipherKeyScheduleReverse K).getD i 0 = (_cipherKeySchedule K).getD (15 - i) 0 := by
  unfold _cipherKeyScheduleReverse _cipherKeySchedule
  simp only []
  rw [List.getD_eq_getElem?_getD, List.getElem?_map, List.getElem?_range hi]
  simp only [Option.map_some', Option.getD_some]

theorem storeRoundKeys_in (T : Nat → Nat) (off : Nat) (rk : List Nat) (j : Nat)
    (h1 : off ≤ j) (h2 : j < off + 16) : storeRoundKeys T off rk j = rk.getD (j - off) 0 := by
  unfold storeRoundKeys
  rw [if_pos ⟨h1, h2⟩]

theorem storeRoundKeys_out (T : Nat → Nat) (off : Nat) (rk : List Nat) (j : Nat)
    (h : j < off ∨ off + 16 ≤ j) : storeRoundKeys T off rk j = T j := by
  unfold storeRoundKeys
  rw [if_neg (by omega)]

theorem cipherKeySchedule_one (RK Keys : Nat → Nat) :
    cipherKeySchedule RK Keys 1
      = (1, storeRoundKeys RK 0 (_cipherKeySchedule (fun k => Keys (0 + k)))) := by
  simp [cipherKeySchedule]

theorem cipherKeySchedule_two (RK Keys : Nat → Nat) :
    cipherKeySchedule RK Keys 2
      = (2, storeRoundKeys (storeRoundKeys RK 0 (_cipherKeySchedule (fun k => Keys (0 + k))))
          16 (_cipherKeyScheduleReverse (fun k => Keys (8 + k)))) := by
  simp [cipherKeySchedule]

theorem cipherKeySchedule_three (RK Keys : Nat → Nat) :
    cipherKeySchedule RK Keys 3
      = (3, storeRoundKeys (storeRoundKeys
          (storeRoundKeys RK 0 (_cipherKeySchedule (fun k => Keys (0 + k))))
          16 (_cipherKeyScheduleReverse (fun k => Keys (8 + k))))
          32 (_cipherKeySchedule (fun k => Keys (16 + k)))) := by
  simp [cipherKeySchedule]

theorem cipherKeySchedule_invalid (RK Keys : Nat → Nat) (n : Int)
    (h : n ≠ 1 ∧ n ≠ 2 ∧ n ≠ 3) : cipherKeySchedule RK Keys n = (-1, RK) := by
  unfold cipherKeySchedule
  rw [if_pos h]

theorem cipherKeyScheduleReverse_one (RK Keys : Nat → Nat) :
    cipherKeyScheduleReverse RK Keys 1
      = (1, storeRoundKeys RK 0 (_cipherKeyScheduleReverse (fun k => Keys (0 + k)))) := by
  simp [cipherKeyScheduleReverse]

theorem cipherKeyScheduleReverse_two (RK Keys : Nat → Nat) :
    cipherKeyScheduleReverse RK Keys 2
      = (2, storeRoundKeys
          (storeRoundKeys RK 0 (_cipherKeyScheduleReverse (fun k => Keys (0 + k))))
          16 (_cipherKeySchedule (fun k => Keys (8 + k)))) := by
  simp [cipherKeyScheduleReverse]

theorem cipherKeyScheduleReverse_three (RK Keys : Nat → Nat) :
    cipherKeyScheduleReverse RK Keys 3
      = (3, storeRoundKeys (storeRoundKeys
          (storeRoundKeys (storeRoundKeys RK 0
            (_cipherKeyScheduleReverse (fun k => Keys (0 + k))))
            16 (_cipherKeySchedule (fun k => Keys (8 + k))))
          32 ((List.range 16).map (fun j => storeRoundKeys (storeRoundKeys RK 0
            (_cipherKeyScheduleReverse (fun k => Keys (0 + k))))
            16 (_cipherKeySchedule (fun k => Keys (8 + k))) j)))
          0 (_cipherKeyScheduleReverse (fun k => Keys (16 + k)))) := by
  simp [cipherKeyScheduleReverse]

theorem cipherKeyScheduleReverse_invalid (RK Keys : Nat → Nat) (n : Int)
    (h : n ≠ 1 ∧ n ≠ 2 ∧ n ≠ 3) : cipherKeyScheduleReverse RK Keys n = (-1, RK) := by
  unfold cipherKeyScheduleReverse
  rw [if_pos h]

/-- Forward-biased table layout. -/
theorem cipherKeySchedule_table (RK Keys : Nat → Nat) (n : Int) (hn : n = 1 ∨ n = 2 ∨ n = 3)
    (i : Nat) (hi : i < 16) :
    (cipherKeySchedule RK Keys n).1 = n ∧
    (cipherKeySchedule RK Keys n).2 i = (_cipherKeySchedule (fun k => Keys (0 + k))).getD i 0 ∧
    (n ≠ 1 → (cipherKeySchedule RK Keys n).2 (16 + i)
      = (_cipherKeyScheduleReverse (fun k => Keys (8 + k))).getD i 0) ∧
    (n = 3 → (cipherKeySchedule RK Keys n).2 (32 + i)
      = (_cipherKeySchedule (fun k => Keys (16 + k))).getD i 0) := by
  rcases hn with h | h | h <;> subst h
  · rw [cipherKeySchedule_one]
    dsimp only
    refine ⟨rfl, ?_, fun h => absurd rfl h, fun h => absurd h (by decide)⟩
    rw [storeRoundKeys_in _ _ _ _ (by omega) (by omega)]; rfl
  · rw [cipherKeySchedule_two]
    dsimp only
    refine ⟨rfl, ?_, fun _ => ?_, fun h => absurd h (by decide)⟩
    · rw [storeRoundKeys_out _ _ _ _ (by omega), storeRoundKeys_in _ _ _ _ (by omega) (by omega)]
      rfl
    · rw [storeRoundKeys_in _ _ _ _ (by omega) (by omega), Nat.add_sub_cancel_left]
  · rw [cipherKeySchedule_three]
    dsimp only
    refine ⟨rfl, ?_, fun _ => ?_, fun _ => ?_⟩
    · rw [storeRoundKeys_out _ _ _ _ (by omega), storeRoundKeys_out _ _ _ _ (by omega),
        storeRoundKeys_in _ _ _ _ (by omega) (by omega)]
      rfl
    · rw [storeRoundKeys_out _ _ _ _ (by omega),
        storeRoundKeys_in _ _ _ _ (by omega) (by omega), Nat.add_sub_cancel_left]
    · rw [storeRoundKeys_in _ _ _ _ (by omega) (by omega), Nat.add_sub_cancel_left]

/-- Reverse-biased table layout. -/
theorem cipherKeyScheduleReverse_table (RK Keys : Nat → Nat) (n : Int)
    (hn : n = 1 ∨ n = 2 ∨ n = 3) (i : Nat) (hi : i < 16) :
    (cipherKeyScheduleReverse RK Keys n).1 = n ∧
    (n ≠ 3 → (cipherKeyScheduleReverse RK Keys n).2 i
      = (_cipherKeyScheduleReverse (fun k => Keys (0 + k))).getD i 0) ∧
    (n ≠ 1 → (cipherKeyScheduleReverse RK Keys n).2 (16 + i)
      = (_cipherKeySchedule (fun k => Keys (8 + k))).getD i 0) ∧
    (n = 3 → (cipherKeyScheduleReverse RK Keys n).2 i
        = (_cipherKeyScheduleReverse (fun k => Keys (16 + k))).getD i 0 ∧
      (cipherKeyScheduleReverse RK Keys n).2 (32 + i)
        = (_cipherKeyScheduleReverse (fun k => Keys (0 + k))).getD i 0) := by
  rcases hn with h | h | h <;> subst h
  · rw [cipherKeyScheduleReverse_one]
    dsimp only
    refine ⟨rfl, fun _ => ?_, fun h => absurd rfl h, fun h => absurd h (by decide)⟩
    rw [storeRoundKeys_in _ _ _ _ (by omega) (by omega)]; rfl
  · rw [cipherKeyScheduleReverse_two]
    dsimp only
    refine ⟨rfl, fun _ => ?_, fun _ => ?_, fun h => absurd h (by decide)⟩
    · rw [storeRoundKeys_out _ _ _ _ (by omega), storeRoundKeys_in _ _ _ _ (by omega) (by omega)]
      rfl
    · rw [storeRoundKeys_in _ _ _ _ (by omega) (by omega), Nat.add_sub_cancel_left]
  · rw [cipherKeyScheduleReverse_three]
    dsimp only
    refine ⟨rfl, fun h => absurd rfl h, fun _ => ?_, fun _ => ⟨?_, ?_⟩⟩
    · rw [storeRoundKeys_out _ _ _ _ (by omega), storeRoundKeys_out _ _ _ _ (by omega),
        storeRoundKeys_in _ _ _ _ (by omega) (by omega), Nat.add_sub_cancel_left]
    · rw [storeRoundKeys_in _ _ _ _ (by omega) (by omega)]; rfl
    · rw [storeRoundKeys_out _ _ _ _ (by omega),
        storeRoundKeys_in _ _ _ _ (by omega) (by omega), Nat.add_sub_cancel_left,
        List.getD_eq_getElem?_getD, List.getElem?_map, List.getElem?_range hi]
      simp only [Option.map_some', Option.getD_some]
      rw [storeRoundKeys_out _ _ _ _ (by omega), storeRoundKeys_in _ _ _ _ (by omega) (by omega)]
      rfl

theorem forward_getD_mirror (K : Nat → Nat) (i : Nat) (hi : i < 16) :
    (_cipherKeySchedule K).getD i 0 = (_cipherKeyScheduleReverse K).getD (15 - i) 0 := by
  rw [reverse_getD K (15 - i) (by omega)]
  congr 1; omega

/-- The chain under the reverse-biased table inverts the chain under the
forward-biased table, and conversely. -/
theorem cipherChain_inverse (x : Nat) (hx : x < 2 ^ 64) (RK RK' Keys : Nat → Nat) (n : Int)
    (hn : n = 1 ∨ n = 2 ∨ n = 3) :
    cipherChain (cipherChain x (cipherKeySchedule RK Keys n).2 n)
        (cipherKeyScheduleReverse RK' Keys n).2 n = x ∧
    cipherChain (cipherChain x (cipherKeyScheduleReverse RK' Keys n).2 n)
        (cipherKeySchedule RK Keys n).2 n = x := by
  have hF := cipherKeySchedule_table RK Keys n hn
  have hR := cipherKeyScheduleReverse_table RK' Keys n hn
  generalize (cipherKeySchedule RK Keys n).2 = F at hF
  generalize (cipherKeyScheduleReverse RK' Keys n).2 = R at hR
  rcases hn with h | h | h <;> subst h
  · have e1 : ∀ i, i < 16 → R i = F (15 - i) := fun i hi => by
      rw [(hR i hi).2.1 (by decide), (hF (15 - i) (by omega)).2.1, reverse_getD _ i hi]
    have e2 : ∀ i, i < 16 → F i = R (15 - i) := fun i hi => by
      rw [(hR (15 - i) (by omega)).2.1 (by decide), (hF i hi).2.1, forward_getD_mirror _ i hi]
    simp only [cipherChain, if_true]
    exact ⟨cipherForward_reverse x hx F R e1, cipherForward_reverse x hx R F e2⟩
  · have e1 : ∀ i, i < 16 → R i = F (15 - i) := fun i hi => by
      rw [(hR i hi).2.1 (by decide), (hF (15 - i) (by omega)).2.1, reverse_getD _ i hi]
    have e2 : ∀ i, i < 16 → F i = R (15 - i) := fun i hi => by
      rw [(hR (15 - i) (by omega)).2.1 (by decide), (hF i hi).2.1, forward_getD_mirror _ i hi]
    have e3 : ∀ i, i < 16 → R (16 + i) = F (16 + (15 - i)) := fun i hi => by
      rw [(hR i hi).2.2.1 (by decide), (hF (15 - i) (by omega)).2.2.1 (by decide),
        forward_getD_mirror _ i hi]
    have e4 : ∀ i, i < 16 → F (16 + i) = R (16 + (15 - i)) := fun i hi => by
      rw [(hR (15 - i) (by omega)).2.2.1 (by decide), (hF i hi).2.2.1 (by decide),
        reverse_getD _ i hi]
    have d1 : (2 : Int) ≠ 1 := by decide
    simp only [cipherChain, if_neg d1, if_true]
    constructor
    · rw [cipherForward_reverse _ (cipherForward_lt _ _) F R e1,
        cipherForward_reverse _ (cipherForward_lt _ _) (fun j => F (16 + j))
          (fun j => R (16 + j)) e3,
        cipherForward_reverse x hx F R e1]
    · rw [cipherForward_reverse _ (cipherForward_lt _ _) R F e2,
        cipherForward_reverse _ (cipherForward_lt _ _) (fun j => R (16 + j))
          (fun j => F (16 + j)) e4,
        cipherForward_reverse x hx R F e2]
  · have e1 : ∀ i, i < 16 → R i = F (32 + (15 - i)) := fun i hi => by
      rw [((hR i hi).2.2.2 rfl).1, (hF (15 - i) (by omega)).2.2.2 rfl, reverse_getD _ i hi]
    have e2 : ∀ i, i < 16 → F (32 + i) = R (15 - i) := fun i hi => by
      rw [((hR (15 - i) (by omega)).2.2.2 rfl).1, (hF i hi).2.2.2 rfl,
        forward_getD_mirror _ i hi]
    have e3 : ∀ i, i < 16 → R (16 + i) = F (16 + (15 - i)) := fun i hi => by
      rw [(hR i hi).2.2.1 (by decide), (hF (15 - i) (by omega)).2.2.1 (by decide),
        forward_getD_mirror _ i hi]
    have e4 : ∀ i, i < 16 → F (16 + i) = R (16 + (15 - i)) := fun i hi => by
      rw [(hR (15 - i) (by omega)).2.2.1 (by decide), (hF i hi).2.2.1 (by decide),
        reverse_getD _ i hi]
    have e5 : ∀ i, i < 16 → R (32 + i) = F (15 - i) := fun i hi => by
      rw [((hR i hi).2.2.2 rfl).2, (hF (15 - i) (by omega)).2.1, reverse_getD _ i hi]
    have e6 : ∀ i, i < 16 → F i = R (32 + (15 - i)) := fun i hi => by
      rw [((hR (15 - i) (by omega)).2.2.2 rfl).2, (hF i hi).2.1, forward_getD_mirror _ i hi]
    have d1 : (3 : Int) ≠ 1 := by decide
    have d2 : (3 : Int) ≠ 2 := by decide
    simp only [cipherChain, if_neg d1, if_neg d2]
    constructor
    · rw [cipherForward_reverse _ (cipherForward_lt _ _) (fun j => F (32 + j)) R e1,
        cipherForward_reverse _ (cipherForward_lt _ _) (fun j => F (16 + j))
          (fun j => R (16 + j)) e3,
        cipherForward_reverse x hx F (fun j => R (32 + j)) e5]
    · rw [cipherForward_reverse _ (cipherForward_lt _ _) (fun j => R (32 + j)) F e6,
        cipherForward_reverse _ (cipherForward_lt _ _) (fun j => R (16 + j))
          (fun j => F (16 + j)) e4,
        cipherForward_reverse x hx R (fun j => F (32 + j)) e2]

/-- Block-level form of `cipherChain_inverse`. -/
theorem cipherSingleBlock_inverse (B RK RK' Keys : Nat → Nat) (n : Int)
    (hn : n = 1 ∨ n = 2 ∨ n = 3) (hB : ∀ k, k < 8 → B k < 256) :
    cipherSingleBlock (ptr (cipherSingleBlock B (cipherKeySchedule RK Keys n).2 n))
        (cipherKeyScheduleReverse RK' Keys n).2 n = (List.range 8).map B ∧
    cipherSingleBlock (ptr (cipherSingleBlock B (cipherKeyScheduleReverse RK' Keys n).2 n))
        (cipherKeySchedule RK Keys n).2 n = (List.range 8).map B := by
  have hx : read_be_uint64 B < 2 ^ 64 := by
    rw [read_be_uint64_eq]
    have h0 := hB 0 (by omega); have h1 := hB 1 (by omega); have h2 := hB 2 (by omega)
    have h3 := hB 3 (by omega); have h4 := hB 4 (by omega); have h5 := hB 5 (by omega)
    have h6 := hB 6 (by omega); have h7 := hB 7 (by omega)
    omega
  obtain ⟨c1, c2⟩ := cipherChain_inverse (read_be_uint64 B) hx RK RK' Keys n hn
  simp only [cipherSingleBlock_eq]
  rw [read_write_be_uint64 _ (cipherChain_lt _ _ _), read_write_be_uint64 _ (cipherChain_lt _ _ _),
    c1, c2, write_read_be_uint64 B hB]
  exact ⟨rfl, rfl⟩

theorem encryptLoop_eq (Data : Nat → Nat) (Length : Nat) (RK : Nat → Nat) (n : Int) :
    ∀ (d fuel : Nat) (st : EncState), st.i + d = Length / 8 → d < fuel →
      encryptLoop Data Length RK n fuel st = some ((encryptBody Data RK n)^[d] st) := by
  intro d
  induction d with
  | zero =>
    intro fuel st h hf
    obtain ⟨f, rfl⟩ : ∃ f, fuel = f + 1 := ⟨fuel - 1, by omega⟩
    have : ¬ (Length - st.i * 8 ≥ 8) := by omega
    simp only [encryptLoop, this, if_false, Function.iterate_zero, id_eq]
  | succ d ih =>
    intro fuel st h hf
    obtain ⟨f, rfl⟩ : ∃ f, fuel = f + 1 := ⟨fuel - 1, by omega⟩
    have : Length - st.i * 8 ≥ 8 := by omega
    simp only [encryptLoop, this, if_true, Function.iterate_succ, Function.comp_apply]
    exact ih f _ (by simp only [encryptBody]; omega) (by omega)

theorem cipherSingleBlock_length (D RK : Nat → Nat) (n : Int) :
    (cipherSingleBlock D RK n).length = 8 := by
  rw [cipherSingleBlock_eq, write_be_uint64_length]

theorem memcpy_apply (dst : Nat → Nat) (off : Nat) (src : Nat → Nat) (n a : Nat) :
    memcpy dst off src n a = if off ≤ a ∧ a < off + n then src (a - off) else dst a := rfl

theorem encryptBody_iterate (Data RK : Nat → Nat) (n : Int) (IV Result : Nat → Nat) (d : Nat) :
    ((encryptBody Data RK n)^[d] ⟨0, (List.range 8).map IV, Result⟩).i = d ∧
    ((encryptBody Data RK n)^[d] ⟨0, (List.range 8).map IV, Result⟩).LastBlock
      = encChain Data RK n IV d ∧
    ∀ a, ((encryptBody Data RK n)^[d] ⟨0, (List.range 8).map IV, Result⟩).Result a
      = if a < d * 8 then ptr (encChain Data RK n IV (a / 8 + 1)) (a % 8) else Result a := by
  induction d with
  | zero => exact ⟨rfl, rfl, fun a => by simp⟩
  | succ d ih =>
    obtain ⟨h1, h2, h3⟩ := ih
    rw [Function.iterate_succ_apply']
    generalize (encryptBody Data RK n)^[d] ⟨0, (List.range 8).map IV, Result⟩ = st at h1 h2 h3
    refine ⟨by simp only [encryptBody, h1], by simp only [encryptBody, h1, h2, encChain], ?_⟩
    intro a
    simp only [encryptBody, memcpy_apply, h1, h2, h3]
    by_cases c1 : a < d * 8
    · rw [if_neg (by omega), if_pos c1, if_pos (by omega)]
    · by_cases c2 : a < (d + 1) * 8
      · rw [if_pos (by omega), if_pos c2]
        have e1 : a / 8 = d := by omega
        have e2 : a - d * 8 = a % 8 := by omega
        rw [e1, e2]
        rfl
      · rw [if_neg (by omega), if_neg c1, if_neg c2]

theorem xorTail_apply (Result Data : Nat → Nat) (B : List Nat) (off m a : Nat) :
    xorTail Result Data B off m a
      = if off ≤ a ∧ a < off + m then ptr B (a - off) ^^^ Data a else Result a := by
  unfold xorTail
  induction m with
  | zero =>
    rw [if_neg (by omega)]
    rfl
  | succ m ih =>
    rw [List.range_succ, List.foldl_append]
    simp only [List.foldl_cons, List.foldl_nil, Function.update_apply]
    by_cases c : a = off + m
    · subst c
      simp
    · rw [if_neg c, ih]
      by_cases c2 : off ≤ a ∧ a < off + m
      · rw [if_pos c2, if_pos (by omega)]
      · rw [if_neg c2, if_neg (by omega)]

/-- The function `cipherCbcEncrypt` returns, and its output has the closed form
`encOutput`, whenever the length is positive and the key count valid. -/
theorem cipherCbcEncrypt_eq (Result Data : Nat → Nat) (Length : Nat) (Keys : Nat → Nat)
    (n : Int) (IV RK : Nat → Nat) (hL : 0 < Length) (hn : n = 1 ∨ n = 2 ∨ n = 3) :
    cipherCbcEncrypt Result Data Length Keys n IV RK
      = some (0, encOutput Result Data Length (cipherKeySchedule RK Keys n).2 n IV) := by
  have hk : (cipherKeySchedule RK Keys n).1 = n := (cipherKeySchedule_table RK Keys n hn 0 (by omega)).1
  have hn1 : ¬ n < 1 := by omega
  unfold cipherCbcEncrypt
  rw [if_neg (by omega)]
  simp only [hk, if_neg hn1]
  rw [encryptLoop_eq Data Length _ n (Length / 8) (Length + 1) _ (by simp) (by omega)]
  obtain ⟨h1, h2, h3⟩ := encryptBody_iterate Data (cipherKeySchedule RK Keys n).2 n IV Result
    (Length / 8)
  generalize (encryptBody Data (cipherKeySchedule RK Keys n).2 n)^[Length / 8]
    ⟨0, (List.range 8).map IV, Result⟩ = st at h1 h2 h3
  simp only [h1, h2]
  by_cases c : Length - Length / 8 * 8 > 0
  · rw [if_pos c]
    congr 2
    funext a
    rw [xorTail_apply, h3, encOutput]
    by_cases c1 : a < Length / 8 * 8
    · rw [if_neg (by omega), if_pos c1, if_pos c1]
    · rw [if_neg c1, if_neg c1]
      by_cases c2 : a < Length
      · rw [if_pos (by omega), if_pos c2]
      · rw [if_neg (by omega), if_neg c2]
  · rw [if_neg c]
    congr 2
    funext a
    rw [h3, encOutput]
    by_cases c1 : a < Length / 8 * 8
    · rw [if_pos c1, if_pos c1]
    · rw [if_neg c1, if_neg c1, if_neg (by omega)]

theorem decryptLoop_eq (Data : Nat → Nat) (Length : Nat) (RK : Nat → Nat) (n : Int) :
    ∀ (d fuel : Nat) (st : DecState), st.i + d = Length / 8 → d < fuel →
      decryptLoop Data Length RK n fuel st = some ((decryptBody Data RK n)^[d] st) := by
  intro d
  induction d with
  | zero =>
    intro fuel st h hf
    obtain ⟨f, rfl⟩ : ∃ f, fuel = f + 1 := ⟨fuel - 1, by omega⟩
    have : ¬ (Length - st.i * 8 ≥ 8) := by omega
    simp only [decryptLoop, this, if_false, Function.iterate_zero, id_eq]
  | succ d ih =>
    intro fuel st h hf
    obtain ⟨f, rfl⟩ : ∃ f, fuel = f + 1 := ⟨fuel - 1, by omega⟩
    have : Length - st.i * 8 ≥ 8 := by omega
    simp only [decryptLoop, this, if_true, Function.iterate_succ, Function.comp_apply]
    exact ih f _ (by simp only [decryptBody]; omega) (by omega)

theorem ptr_map_range (f : Nat → Nat) (m k : Nat) (hk : k < m) :
    ptr ((List.range m).map f) k = f k := by
  unfold ptr
  rw [List.getD_eq_getElem?_getD, List.getElem?_map, List.getElem?_range hk]
  rfl

theorem ptr_memxor (a b : Nat → Nat) (m k : Nat) (hk : k < m) :
    ptr (memxor a b m) k = a k ^^^ b k := ptr_map_range _ m k hk

theorem memxor_length (a b : Nat → Nat) (m : Nat) : (memxor a b m).length = m := by
  simp [memxor]

theorem decryptBody_iterate (Data RK : Nat → Nat) (n : Int) (IV Result : Nat → Nat)
    (TB : List Nat) (d : Nat) :
    ((decryptBody Data RK n)^[d] ⟨0, (List.range 8).map IV, TB, Result⟩).i = d ∧
    ((decryptBody Data RK n)^[d] ⟨0, (List.range 8).map IV, TB, Result⟩).LastBlock
      = (if d = 0 then (List.range 8).map IV else blockAt Data (d - 1)) ∧
    ((decryptBody Data RK n)^[d] ⟨0, (List.range 8).map IV, TB, Result⟩).TailBlock
      = (if d = 0 then TB else blockAt Data (d - 1)) ∧
    ∀ a, ((decryptBody Data RK n)^[d] ⟨0, (List.range 8).map IV, TB, Result⟩).Result a
      = if a < d * 8 then
          (if a / 8 = 0 then IV (a % 8) else Data (a - 8))
            ^^^ ptr (cipherSingleBlock (ptr (blockAt Data (a / 8))) RK n) (a % 8)
        else Result a := by
  induction d with
  | zero => exact ⟨rfl, rfl, rfl, fun a => by simp⟩
  | succ d ih =>
    obtain ⟨h1, h2, h3, h4⟩ := ih
    rw [Function.iterate_succ_apply']
    generalize (decryptBody Data RK n)^[d] ⟨0, (List.range 8).map IV, TB, Result⟩ = st
      at h1 h2 h3 h4
    refine ⟨by simp only [decryptBody, h1], by simp [decryptBody, h1, blockAt],
      by simp [decryptBody, h1, blockAt], ?_⟩
    intro a
    simp only [decryptBody, memcpy_apply, h1, h2, h4]
    by_cases c1 : a < d * 8
    · have n1 : ¬ (d * 8 ≤ a ∧ a < d * 8 + 8) := by omega
      have p2 : a < (d + 1) * 8 := by omega
      rw [if_neg n1, if_pos c1, if_pos p2]
    · by_cases c2 : a < (d + 1) * 8
      · have p1 : d * 8 ≤ a ∧ a < d * 8 + 8 := by omega
        rw [if_pos p1, if_pos c2]
        have e1 : a / 8 = d := by omega
        have e2 : a - d * 8 = a % 8 := by omega
        have e3 : a % 8 < 8 := by omega
        rw [e1, e2, ptr_memxor _ _ 8 _ e3]
        congr 1
        by_cases c3 : d = 0
        · rw [if_pos c3, if_pos c3, ptr_map_range _ 8 _ e3]
        · rw [if_neg c3, if_neg c3, blockAt, ptr_map_range _ 8 _ e3]
          congr 1; omega
      · have n1 : ¬ (d * 8 ≤ a ∧ a < d * 8 + 8) := by omega
        rw [if_neg n1, if_neg c1, if_neg c2]

/-- The function `cipherCbcDecrypt` returns, and its output has the closed form
`decOutput`, whenever the length is positive and the key count valid. -/
theorem cipherCbcDecrypt_eq (Result Data : Nat → Nat) (Length : Nat) (Keys : Nat → Nat)
    (n : Int) (IV RK : Nat → Nat) (TB : List Nat) (hL : 0 < Length)
    (hn : n = 1 ∨ n = 2 ∨ n = 3) :
    cipherCbcDecrypt Result Data Length Keys n IV RK TB
      = some (0, decOutput Result Data Length (cipherKeyScheduleReverse RK Keys n).2
          (cipherKeySchedule (cipherKeyScheduleReverse RK Keys n).2 Keys n).2 n IV TB) := by
  have hk : (cipherKeyScheduleReverse RK Keys n).1 = n :=
    (cipherKeyScheduleReverse_table RK Keys n hn 0 (by omega)).1
  have hn1 : ¬ n < 1 := by omega
  unfold cipherCbcDecrypt
  rw [if_neg (by omega)]
  simp only [hk, if_neg hn1]
  rw [decryptLoop_eq Data Length _ n (Length / 8) (Length + 1) _ (by simp) (by omega)]
  obtain ⟨h1, h2, h3, h4⟩ := decryptBody_iterate Data (cipherKeyScheduleReverse RK Keys n).2 n
    IV Result TB (Length / 8)
  generalize (decryptBody Data (cipherKeyScheduleReverse RK Keys n).2 n)^[Length / 8]
    ⟨0, (List.range 8).map IV, TB, Result⟩ = st at h1 h2 h3 h4
  simp only [h1, h3]
  by_cases c : Length - Length / 8 * 8 > 0
  · rw [if_pos c]
    congr 2
    funext a
    rw [xorTail_apply, h4, decOutput]
    by_cases c1 : a < Length / 8 * 8
    · have n1 : ¬ (Length / 8 * 8 ≤ a ∧ a < Length / 8 * 8 + (Length - Length / 8 * 8)) := by
        omega
      rw [if_neg n1, if_pos c1, if_pos c1]
    · by_cases c2 : a < Length
      · have p1 : Length / 8 * 8 ≤ a ∧ a < Length / 8 * 8 + (Length - Length / 8 * 8) := by
          omega
        rw [if_pos p1, if_neg c1, if_pos c2]
      · have n1 : ¬ (Length / 8 * 8 ≤ a ∧ a < Length / 8 * 8 + (Length - Length / 8 * 8)) := by
          omega
        rw [if_neg n1, if_neg c1, if_neg c1, if_neg c2]
  · rw [if_neg c]
    congr 2
    funext a
    rw [h4, decOutput]
    by_cases c1 : a < Length / 8 * 8
    · rw [if_pos c1, if_pos c1]
    · have n2 : ¬ a < Length := by omega
      rw [if_neg c1, if_neg c1, if_neg n2]

theorem rounds_congr (rk rk' : Nat → Nat) (n : Nat) (h : ∀ i, i < n → rk i = rk' i)
    (st : Nat × Nat) :
    (List.range n).foldl (cipherRound rk) st = (List.range n).foldl (cipherRound rk') st := by
  apply List.foldl_ext
  intro a b hb
  simp only [cipherRound, h b (List.mem_range.mp hb)]

/-- The forward transform reads only the 16 round keys it is given. -/
theorem cipherForward_congr (v : Nat) (rk rk' : Nat → Nat) (h : ∀ i, i < 16 → rk i = rk' i) :
    cipherForward v rk = cipherForward v rk' := by
  unfold cipherForward
  simp only [rounds_congr rk rk' 16 h]

theorem cipherChain_congr (x : Nat) (F F' : Nat → Nat) (n : Int)
    (h0 : ∀ i, i < 16 → F i = F' i)
    (h1 : n ≠ 1 → ∀ i, i < 16 → F (16 + i) = F' (16 + i))
    (h2 : n ≠ 1 → n ≠ 2 → ∀ i, i < 16 → F (32 + i) = F' (32 + i)) :
    cipherChain x F n = cipherChain x F' n := by
  unfold cipherChain
  by_cases c1 : n = 1
  · rw [if_pos c1, if_pos c1]
    exact cipherForward_congr _ _ _ h0
  · rw [if_neg c1, if_neg c1]
    by_cases c2 : n = 2
    · rw [if_pos c2, if_pos c2, cipherForward_congr x F F' h0,
        cipherForward_congr _ (fun j => F (16 + j)) (fun j => F' (16 + j)) (h1 c1),
        cipherForward_congr _ F F' h0]
    · rw [if_neg c2, if_neg c2, cipherForward_congr x F F' h0,
        cipherForward_congr _ (fun j => F (16 + j)) (fun j => F' (16 + j)) (h1 c1),
        cipherForward_congr _ (fun j => F (32 + j)) (fun j => F' (32 + j)) (h2 c1 c2)]

theorem read_be_uint64_congr (D D' : Nat → Nat) (h : ∀ k, k < 8 → D k = D' k) :
    read_be_uint64 D = read_be_uint64 D' := by
  rw [read_be_uint64_eq, read_be_uint64_eq, h 0 (by omega), h 1 (by omega), h 2 (by omega),
    h 3 (by omega), h 4 (by omega), h 5 (by omega), h 6 (by omega), h 7 (by omega)]

/-- The chained invocation reads only the eight bytes of its input block. -/
theorem cipherSingleBlock_congr_data (D D' RK : Nat → Nat) (n : Int)
    (h : ∀ k, k < 8 → D k = D' k) : cipherSingleBlock D RK n = cipherSingleBlock D' RK n := by
  rw [cipherSingleBlock_eq, cipherSingleBlock_eq, read_be_uint64_congr D D' h]

/-- Two forward-biased tables of the same key material give the same chain,
whatever the tables held before. -/
theorem cipherSingleBlock_forward_table (D RK RK' Keys : Nat → Nat) (n : Int)
    (hn : n = 1 ∨ n = 2 ∨ n = 3) :
    cipherSingleBlock D (cipherKeySchedule RK Keys n).2 n
      = cipherSingleBlock D (cipherKeySchedule RK' Keys n).2 n := by
  rw [cipherSingleBlock_eq, cipherSingleBlock_eq]
  refine congrArg write_be_uint64 (cipherChain_congr _ _ _ n ?_ ?_ ?_)
  · intro i hi
    rw [(cipherKeySchedule_table RK Keys n hn i hi).2.1,
      (cipherKeySchedule_table RK' Keys n hn i hi).2.1]
  · intro h1 i hi
    rw [(cipherKeySchedule_table RK Keys n hn i hi).2.2.1 h1,
      (cipherKeySchedule_table RK' Keys n hn i hi).2.2.1 h1]
  · intro h1 h2 i hi
    have h3 : n = 3 := by omega
    rw [(cipherKeySchedule_table RK Keys n hn i hi).2.2.2 h3,
      (cipherKeySchedule_table RK' Keys n hn i hi).2.2.2 h3]

theorem encChain_lt (Data RK : Nat → Nat) (n : Int) (IV : Nat → Nat)
    (hIV : ∀ k, k < 8 → IV k < 256) (j k : Nat) : ptr (encChain Data RK n IV j) k < 256 := by
  cases j with
  | zero =>
    by_cases hk : k < 8
    · rw [encChain, ptr_map_range _ 8 k hk]; exact hIV k hk
    · unfold ptr encChain
      rw [List.getD_eq_default _ _ (by simp; omega)]
      decide
  | succ j =>
    rw [encChain, cipherSingleBlock_eq]
    exact write_be_uint64_lt _ _

theorem xor_lt_256 (a b : Nat) (ha : a < 256) (hb : b < 256) : a ^^^ b < 256 :=
  Nat.xor_lt_two_pow (n := 8) ha hb

theorem xor_xor_cancel (a b : Nat) : a ^^^ (a ^^^ b) = b := by
  rw [← Nat.xor_assoc, Nat.xor_self, Nat.zero_xor]

theorem encOutput_block (R P : Nat → Nat) (L : Nat) (F : Nat → Nat) (n : Int) (IV : Nat → Nat)
    (j k : Nat) (hj : j < L / 8) (hk : k < 8) :
    encOutput R P L F n IV (j * 8 + k) = ptr (encChain P F n IV (j + 1)) k := by
  unfold encOutput
  have h1 : j * 8 + k < L / 8 * 8 := by omega
  have h2 : (j * 8 + k) / 8 = j := by omega
  have h3 : (j * 8 + k) % 8 = k := by omega
  simp only [h1, if_true, h2, h3]

theorem ptr_blockAt_encOutput (R P : Nat → Nat) (L : Nat) (F : Nat → Nat) (n : Int)
    (IV : Nat → Nat) (j : Nat) (hj : j < L / 8) (k : Nat) (hk : k < 8) :
    ptr (blockAt (encOutput R P L F n IV) j) k = ptr (encChain P F n IV (j + 1)) k := by
  rw [blockAt, ptr_map_range _ 8 k hk, encOutput_block R P L F n IV j k hj hk]

/-- Decrypting the output of the encryptor gives back every byte of a
full block. -/
theorem roundtrip_full_blocks (R R' P Keys IV RK RK' T : Nat → Nat) (TB : List Nat) (L : Nat)
    (n : Int) (hn : n = 1 ∨ n = 2 ∨ n = 3) (hP : ∀ a, a < L → P a < 256)
    (hIV : ∀ k, k < 8 → IV k < 256) (a : Nat) (ha : a < L / 8 * 8) :
    decOutput R' (encOutput R P L (cipherKeySchedule RK Keys n).2 n IV) L
      (cipherKeyScheduleReverse RK' Keys n).2 T n IV TB a = P a := by
  have hj : a / 8 < L / 8 := by omega
  have hk : a % 8 < 8 := by omega
  generalize hF : (cipherKeySchedule RK Keys n).2 = F
  have hprev : (if a / 8 = 0 then IV (a % 8) else encOutput R P L F n IV (a - 8))
      = ptr (encChain P F n IV (a / 8)) (a % 8) := by
    by_cases c : a / 8 = 0
    · rw [if_pos c, c, encChain, ptr_map_range _ 8 _ hk]
    · rw [if_neg c]
      have e : a - 8 = (a / 8 - 1) * 8 + a % 8 := by omega
      rw [e, encOutput_block R P L F n IV (a / 8 - 1) (a % 8) (by omega) hk]
      congr 2; omega
  have hX : ∀ k, k < 8 →
      ptr (memxor (ptr (encChain P F n IV (a / 8))) (fun k => P (a / 8 * 8 + k)) 8) k < 256 := by
    intro k hk8
    rw [ptr_memxor _ _ 8 k hk8]
    exact xor_lt_256 _ _ (encChain_lt P F n IV hIV _ _) (hP _ (by omega))
  have hblk : cipherSingleBlock (ptr (blockAt (encOutput R P L F n IV) (a / 8)))
      (cipherKeyScheduleReverse RK' Keys n).2 n
      = (List.range 8).map
          (ptr (memxor (ptr (encChain P F n IV (a / 8))) (fun k => P (a / 8 * 8 + k)) 8)) := by
    rw [cipherSingleBlock_congr_data _ (ptr (encChain P F n IV (a / 8 + 1))) _ n
      (ptr_blockAt_encOutput R P L F n IV (a / 8) hj), encChain, ← hF]
    exact (cipherSingleBlock_inverse _ RK RK' Keys n hn (by rw [hF]; exact hX)).1
  unfold decOutput
  rw [if_pos ha, hprev, hblk, ptr_map_range _ 8 _ hk, ptr_memxor _ _ 8 _ hk, xor_xor_cancel]
  congr 1; omega

/-- Decrypting the output of the encryptor gives back every byte of the
tail when at least one full block precedes it. -/
theorem roundtrip_tail (R R' P Keys IV RK Rv T : Nat → Nat) (TB : List Nat) (L : Nat)
    (n : Int) (hn : n = 1 ∨ n = 2 ∨ n = 3) (hm : 1 ≤ L / 8) (a : Nat)
    (ha : L / 8 * 8 ≤ a) (haL : a < L) :
    decOutput R' (encOutput R P L (cipherKeySchedule RK Keys n).2 n IV) L
      Rv (cipherKeySchedule T Keys n).2 n IV TB a = P a := by
  have h0 : ¬ a < L / 8 * 8 := by omega
  have h1 : ¬ L / 8 = 0 := by omega
  unfold decOutput
  rw [if_neg h0, if_pos haL, if_neg h1]
  rw [cipherSingleBlock_congr_data _
    (ptr (encChain P (cipherKeySchedule RK Keys n).2 n IV (L / 8 - 1 + 1))) _ n
    (ptr_blockAt_encOutput R P L _ n IV (L / 8 - 1) (by omega)),
    cipherSingleBlock_forward_table _ T RK Keys n hn]
  have e : L / 8 - 1 + 1 = L / 8 := by omega
  rw [e]
  conv => lhs; rhs; rw [encOutput, if_neg h0, if_pos haL]
  exact xor_xor_cancel _ _

/-- C1 (failing input). A three-byte buffer `41 42 43` encrypted with one
all-zero key and an all-zero IV becomes `CD E4 0E`; `cipherCbcDecrypt` of
that ciphertext with the same key and IV, when its uninitialised local
`TailBlock` holds eight bytes `FF`, returns 0 and outputs `F8 B1 5E`, not
the plaintext. With no full block the decryptor never assigns `TailBlock`,
while the encryptor took its keystream from the IV. -/
theorem cipherCbcDecrypt_short_buffer_not_inverse :
    ∃ c p,
      cipherCbcEncrypt zeroBuf shortData 3 zeroBuf 1 zeroBuf zeroBuf = some (0, c) ∧
      (List.range 3).map c = [0xCD, 0xE4, 0x0E] ∧
      cipherCbcDecrypt zeroBuf c 3 zeroBuf 1 zeroBuf zeroBuf
        [255, 255, 255, 255, 255, 255, 255, 255] = some (0, p) ∧
      (List.range 3).map p = [0xF8, 0xB1, 0x5E] ∧
      (List.range 3).map shortData = [0x41, 0x42, 0x43] := by
  refine ⟨_, _, cipherCbcEncrypt_eq zeroBuf shortData 3 zeroBuf 1 zeroBuf zeroBuf (by decide)
    (by decide), ?_, cipherCbcDecrypt_eq zeroBuf _ 3 zeroBuf 1 zeroBuf zeroBuf _ (by decide)
    (by decide), ?_, ?_⟩
  · decide
  · decide
  · decide

/-- C2. Tail keystream regeneration: for a buffer of `8 * m + r` bytes with
`m ≥ 1` and `1 ≤ r ≤ 7` and a key count in {1,2,3}, both drivers return 0,
both full-block loops finish, the keystream block that `cipherCbcDecrypt`
computes for the tail (`cipherSingleBlock` on `TailBlock`, which holds the
last full ciphertext block, under the table re-derived by
`cipherKeySchedule`) equals the one `cipherCbcEncrypt`
computed (`cipherSingleBlock` on `LastBlock`), and the last `r` bytes of the
decrypted output equal the last `r` bytes of the plaintext. -/
theorem tail_keystream_regenerated (R R' P Keys IV RK RK' : Nat → Nat) (TB : List Nat)
    (m r : Nat) (n : Int) (hm : 1 ≤ m) (hr1 : 1 ≤ r) (hr7 : r ≤ 7)
    (hn : n = 1 ∨ n = 2 ∨ n = 3) :
    ∃ c p stE stD,
      cipherCbcEncrypt R P (8 * m + r) Keys n IV RK = some (0, c) ∧
      cipherCbcDecrypt R' c (8 * m + r) Keys n IV RK' TB = some (0, p) ∧
      encryptLoop P (8 * m + r) (cipherKeySchedule RK Keys n).2 n (8 * m + r + 1)
        ⟨0, (List.range 8).map IV, R⟩ = some stE ∧
      decryptLoop c (8 * m + r) (cipherKeyScheduleReverse RK' Keys n).2 n (8 * m + r + 1)
        ⟨0, (List.range 8).map IV, TB, R'⟩ = some stD ∧
      stD.TailBlock = blockAt c (m - 1) ∧
      cipherSingleBlock (ptr stD.TailBlock)
          (cipherKeySchedule (cipherKeyScheduleReverse RK' Keys n).2 Keys n).2 n
        = cipherSingleBlock (ptr stE.LastBlock) (cipherKeySchedule RK Keys n).2 n ∧
      ∀ a, 8 * m ≤ a → a < 8 * m + r → p a = P a := by
  have hd : (8 * m + r) / 8 = m := by omega
  have hE := encryptBody_iterate P (cipherKeySchedule RK Keys n).2 n IV R m
  have hD := decryptBody_iterate
    (encOutput R P (8 * m + r) (cipherKeySchedule RK Keys n).2 n IV)
    (cipherKeyScheduleReverse RK' Keys n).2 n IV R' TB m
  refine ⟨_, _, _, _, cipherCbcEncrypt_eq R P _ Keys n IV RK (by omega) hn,
    cipherCbcDecrypt_eq R' _ _ Keys n IV RK' TB (by omega) hn,
    encryptLoop_eq P _ _ n m _ _ (by simp [hd]) (by omega),
    decryptLoop_eq _ _ _ n m _ _ (by simp [hd]) (by omega), ?_, ?_, ?_⟩
  · rw [hD.2.2.1, if_neg (by omega)]
  · rw [hE.2.1, hD.2.2.1, if_neg (by omega),
      cipherSingleBlock_forward_table _ _ RK Keys n hn]
    apply cipherSingleBlock_congr_data
    intro k hk
    have := ptr_blockAt_encOutput R P (8 * m + r) (cipherKeySchedule RK Keys n).2 n IV (m - 1)
      (by omega) k hk
    rw [this]
    congr 2; omega
  · intro a h1 h2
    exact roundtrip_tail R R' P Keys IV RK _ _ TB (8 * m + r) n hn (by omega) a (by omega) h2

/-- C2, at 11 bytes and three keys. -/
theorem tail_keystream_regenerated_witness :
    ∃ c p stE stD,
      cipherCbcEncrypt zeroBuf sampleData (8 * 1 + 3) sampleKeys 3 zeroBuf zeroBuf
        = some (0, c) ∧
      cipherCbcDecrypt zeroBuf c (8 * 1 + 3) sampleKeys 3 zeroBuf zeroBuf
        [0, 0, 0, 0, 0, 0, 0, 0] = some (0, p) ∧
      encryptLoop sampleData (8 * 1 + 3) (cipherKeySchedule zeroBuf sampleKeys 3).2 3
        (8 * 1 + 3 + 1) ⟨0, (List.range 8).map zeroBuf, zeroBuf⟩ = some stE ∧
      decryptLoop c (8 * 1 + 3) (cipherKeyScheduleReverse zeroBuf sampleKeys 3).2 3
        (8 * 1 + 3 + 1) ⟨0, (List.range 8).map zeroBuf, [0, 0, 0, 0, 0, 0, 0, 0], zeroBuf⟩
        = some stD ∧
      stD.TailBlock = blockAt c (1 - 1) ∧
      cipherSingleBlock (ptr stD.TailBlock)
          (cipherKeySchedule (cipherKeyScheduleReverse zeroBuf sampleKeys 3).2 sampleKeys 3).2 3
        = cipherSingleBlock (ptr stE.LastBlock) (cipherKeySchedule zeroBuf sampleKeys 3).2 3 ∧
      ∀ a, 8 * 1 ≤ a → a < 8 * 1 + 3 → p a = sampleData a :=
  tail_keystream_regenerated zeroBuf zeroBuf sampleData sampleKeys zeroBuf zeroBuf zeroBuf
    [0, 0, 0, 0, 0, 0, 0, 0] 1 3 3 (by decide) (by decide) (by decide) (by decide)

/-- C3. Chain inverse: for every 8-byte block `B`, key count `n` in {1,2,3}
and key material, `cipherSingleBlock` under the table written by
`cipherKeyScheduleReverse` applied to the result of `cipherSingleBlock`
under the table written by `cipherKeySchedule` returns `B`, and likewise in
the other order. -/
theorem chain_inverse (B RK RK' Keys : Nat → Nat) (n : Int)
    (hn : n = 1 ∨ n = 2 ∨ n = 3) (hB : ∀ k, k < 8 → B k < 256) :
    cipherSingleBlock (ptr (cipherSingleBlock B (cipherKeySchedule RK Keys n).2 n))
        (cipherKeyScheduleReverse RK' Keys n).2 n = (List.range 8).map B ∧
    cipherSingleBlock (ptr (cipherSingleBlock B (cipherKeyScheduleReverse RK' Keys n).2 n))
        (cipherKeySchedule RK Keys n).2 n = (List.range 8).map B :=
  cipherSingleBlock_inverse B RK RK' Keys n hn hB

/-- C3, at a sample block and three keys. -/
theorem chain_inverse_witness :
    (∀ k, k < 8 → sampleData k < 256) ∧
    cipherSingleBlock
        (ptr (cipherSingleBlock sampleData (cipherKeySchedule zeroBuf sampleKeys 3).2 3))
        (cipherKeyScheduleReverse zeroBuf sampleKeys 3).2 3 = (List.range 8).map sampleData ∧
    cipherSingleBlock
        (ptr (cipherSingleBlock sampleData (cipherKeyScheduleReverse zeroBuf sampleKeys 3).2 3))
        (cipherKeySchedule zeroBuf sampleKeys 3).2 3 = (List.range 8).map sampleData :=
  ⟨fun k _ => Nat.mod_lt _ (by decide),
    chain_inverse sampleData zeroBuf zeroBuf sampleKeys 3 (by decide)
      (fun k _ => Nat.mod_lt _ (by decide))⟩

/-- C4. Feistel inversion by schedule reversal: for every 64-bit `x` and
every 16 round keys `rk`, `cipherForward` run with the index-reversed keys
(`rk' i = rk (15 - i)`) undoes `cipherForward` run with `rk`; in particular
the schedule of `_cipherKeyScheduleReverse` undoes that of
`_cipherKeySchedule` for every key. -/
theorem feistel_inversion_by_schedule_reversal (x : Nat) (hx : x < 2 ^ 64) :
    (∀ rk rk' : Nat → Nat, (∀ i, i < 16 → rk' i = rk (15 - i)) →
      cipherForward (cipherForward x rk) rk' = x) ∧
    (∀ Key : Nat → Nat,
      cipherForward (cipherForward x (ptr (_cipherKeySchedule Key)))
        (ptr (_cipherKeyScheduleReverse Key)) = x) :=
  ⟨fun rk rk' h => cipherForward_reverse x hx rk rk' h,
    fun Key => cipherForward_reverse x hx _ _ (fun i hi => reverse_getD Key i hi)⟩

/-- C4, at `x = 0x0123456789ABCDEF`. -/
theorem feistel_inversion_by_schedule_reversal_witness :
    0x0123456789ABCDEF < 2 ^ 64 ∧
    (∀ rk rk' : Nat → Nat, (∀ i, i < 16 → rk' i = rk (15 - i)) →
      cipherForward (cipherForward 0x0123456789ABCDEF rk) rk' = 0x0123456789ABCDEF) ∧
    (∀ Key : Nat → Nat,
      cipherForward (cipherForward 0x0123456789ABCDEF (ptr (_cipherKeySchedule Key)))
        (ptr (_cipherKeyScheduleReverse Key)) = 0x0123456789ABCDEF) :=
  ⟨by decide, feistel_inversion_by_schedule_reversal 0x0123456789ABCDEF (by decide)⟩

theorem cipherCbcEncrypt_zero (R D Keys IV RK : Nat → Nat) (n : Int) :
    cipherCbcEncrypt R D 0 Keys n IV RK = some (-2, R) := by
  unfold cipherCbcEncrypt
  rw [if_pos (Nat.le_refl 0)]

theorem cipherCbcDecrypt_zero (R D Keys IV RK : Nat → Nat) (n : Int) (TB : List Nat) :
    cipherCbcDecrypt R D 0 Keys n IV RK TB = some (-2, R) := by
  unfold cipherCbcDecrypt
  rw [if_pos (Nat.le_refl 0)]

theorem cipherCbcEncrypt_invalid (R D : Nat → Nat) (L : Nat) (Keys IV RK : Nat → Nat) (n : Int)
    (hL : 0 < L) (hn : n ≠ 1 ∧ n ≠ 2 ∧ n ≠ 3) :
    cipherCbcEncrypt R D L Keys n IV RK = some (-1, R) := by
  unfold cipherCbcEncrypt
  rw [if_neg (by omega), cipherKeySchedule_invalid RK Keys n hn]
  simp

theorem cipherCbcDecrypt_invalid (R D : Nat → Nat) (L : Nat) (Keys IV RK : Nat → Nat) (n : Int)
    (TB : List Nat) (hL : 0 < L) (hn : n ≠ 1 ∧ n ≠ 2 ∧ n ≠ 3) :
    cipherCbcDecrypt R D L Keys n IV RK TB = some (-1, R) := by
  unfold cipherCbcDecrypt
  rw [if_neg (by omega), cipherKeyScheduleReverse_invalid RK Keys n hn]
  simp

/-- Both drivers return, with one of the three codes decided by the length
and the key count alone; the buffer is unchanged unless the code is 0. -/
theorem cbc_return_cases (R D : Nat → Nat) (L : Nat) (Keys : Nat → Nat) (n : Int)
    (IV RK : Nat → Nat) (TB : List Nat) :
    (L = 0 ∧ cipherCbcEncrypt R D L Keys n IV RK = some (-2, R) ∧
      cipherCbcDecrypt R D L Keys n IV RK TB = some (-2, R)) ∨
    (0 < L ∧ (n ≠ 1 ∧ n ≠ 2 ∧ n ≠ 3) ∧ cipherCbcEncrypt R D L Keys n IV RK = some (-1, R) ∧
      cipherCbcDecrypt R D L Keys n IV RK TB = some (-1, R)) ∨
    (0 < L ∧ (n = 1 ∨ n = 2 ∨ n = 3) ∧
      cipherCbcEncrypt R D L Keys n IV RK
        = some (0, encOutput R D L (cipherKeySchedule RK Keys n).2 n IV) ∧
      cipherCbcDecrypt R D L Keys n IV RK TB
        = some (0, decOutput R D L (cipherKeyScheduleReverse RK Keys n).2
          (cipherKeySchedule (cipherKeyScheduleReverse RK Keys n).2 Keys n).2 n IV TB)) := by
  by_cases hL : L = 0
  · subst hL
    exact Or.inl ⟨rfl, cipherCbcEncrypt_zero R D Keys IV RK n,
      cipherCbcDecrypt_zero R D Keys IV RK n TB⟩
  · have hL' : 0 < L := Nat.pos_of_ne_zero hL
    by_cases hn : n = 1 ∨ n = 2 ∨ n = 3
    · exact Or.inr (Or.inr ⟨hL', hn, cipherCbcEncrypt_eq R D L Keys n IV RK hL' hn,
        cipherCbcDecrypt_eq R D L Keys n IV RK TB hL' hn⟩)
    · have hn' : n ≠ 1 ∧ n ≠ 2 ∧ n ≠ 3 := by omega
      exact Or.inr (Or.inl ⟨hL', hn', cipherCbcEncrypt_invalid R D L Keys IV RK n hL' hn',
        cipherCbcDecrypt_invalid R D L Keys IV RK n TB hL' hn'⟩)

/-- C6. Error surfacing: each of `cipherCbcEncrypt` and `cipherCbcDecrypt`
returns; the code is -2 exactly when `Length` is 0, -1 exactly when `Length`
is positive and `KeyCount` is none of 1, 2, 3, and 0 exactly in the
remaining cases. -/
theorem error_surfacing (R D : Nat → Nat) (L : Nat) (Keys : Nat → Nat) (n : Int)
    (IV RK : Nat → Nat) (TB : List Nat) :
    (∃ r R', cipherCbcEncrypt R D L Keys n IV RK = some (r, R') ∧
      (r = -2 ↔ L = 0) ∧ (r = -1 ↔ (0 < L ∧ n ≠ 1 ∧ n ≠ 2 ∧ n ≠ 3)) ∧
      (r = 0 ↔ (0 < L ∧ (n = 1 ∨ n = 2 ∨ n = 3)))) ∧
    (∃ r R', cipherCbcDecrypt R D L Keys n IV RK TB = some (r, R') ∧
      (r = -2 ↔ L = 0) ∧ (r = -1 ↔ (0 < L ∧ n ≠ 1 ∧ n ≠ 2 ∧ n ≠ 3)) ∧
      (r = 0 ↔ (0 < L ∧ (n = 1 ∨ n = 2 ∨ n = 3)))) := by
  rcases cbc_return_cases R D L Keys n IV RK TB with ⟨h0, hE, hD⟩ | ⟨h0, h1, hE, hD⟩ |
    ⟨h0, h1, hE, hD⟩
  · refine ⟨⟨-2, R, hE, ?_, ?_, ?_⟩, ⟨-2, R, hD, ?_, ?_, ?_⟩⟩ <;> constructor <;> intro h <;> omega
  · refine ⟨⟨-1, R, hE, ?_, ?_, ?_⟩, ⟨-1, R, hD, ?_, ?_, ?_⟩⟩ <;> constructor <;> intro h <;> omega
  · refine ⟨⟨0, _, hE, ?_, ?_, ?_⟩, ⟨0, _, hD, ?_, ?_, ?_⟩⟩ <;> constructor <;> intro h <;> omega

/-- C7. Atomicity on error: whenever `cipherCbcEncrypt` or `cipherCbcDecrypt`
returns a non-zero code, the `Result` buffer after the call is the buffer
before the call. -/
theorem atomicity_on_error (R D : Nat → Nat) (L : Nat) (Keys : Nat → Nat) (n : Int)
    (IV RK : Nat → Nat) (TB : List Nat) (r : Int) (R' : Nat → Nat) (hr : r ≠ 0) :
    (cipherCbcEncrypt R D L Keys n IV RK = some (r, R') → R' = R) ∧
    (cipherCbcDecrypt R D L Keys n IV RK TB = some (r, R') → R' = R) := by
  rcases cbc_return_cases R D L Keys n IV RK TB with ⟨_, hE, hD⟩ | ⟨_, _, hE, hD⟩ |
    ⟨_, _, hE, hD⟩
  · rw [hE, hD]
    constructor <;> intro h <;> exact (Prod.mk.inj (Option.some.inj h)).2.symm
  · rw [hE, hD]
    constructor <;> intro h <;> exact (Prod.mk.inj (Option.some.inj h)).2.symm
  · rw [hE, hD]
    constructor <;> intro h <;> exact absurd (Prod.mk.inj (Option.some.inj h)).1.symm hr

/-- C7, at `Length = 0` for the encryptor and `KeyCount = 4` for the decryptor. -/
theorem atomicity_on_error_witness :
    (cipherCbcEncrypt sampleData zeroBuf 0 zeroBuf 1 zeroBuf zeroBuf = some (-2, sampleData) →
      sampleData = sampleData) ∧
    (cipherCbcDecrypt sampleData zeroBuf 8 zeroBuf 4 zeroBuf zeroBuf [0, 0, 0, 0, 0, 0, 0, 0]
        = some (-1, sampleData) →
      sampleData = sampleData) ∧
    cipherCbcEncrypt sampleData zeroBuf 0 zeroBuf 1 zeroBuf zeroBuf = some (-2, sampleData) ∧
    cipherCbcDecrypt sampleData zeroBuf 8 zeroBuf 4 zeroBuf zeroBuf [0, 0, 0, 0, 0, 0, 0, 0]
      = some (-1, sampleData) :=
  ⟨(atomicity_on_error sampleData zeroBuf 0 zeroBuf 1 zeroBuf zeroBuf [0, 0, 0, 0, 0, 0, 0, 0]
      (-2) sampleData
      (by decide)).1,
    (atomicity_on_error sampleData zeroBuf 8 zeroBuf 4 zeroBuf zeroBuf [0, 0, 0, 0, 0, 0, 0, 0]
      (-1) sampleData
      (by decide)).2,
    cipherCbcEncrypt_zero _ _ _ _ _ _,
    cipherCbcDecrypt_invalid _ _ _ _ _ _ _ _ (by decide) (by decide)⟩

theorem keySchedule_congr (K K' : Nat → Nat) (h : ∀ k, k < 8 → K k = K' k) :
    _cipherKeySchedule K = _cipherKeySchedule K' ∧
    _cipherKeyScheduleReverse K = _cipherKeyScheduleReverse K' := by
  unfold _cipherKeySchedule _cipherKeyScheduleReverse
  rw [read_be_uint64_congr K K' h]
  exact ⟨rfl, rfl⟩

/-- With two keys the third stage reuses schedule 0, which is what three
keys `K0, K1, K0` give. -/
theorem cipherSingleBlock_two_three (D RK RK' Keys2 Keys3 : Nat → Nat)
    (h0 : ∀ k, k < 16 → Keys3 k = Keys2 k) (h2 : ∀ k, k < 8 → Keys3 (16 + k) = Keys2 k) :
    cipherSingleBlock D (cipherKeySchedule RK Keys2 2).2 2
      = cipherSingleBlock D (cipherKeySchedule RK' Keys3 3).2 3 := by
  have t2 := cipherKeySchedule_table RK Keys2 2 (by decide)
  have t3 := cipherKeySchedule_table RK' Keys3 3 (by decide)
  generalize (cipherKeySchedule RK Keys2 2).2 = F2 at t2
  generalize (cipherKeySchedule RK' Keys3 3).2 = F3 at t3
  have d1 : (2 : Int) ≠ 1 := by decide
  have d2 : (3 : Int) ≠ 1 := by decide
  have d3 : (3 : Int) ≠ 2 := by decide
  have k0 := keySchedule_congr (fun k => Keys3 (0 + k)) (fun k => Keys2 (0 + k))
    (fun k hk => by simp only [Nat.zero_add]; exact h0 k (by omega))
  have k1 := keySchedule_congr (fun k => Keys3 (8 + k)) (fun k => Keys2 (8 + k))
    (fun k hk => h0 (8 + k) (by omega))
  have k2 := keySchedule_congr (fun k => Keys3 (16 + k)) (fun k => Keys2 (0 + k))
    (fun k hk => by simp only [Nat.zero_add]; exact h2 k hk)
  have e0 : ∀ i, i < 16 → F2 i = F3 i := fun i hi => by
    rw [(t2 i hi).2.1, (t3 i hi).2.1, k0.1]
  have e1 : ∀ i, i < 16 → F2 (16 + i) = F3 (16 + i) := fun i hi => by
    rw [(t2 i hi).2.2.1 d1, (t3 i hi).2.2.1 d2, k1.2]
  have e2 : ∀ i, i < 16 → F2 i = F3 (32 + i) := fun i hi => by
    rw [(t2 i hi).2.1, (t3 i hi).2.2.2 rfl, k2.1]
  rw [cipherSingleBlock_eq, cipherSingleBlock_eq]
  simp only [cipherChain, if_neg d1, if_neg d2, if_neg d3, if_true]
  rw [cipherForward_congr (cipherForward (cipherForward (read_be_uint64 D) F2)
      (fun j => F2 (16 + j))) F2 (fun j => F3 (32 + j)) e2,
    cipherForward_congr (cipherForward (read_be_uint64 D) F2)
      (fun j => F2 (16 + j)) (fun j => F3 (16 + j)) e1,
    cipherForward_congr (read_be_uint64 D) F2 F3 e0]

theorem encChain_congr_block (D F F' : Nat → Nat) (n n' : Int) (IV : Nat → Nat)
    (h : ∀ B, cipherSingleBlock B F n = cipherSingleBlock B F' n') (j : Nat) :
    encChain D F n IV j = encChain D F' n' IV j := by
  induction j with
  | zero => rfl
  | succ j ih => rw [encChain, encChain, ih, h]

theorem encOutput_congr_block (R D : Nat → Nat) (L : Nat) (F F' : Nat → Nat) (n n' : Int)
    (IV : Nat → Nat) (h : ∀ B, cipherSingleBlock B F n = cipherSingleBlock B F' n') :
    encOutput R D L F n IV = encOutput R D L F' n' IV := by
  funext a
  simp only [encOutput, encChain_congr_block D F F' n n' IV h, h]

/-- C8. Key-reuse equivalence: `cipherCbcEncrypt` with `KeyCount = 2` and
keys `K0 || K1` gives the same return value and the same output buffer as
with `KeyCount = 3` and keys `K0 || K1 || K0`, for every plaintext (empty or
not) and IV. -/
theorem key_reuse_equivalence (R D : Nat → Nat) (L : Nat) (Keys2 Keys3 IV RK RK' : Nat → Nat)
    (h0 : ∀ k, k < 16 → Keys3 k = Keys2 k) (h2 : ∀ k, k < 8 → Keys3 (16 + k) = Keys2 k) :
    cipherCbcEncrypt R D L Keys2 2 IV RK = cipherCbcEncrypt R D L Keys3 3 IV RK' := by
  by_cases hL : L = 0
  · subst hL
    rw [cipherCbcEncrypt_zero, cipherCbcEncrypt_zero]
  · have hL' : 0 < L := Nat.pos_of_ne_zero hL
    rw [cipherCbcEncrypt_eq R D L Keys2 2 IV RK hL' (by decide),
      cipherCbcEncrypt_eq R D L Keys3 3 IV RK' hL' (by decide),
      encOutput_congr_block R D L _ _ 2 3 IV
        (fun B => cipherSingleBlock_two_three B RK RK' Keys2 Keys3 h0 h2)]

/-- C8, at 11 bytes of sample data: `sampleKeys` is `K0 || K1 || K0`. -/
theorem key_reuse_equivalence_witness :
    cipherCbcEncrypt zeroBuf sampleData 11 sampleKeys 2 zeroBuf zeroBuf
      = cipherCbcEncrypt zeroBuf sampleData 11 sampleKeys 3 zeroBuf zeroBuf :=
  key_reuse_equivalence zeroBuf sampleData 11 sampleKeys sampleKeys zeroBuf zeroBuf zeroBuf
    (fun _ _ => rfl) (by decide)

/-- C9. Length preservation: for `Length ≥ 1` and a key count in {1,2,3},
the full-block loop of `cipherCbcEncrypt` ends after exactly `Length / 8`
executions of its body with its condition false; the call returns 0; the
output holds ciphertext block `j` at bytes `8 j .. 8 j + 7` for every
`j < Length / 8`, then `Length mod 8` tail bytes (keystream XOR data); no
byte at an index `≥ Length` differs from the buffer before the call; and
every byte below `Length` is independent of that earlier content. -/
theorem length_preservation (R D : Nat → Nat) (L : Nat) (Keys : Nat → Nat) (n : Int)
    (IV RK : Nat → Nat) (hL : 1 ≤ L) (hn : n = 1 ∨ n = 2 ∨ n = 3) :
    ∃ st c,
      encryptLoop D L (cipherKeySchedule RK Keys n).2 n (L + 1) ⟨0, (List.range 8).map IV, R⟩
        = some st ∧
      st = (encryptBody D (cipherKeySchedule RK Keys n).2 n)^[L / 8]
        ⟨0, (List.range 8).map IV, R⟩ ∧
      st.i = L / 8 ∧ ¬ (L - st.i * 8 ≥ 8) ∧
      cipherCbcEncrypt R D L Keys n IV RK = some (0, c) ∧
      (∀ j k, j < L / 8 → k < 8 →
        c (j * 8 + k) = ptr (encChain D (cipherKeySchedule RK Keys n).2 n IV (j + 1)) k) ∧
      (∀ a, L / 8 * 8 ≤ a → a < L → a - L / 8 * 8 < L % 8 ∧
        c a = ptr (cipherSingleBlock (ptr st.LastBlock) (cipherKeySchedule RK Keys n).2 n)
          (a - L / 8 * 8) ^^^ D a) ∧
      (∀ a, L ≤ a → c a = R a) ∧
      (∀ R₂, ∃ c₂, cipherCbcEncrypt R₂ D L Keys n IV RK = some (0, c₂) ∧
        ∀ a, a < L → c₂ a = c a) := by
  have hE := encryptBody_iterate D (cipherKeySchedule RK Keys n).2 n IV R (L / 8)
  refine ⟨_, _, encryptLoop_eq D L _ n (L / 8) _ _ (by simp) (by omega), rfl, hE.1,
    by rw [hE.1]; omega, cipherCbcEncrypt_eq R D L Keys n IV RK (by omega) hn, ?_, ?_, ?_, ?_⟩
  · intro j k hj hk
    exact encOutput_block R D L _ n IV j k hj hk
  · intro a h1 h2
    have h0 : ¬ a < L / 8 * 8 := by omega
    refine ⟨by omega, ?_⟩
    rw [hE.2.1, encOutput, if_neg h0, if_pos h2]
  · intro a h1
    have h0 : ¬ a < L / 8 * 8 := by omega
    have h2 : ¬ a < L := by omega
    rw [encOutput, if_neg h0, if_neg h2]
  · intro R₂
    refine ⟨_, cipherCbcEncrypt_eq R₂ D L Keys n IV RK (by omega) hn, ?_⟩
    intro a ha
    by_cases h0 : a < L / 8 * 8
    · rw [encOutput, encOutput, if_pos h0, if_pos h0]
    · rw [encOutput, encOutput, if_neg h0, if_neg h0, if_pos ha, if_pos ha]

/-- C9, at 11 bytes and two keys. -/
theorem length_preservation_witness :
    ∃ st c,
      encryptLoop sampleData 11 (cipherKeySchedule zeroBuf sampleKeys 2).2 2 (11 + 1)
        ⟨0, (List.range 8).map zeroBuf, zeroBuf⟩ = some st ∧
      st = (encryptBody sampleData (cipherKeySchedule zeroBuf sampleKeys 2).2 2)^[11 / 8]
        ⟨0, (List.range 8).map zeroBuf, zeroBuf⟩ ∧
      st.i = 11 / 8 ∧ ¬ (11 - st.i * 8 ≥ 8) ∧
      cipherCbcEncrypt zeroBuf sampleData 11 sampleKeys 2 zeroBuf zeroBuf = some (0, c) ∧
      (∀ j k, j < 11 / 8 → k < 8 →
        c (j * 8 + k)
          = ptr (encChain sampleData (cipherKeySchedule zeroBuf sampleKeys 2).2 2 zeroBuf
              (j + 1)) k) ∧
      (∀ a, 11 / 8 * 8 ≤ a → a < 11 → a - 11 / 8 * 8 < 11 % 8 ∧
        c a = ptr (cipherSingleBlock (ptr st.LastBlock)
            (cipherKeySchedule zeroBuf sampleKeys 2).2 2) (a - 11 / 8 * 8) ^^^ sampleData a) ∧
      (∀ a, 11 ≤ a → c a = zeroBuf a) ∧
      (∀ R₂, ∃ c₂, cipherCbcEncrypt R₂ sampleData 11 sampleKeys 2 zeroBuf zeroBuf
          = some (0, c₂) ∧ ∀ a, a < 11 → c₂ a = c a) :=
  length_preservation zeroBuf sampleData 11 sampleKeys 2 zeroBuf zeroBuf (by decide) (by decide)

theorem memxor_congr (a b b' : Nat → Nat) (m : Nat) (h : ∀ k, k < m → b k = b' k) :
    memxor a b m = memxor a b' m := by
  unfold memxor
  apply List.map_congr_left
  intro k hk
  rw [h k (List.mem_range.mp hk)]

/-- The chaining block before block `m` depends on the data only through
blocks `0 .. m - 1`. -/
theorem encChain_prefix (D₁ D₂ F : Nat → Nat) (n : Int) (IV : Nat → Nat) (m : Nat)
    (h : ∀ j k, j < m → k < 8 → D₁ (j * 8 + k) = D₂ (j * 8 + k)) :
    encChain D₁ F n IV m = encChain D₂ F n IV m := by
  induction m with
  | zero => rfl
  | succ m ih =>
    rw [encChain, encChain, ih (fun j k hj hk => h j k (by omega) hk),
      memxor_congr _ (fun k => D₁ (m * 8 + k)) (fun k => D₂ (m * 8 + k)) 8
        (fun k hk => h m k (by omega) hk)]

/-- C10. Chaining prefix: for fixed keys, key count, IV and length, if two
plaintexts agree on every full block with index below `i`, then
`cipherCbcEncrypt` returns the same code for both and the two outputs agree
on every full block with index below `i`. -/
theorem chaining_prefix (R D₁ D₂ : Nat → Nat) (L : Nat) (Keys : Nat → Nat) (n : Int)
    (IV RK : Nat → Nat) (i : Nat)
    (h : ∀ j k, j < i → j < L / 8 → k < 8 → D₁ (j * 8 + k) = D₂ (j * 8 + k)) :
    ∃ r c₁ c₂,
      cipherCbcEncrypt R D₁ L Keys n IV RK = some (r, c₁) ∧
      cipherCbcEncrypt R D₂ L Keys n IV RK = some (r, c₂) ∧
      ∀ j k, j < i → j < L / 8 → k < 8 → c₁ (j * 8 + k) = c₂ (j * 8 + k) := by
  rcases cbc_return_cases R D₁ L Keys n IV RK [] with ⟨h0, hE, _⟩ | ⟨h0, h1, hE, _⟩ |
    ⟨h0, h1, hE, _⟩
  · subst h0
    exact ⟨-2, R, R, hE, cipherCbcEncrypt_zero R D₂ Keys IV RK n, fun _ _ _ _ _ => rfl⟩
  · exact ⟨-1, R, R, hE, cipherCbcEncrypt_invalid R D₂ L Keys IV RK n h0 h1,
      fun _ _ _ _ _ => rfl⟩
  · refine ⟨0, _, _, hE, cipherCbcEncrypt_eq R D₂ L Keys n IV RK h0 h1, ?_⟩
    intro j k hj hjL hk
    rw [encOutput_block R D₁ L _ n IV j k hjL hk, encOutput_block R D₂ L _ n IV j k hjL hk,
      encChain_prefix D₁ D₂ _ n IV (j + 1)
        (fun j' k' hj' hk' => h j' k' (by omega) (by omega) hk')]

/-- C10, at 24 bytes: the sample data and a copy whose byte 16 is changed
share blocks 0 and 1. -/
theorem chaining_prefix_witness :
    ∃ r c₁ c₂,
      cipherCbcEncrypt zeroBuf sampleData 24 sampleKeys 3 zeroBuf zeroBuf = some (r, c₁) ∧
      cipherCbcEncrypt zeroBuf (Function.update sampleData 16 0) 24 sampleKeys 3 zeroBuf zeroBuf
        = some (r, c₂) ∧
      ∀ j k, j < 2 → j < 24 / 8 → k < 8 → c₁ (j * 8 + k) = c₂ (j * 8 + k) :=
  chaining_prefix zeroBuf sampleData (Function.update sampleData 16 0) 24 sampleKeys 3
    zeroBuf zeroBuf 2 (fun j k hj _ hk => by
      rw [Function.update_noteq (by omega)])

theorem testBit_foldl_bit (g : Nat → Bool) (T : List Nat) : ∀ (acc b : Nat),
    (T.foldl (fun acc k => Nat.bit (g k) acc) acc).testBit b
      = if b < T.length then g (T.getD (T.length - 1 - b) 0) else acc.testBit (b - T.length) := by
  induction T with
  | nil => intro acc b; simp
  | cons t T ih =>
    intro acc b
    rw [List.foldl_cons, ih]
    by_cases h1 : b < T.length
    · rw [if_pos h1, if_pos (by simp only [List.length_cons]; omega)]
      have e : (t :: T).length - 1 - b = (T.length - 1 - b) + 1 := by
        simp only [List.length_cons]; omega
      rw [e, List.getD_cons_succ]
    · rw [if_neg h1]
      by_cases h2 : b = T.length
      · subst h2
        rw [if_pos (by simp only [List.length_cons]; omega), Nat.sub_self, Nat.testBit_bit_zero]
        have e : (t :: T).length - 1 - T.length = 0 := by simp only [List.length_cons]; omega
        rw [e, List.getD_cons_zero]
      · rw [if_neg (by simp only [List.length_cons]; omega)]
        have e : b - T.length = (b - (t :: T).length) + 1 := by
          simp only [List.length_cons]; omega
        rw [e, Nat.testBit_bit_succ]

/-- Bits of a FIPS 46-3 selection. -/
theorem testBit_select (T : List Nat) (w v b : Nat) :
    (FIPS46.select T w v).testBit b
      = (decide (b < T.length) && v.testBit (w - T.getD (T.length - 1 - b) 0)) := by
  unfold FIPS46.select
  rw [testBit_foldl_bit (fun k => FIPS46.bit w v k)]
  by_cases h : b < T.length
  · simp [h, FIPS46.bit]
  · simp [h]

/-- The bit-selection loops of the implementation compute a FIPS 46-3 selection. -/
theorem selectLoop_eq_select (T : List Nat) (w v : Nat) :
    (List.range T.length).foldl (fun out i =>
      if v &&& (1 <<< (w - T.getD i 0)) ≠ 0 then out ||| (1 <<< (T.length - 1 - i))
      else out) 0 = FIPS46.select T w v := by
  apply Nat.eq_of_testBit_eq
  intro b
  rw [testBit_selectLoop (fun i => v &&& (1 <<< (w - T.getD i 0)) ≠ 0)
    (fun i => T.length - 1 - i), testBit_select, Bool.eq_iff_iff]
  simp only [and_one_shiftLeft_ne_zero, decide_eq_true_eq, Bool.and_eq_true]
  constructor
  · rintro ⟨i, hi, h1, h2⟩
    have : i = T.length - 1 - b := by omega
    subst this
    exact ⟨by omega, h1⟩
  · rintro ⟨hb, h⟩
    exact ⟨T.length - 1 - b, by omega, h, by omega⟩

theorem cipherIP_eq_select (v : Nat) : cipherIP v = FIPS46.select FIPS46.IP 64 v :=
  selectLoop_eq_select IP_table 64 v

theorem cipherIPInverse_eq_select (v : Nat) :
    cipherIPInverse v = FIPS46.select FIPS46.IPinv 64 v :=
  selectLoop_eq_select IPinv_table 64 v

theorem keyInput_eq_select (Key : Nat) : keyInput Key = FIPS46.select FIPS46.PC1 64 Key :=
  selectLoop_eq_select PC1_table 64 Key

theorem select_lt (T : List Nat) (w v : Nat) : FIPS46.select T w v < 2 ^ T.length := by
  apply Nat.lt_pow_two_of_testBit
  intro i hi
  rw [testBit_select]
  have : ¬ i < T.length := by omega
  simp [this]

theorem select_or (T : List Nat) (w a b : Nat) :
    FIPS46.select T w (a ||| b) = FIPS46.select T w a ||| FIPS46.select T w b := by
  apply Nat.eq_of_testBit_eq
  intro i
  simp only [testBit_select, Nat.testBit_or, Bool.and_or_distrib_left]

theorem keyRound_foldl (C D : Nat) (n : Nat) :
    (List.range n).foldl keyRound (C, D, [])
      = ((keyHalves C D n).1, (keyHalves C D n).2,
          (List.range n).map (fun i =>
            keySelect (keyHalves C D (i + 1)).1 (keyHalves C D (i + 1)).2)) := by
  induction n with
  | zero => rfl
  | succ n ih =>
    rw [List.range_succ, List.foldl_append, ih]
    simp only [List.foldl_cons, List.foldl_nil, keyRound, List.map_append, List.map_cons,
      List.map_nil, keyHalves]

theorem testBit_ge_of_lt (C n b : Nat) (h : C < 2 ^ n) (hb : n ≤ b) : C.testBit b = false :=
  Nat.testBit_lt_two_pow (lt_of_lt_of_le h (Nat.pow_le_pow_right (by decide) hb))

/-- Bits of one FIPS 46-3 left shift of a 28-bit block. -/
theorem testBit_leftShift (c j : Nat) (hc : c < 2 ^ 28) :
    (FIPS46.leftShift c).testBit j = (decide (j < 28) && c.testBit ((j + 27) % 28)) := by
  have e : FIPS46.leftShift c = 2 ^ 1 * (c % 2 ^ 27) + c / 2 ^ 27 := by
    unfold FIPS46.leftShift; omega
  have hlt : c / 2 ^ 27 < 2 ^ 1 := by omega
  rw [e, Nat.testBit_mul_pow_two_add _ hlt]
  by_cases h0 : j < 1
  · have : j = 0 := by omega
    subst this
    rw [if_pos (by decide), ← Nat.shiftRight_eq_div_pow, Nat.testBit_shiftRight]
    simp
  · rw [if_neg h0, Nat.testBit_mod_two_pow]
    by_cases h1 : j < 28
    · have e1 : (j + 27) % 28 = j - 1 := by omega
      have e2 : j - 1 < 27 := by omega
      simp [h1, e1, e2]
    · have e2 : ¬ j - 1 < 27 := by omega
      simp [h1, e2]

theorem leftShift_lt (c : Nat) : FIPS46.leftShift c < 2 ^ 28 ∨ 2 ^ 28 ≤ c := by
  unfold FIPS46.leftShift; omega

theorem testBit_shift1 (C b : Nat) :
    (((C <<< 1) % 2 ^ 32) ||| (C >>> 27)).testBit b
      = ((decide (b < 32) && (decide (1 ≤ b) && C.testBit (b - 1))) || C.testBit (27 + b)) := by
  simp only [Nat.testBit_or, Nat.testBit_mod_two_pow, Nat.testBit_shiftLeft,
    Nat.testBit_shiftRight, ge_iff_le]

theorem testBit_shift2 (C b : Nat) :
    (((C <<< 2) % 2 ^ 32) ||| (C >>> 26)).testBit b
      = ((decide (b < 32) && (decide (2 ≤ b) && C.testBit (b - 2))) || C.testBit (26 + b)) := by
  simp only [Nat.testBit_or, Nat.testBit_mod_two_pow, Nat.testBit_shiftLeft,
    Nat.testBit_shiftRight, ge_iff_le]

theorem shift1_spec (C : Nat) (h : HighCopies C) :
    HighCopies (((C <<< 1) % 2 ^ 32) ||| (C >>> 27)) ∧
    (((C <<< 1) % 2 ^ 32) ||| (C >>> 27)) % 2 ^ 28 = FIPS46.leftShift (C % 2 ^ 28) := by
  obtain ⟨hC, hJ⟩ := h
  have hz : ∀ b, 32 ≤ b → C.testBit b = false := fun b hb => testBit_ge_of_lt C 32 b hC hb
  refine ⟨⟨Nat.or_lt_two_pow (Nat.mod_lt _ (by decide)) ?_, ?_⟩, ?_⟩
  · rw [Nat.shiftRight_eq_div_pow]; omega
  · intro b hb
    rw [testBit_shift1, testBit_shift1, hz (27 + b) (by omega)]
    simp only [Bool.or_false, Bool.and_eq_true, decide_eq_true_eq, Bool.or_eq_true]
    rintro ⟨h1, -, h3⟩
    by_cases hb' : b = 28
    · subst hb'; exact Or.inr h3
    · refine Or.inl ⟨by omega, by omega, ?_⟩
      have := hJ (b - 1) (by omega) h3
      rw [show b - 28 - 1 = b - 1 - 28 by omega]
      exact this
  · apply Nat.eq_of_testBit_eq
    intro j
    rw [Nat.testBit_mod_two_pow, testBit_shift1, testBit_leftShift _ _ (Nat.mod_lt _ (by decide)),
      Nat.testBit_mod_two_pow]
    by_cases hj : j < 28
    · have e1 : (j + 27) % 28 < 28 := Nat.mod_lt _ (by decide)
      simp only [hj, e1, decide_True, Bool.true_and, show j < 32 by omega]
      by_cases h0 : j = 0
      · subst h0; simp
      · have e2 : (j + 27) % 28 = j - 1 := by omega
        rw [e2]
        simp only [show 1 ≤ j by omega, decide_True, Bool.true_and]
        cases hx : C.testBit (27 + j)
        · simp
        · have := hJ (27 + j) (by omega) hx
          rw [show 27 + j - 28 = j - 1 by omega] at this
          simp [this]
    · simp [hj]

theorem shift2_spec (C : Nat) (h : HighCopies C) :
    HighCopies (((C <<< 2) % 2 ^ 32) ||| (C >>> 26)) ∧
    (((C <<< 2) % 2 ^ 32) ||| (C >>> 26)) % 2 ^ 28
      = FIPS46.leftShift (FIPS46.leftShift (C % 2 ^ 28)) := by
  obtain ⟨hC, hJ⟩ := h
  have hz : ∀ b, 32 ≤ b → C.testBit b = false := fun b hb => testBit_ge_of_lt C 32 b hC hb
  have hl : FIPS46.leftShift (C % 2 ^ 28) < 2 ^ 28 := by
    rcases leftShift_lt (C % 2 ^ 28) with h | h
    · exact h
    · have := Nat.mod_lt C (show 2 ^ 28 > 0 by decide); omega
  refine ⟨⟨Nat.or_lt_two_pow (Nat.mod_lt _ (by decide)) ?_, ?_⟩, ?_⟩
  · rw [Nat.shiftRight_eq_div_pow]; omega
  · intro b hb
    rw [testBit_shift2, testBit_shift2, hz (26 + b) (by omega)]
    simp only [Bool.or_false, Bool.and_eq_true, decide_eq_true_eq, Bool.or_eq_true]
    rintro ⟨h1, -, h3⟩
    by_cases hb' : b < 30
    · refine Or.inr ?_
      rw [show 26 + (b - 28) = b - 2 by omega]
      exact h3
    · refine Or.inl ⟨by omega, by omega, ?_⟩
      have := hJ (b - 2) (by omega) h3
      rw [show b - 28 - 2 = b - 2 - 28 by omega]
      exact this
  · apply Nat.eq_of_testBit_eq
    intro j
    rw [Nat.testBit_mod_two_pow, testBit_shift2, testBit_leftShift _ _ hl]
    by_cases hj : j < 28
    · have e1 : (j + 27) % 28 < 28 := Nat.mod_lt _ (by decide)
      rw [testBit_leftShift _ _ (Nat.mod_lt _ (by decide)), Nat.testBit_mod_two_pow]
      have e3 : ((j + 27) % 28 + 27) % 28 < 28 := Nat.mod_lt _ (by decide)
      simp only [hj, e1, e3, decide_True, Bool.true_and, show j < 32 by omega]
      by_cases h0 : j < 2
      · have e2 : ((j + 27) % 28 + 27) % 28 = 26 + j := by omega
        rw [e2]
        simp [show ¬ 2 ≤ j by omega]
      · have e2 : ((j + 27) % 28 + 27) % 28 = j - 2 := by omega
        rw [e2]
        simp only [show 2 ≤ j by omega, decide_True, Bool.true_and]
        cases hx : C.testBit (26 + j)
        · simp
        · have := hJ (26 + j) (by omega) hx
          rw [show 26 + j - 28 = j - 2 by omega] at this
          simp [this]
    · simp [hj]

theorem LS_table_values : ∀ i, i < 16 →
    LS_table.getD i 0 = FIPS46.shifts.getD i 0 ∧
      (LS_table.getD i 0 = 1 ∨ LS_table.getD i 0 = 2) := by
  decide

/-- One round of shifting in the implementation is the FIPS 46-3 number of
left shifts on the low 28 bits, the unmasked high bits notwithstanding. -/
theorem keyShift_spec (i C : Nat) (hi : i < 16) (h : HighCopies C) :
    HighCopies (keyShift i C) ∧
    keyShift i C % 2 ^ 28 = FIPS46.leftShift^[FIPS46.shifts.getD i 0] (C % 2 ^ 28) := by
  obtain ⟨e, h12⟩ := LS_table_values i hi
  unfold keyShift
  rw [← e]
  rcases h12 with h1 | h2
  · rw [if_pos h1, h1]
    exact shift1_spec C h
  · rw [if_neg (by omega), h2]
    exact shift2_spec C h

theorem and_mask28 (x : Nat) : x &&& 0x0FFFFFFF = x % 2 ^ 28 :=
  Nat.and_pow_two_sub_one_eq_mod x 28

theorem highCopies_of_lt (C : Nat) (h : C < 2 ^ 28) : HighCopies C :=
  ⟨by omega, fun b hb hx => by rw [testBit_ge_of_lt C 28 b h hb] at hx; cases hx⟩

/-- The halves before the first round are `C_0` and `D_0` of FIPS 46-3. -/
theorem keyHalves_zero (Key : Nat) :
    ((keyInput Key >>> 28) % 2 ^ 32) &&& 0x0FFFFFFF = (FIPS46.CD Key 0).1 ∧
    (keyInput Key % 2 ^ 32) &&& 0x0FFFFFFF = (FIPS46.CD Key 0).2 := by
  have hI : FIPS46.select FIPS46.PC1 64 Key < 2 ^ 56 := select_lt FIPS46.PC1 64 Key
  rw [and_mask28, and_mask28, keyInput_eq_select, Nat.shiftRight_eq_div_pow]
  simp only [FIPS46.CD]
  constructor <;> omega

theorem CD_lt (Key n : Nat) : (FIPS46.CD Key n).1 < 2 ^ 28 ∧ (FIPS46.CD Key n).2 < 2 ^ 28 := by
  have hI : FIPS46.select FIPS46.PC1 64 Key < 2 ^ 56 := select_lt FIPS46.PC1 64 Key
  have it : ∀ (k c : Nat), c < 2 ^ 28 → FIPS46.leftShift^[k] c < 2 ^ 28 := by
    intro k
    induction k with
    | zero => intro c hc; exact hc
    | succ k ih =>
      intro c hc
      rw [Function.iterate_succ_apply]
      apply ih
      rcases leftShift_lt c with h | h
      · exact h
      · omega
  induction n with
  | zero => simp only [FIPS46.CD]; constructor <;> omega
  | succ n ih => exact ⟨it _ _ ih.1, it _ _ ih.2⟩

/-- After `n ≤ 16` rounds the low 28 bits of the implementation's halves
are `C_n` and `D_n` of FIPS 46-3. -/
theorem keyHalves_spec (Key n : Nat) (hn : n ≤ 16) :
    HighCopies (keyHalves (FIPS46.CD Key 0).1 (FIPS46.CD Key 0).2 n).1 ∧
    HighCopies (keyHalves (FIPS46.CD Key 0).1 (FIPS46.CD Key 0).2 n).2 ∧
    (keyHalves (FIPS46.CD Key 0).1 (FIPS46.CD Key 0).2 n).1 % 2 ^ 28 = (FIPS46.CD Key n).1 ∧
    (keyHalves (FIPS46.CD Key 0).1 (FIPS46.CD Key 0).2 n).2 % 2 ^ 28 = (FIPS46.CD Key n).2 := by
  induction n with
  | zero =>
    have h := CD_lt Key 0
    exact ⟨highCopies_of_lt _ h.1, highCopies_of_lt _ h.2, Nat.mod_eq_of_lt h.1,
      Nat.mod_eq_of_lt h.2⟩
  | succ n ih =>
    obtain ⟨h1, h2, h3, h4⟩ := ih (by omega)
    have s1 := keyShift_spec n _ (by omega) h1
    have s2 := keyShift_spec n _ (by omega) h2
    rw [h3] at s1
    rw [h4] at s2
    exact ⟨s1.1, s2.1, s1.2, s2.2⟩

/-- Bit `61 - (8 (j / 6) + j mod 6)` of a round key is the bit that
`PC2x_table[j]` selects. -/
theorem testBit_keySelect (C D j : Nat) (hj : j < 48) :
    (keySelect C D).testBit (61 - (j / 6 * 8 + j % 6))
      = ((C % 2 ^ 28) * 2 ^ 28 + D % 2 ^ 28).testBit (56 - PC2x_table.getD j 0) := by
  have hcd : ((C &&& 0x0FFFFFFF) <<< 28) ||| (D &&& 0x0FFFFFFF)
      = (C % 2 ^ 28) * 2 ^ 28 + D % 2 ^ 28 := by
    rw [and_mask28, and_mask28, Nat.shiftLeft_eq, Nat.mul_comm]
    rw [Nat.mul_add_lt_is_or (Nat.mod_lt _ (by decide))]
  unfold keySelect
  simp only [hcd]
  rw [testBit_selectLoop
    (fun j => ((C % 2 ^ 28) * 2 ^ 28 + D % 2 ^ 28) &&& (1 <<< (56 - PC2x_table.getD j 0)) ≠ 0)
    (fun j => 63 - 2 - (j / 6 * 8 + j % 6)), Bool.eq_iff_iff]
  simp only [and_one_shiftLeft_ne_zero, decide_eq_true_eq]
  constructor
  · rintro ⟨j', hj', h1, h2⟩
    have : j' = j := by omega
    subst this
    exact h1
  · intro h
    exact ⟨j, hj, h, by omega⟩

theorem PC2x_PC2 : ∀ a, a < 4 → ∀ t, t < 6 →
    PC2x_table.getD (6 * a + 5 - t) 0 = FIPS46.PC2.getD (12 * a + 5 - t) 0 ∧
    PC2x_table.getD (24 + 6 * a + 5 - t) 0 = FIPS46.PC2.getD (12 * a + 11 - t) 0 := by
  decide

/-- Round key `i` of `cipherKeyScheduleInner` in terms of the halves. -/
theorem roundKey_eq (Key i : Nat) (hi : i < 16) :
    (cipherKeyScheduleInner Key).getD i 0
      = keySelect (keyHalves (FIPS46.CD Key 0).1 (FIPS46.CD Key 0).2 (i + 1)).1
          (keyHalves (FIPS46.CD Key 0).1 (FIPS46.CD Key 0).2 (i + 1)).2 := by
  unfold cipherKeyScheduleInner
  simp only [(keyHalves_zero Key).1, (keyHalves_zero Key).2, keyRound_foldl]
  rw [List.getD_eq_getElem?_getD, List.getElem?_map, List.getElem?_range hi]
  rfl

/-- The layout of a round key: the six key bits that FIPS 46-3 mixes into
the input of S-box `2 a + 1` sit at bits `56 - 8 a ..` of the round key,
those of S-box `2 a + 2` at bits `24 - 8 a ..`. -/
theorem roundKey_layout (Key i : Nat) (hi : i < 16) (a t : Nat) (ha : a < 4) (ht : t < 6) :
    ((cipherKeyScheduleInner Key).getD i 0).testBit (32 + (24 - 8 * a + t))
      = (FIPS46.KS (i + 1) Key).testBit (6 * (7 - 2 * a) + t) ∧
    ((cipherKeyScheduleInner Key).getD i 0).testBit (24 - 8 * a + t)
      = (FIPS46.KS (i + 1) Key).testBit (6 * (7 - (2 * a + 1)) + t) := by
  obtain ⟨-, -, h3, h4⟩ := keyHalves_spec Key (i + 1) (by omega)
  obtain ⟨p1, p2⟩ := PC2x_PC2 a ha t ht
  rw [roundKey_eq Key i hi]
  unfold FIPS46.KS
  have hl : FIPS46.PC2.length = 48 := rfl
  constructor
  · have e : 32 + (24 - 8 * a + t) = 61 - ((6 * a + 5 - t) / 6 * 8 + (6 * a + 5 - t) % 6) := by
      omega
    rw [e, testBit_keySelect _ _ _ (by omega), h3, h4, p1, testBit_select, hl]
    have e2 : 48 - 1 - (6 * (7 - 2 * a) + t) = 12 * a + 5 - t := by omega
    rw [e2, decide_eq_true (show 6 * (7 - 2 * a) + t < 48 by omega), Bool.true_and]
  · have e : 24 - 8 * a + t
        = 61 - ((24 + 6 * a + 5 - t) / 6 * 8 + (24 + 6 * a + 5 - t) % 6) := by
      omega
    rw [e, testBit_keySelect _ _ _ (by omega), h3, h4, p2, testBit_select, hl]
    have e2 : 48 - 1 - (6 * (7 - (2 * a + 1)) + t) = 12 * a + 11 - t := by omega
    rw [e2, decide_eq_true (show 6 * (7 - (2 * a + 1)) + t < 48 by omega), Bool.true_and]

theorem E_index : ∀ q, q < 8 → ∀ t, t < 6 →
    32 - FIPS46.E.getD (6 * q + 5 - t) 0 = (59 - 4 * q + t) % 32 := by
  decide

/-- The value `X` of `cipherForward` before key mixing is `Low` rotated
left by 29 bits. -/
theorem testBit_rot29 (Low u : Nat) (hL : Low < 2 ^ 32) (hu : u < 32) :
    (((Low <<< 29) % 2 ^ 32) ||| (Low >>> 3)).testBit u = Low.testBit ((u + 3) % 32) := by
  simp only [Nat.testBit_or, Nat.testBit_mod_two_pow, Nat.testBit_shiftLeft,
    Nat.testBit_shiftRight, ge_iff_le]
  by_cases h : 29 ≤ u
  · rw [testBit_ge_of_lt Low 32 (3 + u) hL (by omega)]
    simp [hu, h, show (u + 3) % 32 = u - 29 by omega]
  · simp [h, show (u + 3) % 32 = 3 + u by omega]

/-- The value `Y` of `cipherForward` before key mixing is `Low` rotated
left by 1 bit. -/
theorem testBit_rot1 (Low u : Nat) (hL : Low < 2 ^ 32) (hu : u < 32) :
    (((Low <<< 1) % 2 ^ 32) ||| (Low >>> 31)).testBit u = Low.testBit ((u + 31) % 32) := by
  simp only [Nat.testBit_or, Nat.testBit_mod_two_pow, Nat.testBit_shiftLeft,
    Nat.testBit_shiftRight, ge_iff_le]
  by_cases h : 1 ≤ u
  · rw [testBit_ge_of_lt Low 32 (31 + u) hL (by omega)]
    simp [hu, h, show (u + 31) % 32 = u - 1 by omega]
  · simp [h, show (u + 31) % 32 = 31 + u by omega]

/-- Bits of the 6-bit block `q + 1` of a 48-bit block. -/
theorem testBit_chunk (Z q t : Nat) :
    (Z / 64 ^ (7 - q) % 64).testBit t = (decide (t < 6) && Z.testBit (6 * (7 - q) + t)) := by
  have e : (64 : Nat) = 2 ^ 6 := by norm_num
  rw [e, ← Nat.pow_mul, ← Nat.shiftRight_eq_div_pow, Nat.testBit_mod_two_pow,
    Nat.testBit_shiftRight]

theorem testBit_and_63 (x t : Nat) : (x &&& 0x3F).testBit t = (decide (t < 6) && x.testBit t) := by
  have e : x &&& 0x3F = x % 2 ^ 6 := Nat.and_pow_two_sub_one_eq_mod x 6
  rw [e, Nat.testBit_mod_two_pow]

/-- The index into S-box `2 a + 1` that `cipherForward` forms from `X` is
the 6-bit block `B_(2a+1)` of `K ⊕ E(R)`. -/
theorem index_X (Low RK K : Nat) (a : Nat) (ha : a < 4) (hL : Low < 2 ^ 32)
    (hK : ∀ t, t < 6 → RK.testBit (32 + (24 - 8 * a + t)) = K.testBit (6 * (7 - 2 * a) + t)) :
    (((((Low <<< 29) % 2 ^ 32) ||| (Low >>> 3)) ^^^ ((RK >>> 32) % 2 ^ 32)) >>> (24 - 8 * a))
        &&& 0x3F
      = (K ^^^ FIPS46.select FIPS46.E 32 Low) / 64 ^ (7 - 2 * a) % 64 := by
  apply Nat.eq_of_testBit_eq
  intro t
  rw [testBit_and_63, testBit_chunk]
  by_cases ht : t < 6
  · have hu : 24 - 8 * a + t < 32 := by omega
    have hl : FIPS46.E.length = 48 := rfl
    rw [Nat.testBit_shiftRight, Nat.testBit_xor, Nat.testBit_xor, testBit_rot29 _ _ hL hu,
      Nat.testBit_mod_two_pow, Nat.testBit_shiftRight, hK t ht, testBit_select, hl,
      show 48 - 1 - (6 * (7 - 2 * a) + t) = 6 * (2 * a) + 5 - t by omega,
      E_index (2 * a) (by omega) t ht,
      show (59 - 4 * (2 * a) + t) % 32 = (24 - 8 * a + t + 3) % 32 by omega,
      decide_eq_true (show 6 * (7 - 2 * a) + t < 48 by omega)]
    simp [ht, hu, Bool.xor_comm]
  · simp [ht]

/-- The index into S-box `2 a + 2` that `cipherForward` forms from `Y` is
the 6-bit block `B_(2a+2)` of `K ⊕ E(R)`. -/
theorem index_Y (Low RK K : Nat) (a : Nat) (ha : a < 4) (hL : Low < 2 ^ 32)
    (hK : ∀ t, t < 6 → RK.testBit (24 - 8 * a + t) = K.testBit (6 * (7 - (2 * a + 1)) + t)) :
    (((((Low <<< 1) % 2 ^ 32) ||| (Low >>> 31)) ^^^ (RK % 2 ^ 32)) >>> (24 - 8 * a)) &&& 0x3F
      = (K ^^^ FIPS46.select FIPS46.E 32 Low) / 64 ^ (7 - (2 * a + 1)) % 64 := by
  apply Nat.eq_of_testBit_eq
  intro t
  rw [testBit_and_63, testBit_chunk]
  by_cases ht : t < 6
  · have hu : 24 - 8 * a + t < 32 := by omega
    have hl : FIPS46.E.length = 48 := rfl
    rw [Nat.testBit_shiftRight, Nat.testBit_xor, Nat.testBit_xor, testBit_rot1 _ _ hL hu,
      Nat.testBit_mod_two_pow, hK t ht, testBit_select, hl,
      show 48 - 1 - (6 * (7 - (2 * a + 1)) + t) = 6 * (2 * a + 1) + 5 - t by omega,
      E_index (2 * a + 1) (by omega) t ht,
      show (59 - 4 * (2 * a + 1) + t) % 32 = (24 - 8 * a + t + 31) % 32 by omega,
      decide_eq_true (show 6 * (7 - (2 * a + 1)) + t < 48 by omega)]
    simp [ht, hu, Bool.xor_comm]
  · simp [ht]

theorem S_lt : ∀ i, i < 8 → ∀ B, B < 64 → FIPS46.S i B < 16 := by
  decide

/-- Each S+P table holds the FIPS 46-3 S-box output, placed in its four-bit
position of the 32-bit block, under the permutation P. -/
theorem SP_box_eq : ∀ B, B < 64 →
    SP_box_1.getD B 0 = FIPS46.select FIPS46.P 32 (FIPS46.S 0 B <<< 28) ∧
    SP_box_2.getD B 0 = FIPS46.select FIPS46.P 32 (FIPS46.S 1 B <<< 24) ∧
    SP_box_3.getD B 0 = FIPS46.select FIPS46.P 32 (FIPS46.S 2 B <<< 20) ∧
    SP_box_4.getD B 0 = FIPS46.select FIPS46.P 32 (FIPS46.S 3 B <<< 16) ∧
    SP_box_5.getD B 0 = FIPS46.select FIPS46.P 32 (FIPS46.S 4 B <<< 12) ∧
    SP_box_6.getD B 0 = FIPS46.select FIPS46.P 32 (FIPS46.S 5 B <<< 8) ∧
    SP_box_7.getD B 0 = FIPS46.select FIPS46.P 32 (FIPS46.S 6 B <<< 4) ∧
    SP_box_8.getD B 0 = FIPS46.select FIPS46.P 32 (FIPS46.S 7 B) := by
  decide

theorem shiftLeft_or (x y k : Nat) : (x ||| y) <<< k = (x <<< k) ||| (y <<< k) := by
  apply Nat.eq_of_testBit_eq
  intro i
  simp only [Nat.testBit_shiftLeft, Nat.testBit_or, Bool.and_or_distrib_left]

theorem mul16_add (A s : Nat) (hs : s < 16) : 16 * A + s = (A <<< 4) ||| s := by
  rw [Nat.shiftLeft_eq, Nat.mul_comm A, ← Nat.mul_add_lt_is_or (i := 4) hs A]

/-- Eight 4-bit blocks written side by side. -/
theorem concat8 (s : Nat → Nat) (hs : ∀ i, i < 8 → s i < 16) :
    (List.range 8).foldl (fun acc i => 16 * acc + s i) 0
      = (s 0 <<< 28) ||| (s 1 <<< 24) ||| (s 2 <<< 20) ||| (s 3 <<< 16) ||| (s 4 <<< 12)
        ||| (s 5 <<< 8) ||| (s 6 <<< 4) ||| s 7 := by
  have e : List.range 8 = [0, 1, 2, 3, 4, 5, 6, 7] := by decide
  rw [e]
  simp only [List.foldl_cons, List.foldl_nil]
  rw [mul16_add _ (s 7) (hs 7 (by decide)), mul16_add _ (s 6) (hs 6 (by decide)),
    mul16_add _ (s 5) (hs 5 (by decide)), mul16_add _ (s 4) (hs 4 (by decide)),
    mul16_add _ (s 3) (hs 3 (by decide)), mul16_add _ (s 2) (hs 2 (by decide)),
    mul16_add _ (s 1) (hs 1 (by decide)), mul16_add _ (s 0) (hs 0 (by decide))]
  simp only [shiftLeft_or, ← Nat.shiftLeft_add, Nat.zero_shiftLeft, Nat.zero_or,
    Nat.reduceAdd]

/-- The round function: the OR of the eight S+P lookups of `cipherForward`
is `f(R, K)` of FIPS 46-3 when the round key holds the bits of `K` in the
layout of `roundKey_layout`. -/
theorem roundTab_eq_f (Low RK K : Nat) (hL : Low < 2 ^ 32)
    (hK : ∀ a, a < 4 → ∀ t, t < 6 →
      RK.testBit (32 + (24 - 8 * a + t)) = K.testBit (6 * (7 - 2 * a) + t) ∧
      RK.testBit (24 - 8 * a + t) = K.testBit (6 * (7 - (2 * a + 1)) + t)) :
    roundTab Low RK = FIPS46.f Low K := by
  have x0 := index_X Low RK K 0 (by decide) hL (fun t ht => (hK 0 (by decide) t ht).1)
  have x1 := index_X Low RK K 1 (by decide) hL (fun t ht => (hK 1 (by decide) t ht).1)
  have x2 := index_X Low RK K 2 (by decide) hL (fun t ht => (hK 2 (by decide) t ht).1)
  have x3 := index_X Low RK K 3 (by decide) hL (fun t ht => (hK 3 (by decide) t ht).1)
  have y0 := index_Y Low RK K 0 (by decide) hL (fun t ht => (hK 0 (by decide) t ht).2)
  have y1 := index_Y Low RK K 1 (by decide) hL (fun t ht => (hK 1 (by decide) t ht).2)
  have y2 := index_Y Low RK K 2 (by decide) hL (fun t ht => (hK 2 (by decide) t ht).2)
  have y3 := index_Y Low RK K 3 (by decide) hL (fun t ht => (hK 3 (by decide) t ht).2)
  generalize hB : K ^^^ FIPS46.select FIPS46.E 32 Low = B at x0 x1 x2 x3 y0 y1 y2 y3
  have hs : ∀ i, i < 8 → FIPS46.S i (B / 64 ^ (7 - i) % 64) < 16 :=
    fun i hi => S_lt i hi _ (Nat.mod_lt _ (by decide))
  unfold FIPS46.f
  simp only [hB]
  rw [concat8 (fun i => FIPS46.S i (B / 64 ^ (7 - i) % 64)) hs]
  simp only [select_or]
  unfold roundTab
  simp only []
  have c0 : (((((Low <<< 29) % 2 ^ 32) ||| (Low >>> 3)) ^^^ ((RK >>> 32) % 2 ^ 32)) >>> 24)
      &&& 0x3F = B / 64 ^ (7 - 0) % 64 := x0
  have c2 : (((((Low <<< 29) % 2 ^ 32) ||| (Low >>> 3)) ^^^ ((RK >>> 32) % 2 ^ 32)) >>> 16)
      &&& 0x3F = B / 64 ^ (7 - 2) % 64 := x1
  have c4 : (((((Low <<< 29) % 2 ^ 32) ||| (Low >>> 3)) ^^^ ((RK >>> 32) % 2 ^ 32)) >>> 8)
      &&& 0x3F = B / 64 ^ (7 - 4) % 64 := x2
  have c6 : (((((Low <<< 29) % 2 ^ 32) ||| (Low >>> 3)) ^^^ ((RK >>> 32) % 2 ^ 32)) >>> 0)
      &&& 0x3F = B / 64 ^ (7 - 6) % 64 := x3
  have c1 : (((((Low <<< 1) % 2 ^ 32) ||| (Low >>> 31)) ^^^ (RK % 2 ^ 32)) >>> 24)
      &&& 0x3F = B / 64 ^ (7 - 1) % 64 := y0
  have c3 : (((((Low <<< 1) % 2 ^ 32) ||| (Low >>> 31)) ^^^ (RK % 2 ^ 32)) >>> 16)
      &&& 0x3F = B / 64 ^ (7 - 3) % 64 := y1
  have c5 : (((((Low <<< 1) % 2 ^ 32) ||| (Low >>> 31)) ^^^ (RK % 2 ^ 32)) >>> 8)
      &&& 0x3F = B / 64 ^ (7 - 5) % 64 := y2
  have c7 : (((((Low <<< 1) % 2 ^ 32) ||| (Low >>> 31)) ^^^ (RK % 2 ^ 32)) >>> 0)
      &&& 0x3F = B / 64 ^ (7 - 7) % 64 := y3
  rw [c0, c1, c2, c3, c4, c5, c6, c7,
    (SP_box_eq _ (Nat.mod_lt (B / 64 ^ (7 - 0)) (by decide))).1,
    (SP_box_eq _ (Nat.mod_lt (B / 64 ^ (7 - 1)) (by decide))).2.1,
    (SP_box_eq _ (Nat.mod_lt (B / 64 ^ (7 - 2)) (by decide))).2.2.1,
    (SP_box_eq _ (Nat.mod_lt (B / 64 ^ (7 - 3)) (by decide))).2.2.2.1,
    (SP_box_eq _ (Nat.mod_lt (B / 64 ^ (7 - 4)) (by decide))).2.2.2.2.1,
    (SP_box_eq _ (Nat.mod_lt (B / 64 ^ (7 - 5)) (by decide))).2.2.2.2.2.1,
    (SP_box_eq _ (Nat.mod_lt (B / 64 ^ (7 - 6)) (by decide))).2.2.2.2.2.2.1,
    (SP_box_eq _ (Nat.mod_lt (B / 64 ^ (7 - 7)) (by decide))).2.2.2.2.2.2.2]

/-- The round loop of `cipherForward` under the schedule of
`cipherKeyScheduleInner` computes the blocks `(R_n, L_n)` of FIPS 46-3. -/
theorem rounds_eq_LR (Key L₀ R₀ : Nat) (hL : L₀ < 2 ^ 32) (hR : R₀ < 2 ^ 32) (n : Nat)
    (hn : n ≤ 16) :
    (List.range n).foldl (cipherRound (ptr (cipherKeyScheduleInner Key))) (R₀, L₀)
      = ((FIPS46.LR Key (L₀, R₀) n).2, (FIPS46.LR Key (L₀, R₀) n).1) := by
  induction n with
  | zero => rfl
  | succ n ih =>
    have hlt := (rounds_lt (ptr (cipherKeyScheduleInner Key)) n (R₀, L₀) hR hL).1
    rw [List.range_succ, List.foldl_append, ih (by omega)]
    rw [ih (by omega)] at hlt
    simp only [List.foldl_cons, List.foldl_nil, cipherRound, FIPS46.LR]
    have hf : roundTab (FIPS46.LR Key (L₀, R₀) n).2 (ptr (cipherKeyScheduleInner Key) n)
        = FIPS46.f (FIPS46.LR Key (L₀, R₀) n).2 (FIPS46.KS (n + 1) Key) :=
      roundTab_eq_f _ _ (FIPS46.KS (n + 1) Key) hlt
        (fun a ha t ht => roundKey_layout Key n (by omega) a t ha ht)
    rw [hf]

/-- The block transform under the schedule of a key is DES encryption of
FIPS 46-3 under that key. -/
theorem cipherForward_eq_encrypt (Key Block : Nat) :
    cipherForward Block (ptr (cipherKeyScheduleInner Key)) = FIPS46.encrypt Key Block := by
  have hv : FIPS46.select FIPS46.IP 64 Block < 2 ^ 64 := select_lt FIPS46.IP 64 Block
  have hL : FIPS46.select FIPS46.IP 64 Block / 2 ^ 32 < 2 ^ 32 := by omega
  have hR : FIPS46.select FIPS46.IP 64 Block % 2 ^ 32 < 2 ^ 32 := Nat.mod_lt _ (by decide)
  have e1 : (FIPS46.select FIPS46.IP 64 Block >>> 32) % 2 ^ 32
      = FIPS46.select FIPS46.IP 64 Block / 2 ^ 32 := by
    rw [Nat.shiftRight_eq_div_pow]; omega
  unfold cipherForward FIPS46.encrypt
  simp only [cipherIP_eq_select, cipherIPInverse_eq_select, e1]
  rw [rounds_eq_LR Key _ _ hL hR 16 (by decide)]
  have h1 := (rounds_lt (ptr (cipherKeyScheduleInner Key)) 16 (_, _) hR hL).2
  rw [rounds_eq_LR Key _ _ hL hR 16 (by decide)] at h1
  simp only [] at h1 ⊢
  rw [Nat.shiftLeft_eq, Nat.mul_comm, Nat.mul_add_lt_is_or h1, Nat.mul_comm]

set_option maxRecDepth 100000 in
/-- The worked example: key `133457799BBCDFF1`, block `0123456789ABCDEF`. -/
theorem des_example_vector :
    cipherForward 0x0123456789ABCDEF (ptr (cipherKeyScheduleInner 0x133457799BBCDFF1))
      = 0x85E813540F0AB405 ∧
    FIPS46.encrypt 0x133457799BBCDFF1 0x0123456789ABCDEF = 0x85E813540F0AB405 :=
  ⟨by decide, by decide⟩

/-- C5. Standard compliance: for every 64-bit key `K` and 64-bit block `B`,
`cipherForward` of `B` under the 16 round keys that `cipherKeyScheduleInner`
writes for `K` is the DES encryption of `B` under `K` as FIPS 46-3 defines
it (`FIPS46.encrypt`: IP, 16 rounds with E, the PC-1 / left-shift / PC-2
subkeys, S1..S8 and P, the final swap, IP⁻¹); and `K = 133457799BBCDFF1`,
`B = 0123456789ABCDEF` give `85E813540F0AB405`. -/
theorem standard_compliance :
    (∀ K B : Nat, cipherForward B (ptr (cipherKeyScheduleInner K)) = FIPS46.encrypt K B) ∧
    cipherForward 0x0123456789ABCDEF (ptr (cipherKeyScheduleInner 0x133457799BBCDFF1))
      = 0x85E813540F0AB405 ∧
    FIPS46.encrypt 0x133457799BBCDFF1 0x0123456789ABCDEF = 0x85E813540F0AB405 :=
  ⟨cipherForward_eq_encrypt, des_example_vector.1, des_example_vector.2⟩

theorem read_be_uint64_keyAt (Keys : Nat → Nat) (k : Nat) :
    read_be_uint64 (fun j => Keys (8 * k + j)) = keyAt Keys k := by
  rw [read_be_uint64_eq]
  simp only [keyAt, Nat.add_zero]
  omega

theorem keySchedule_keyAt (Keys : Nat → Nat) :
    (∀ i, (_cipherKeySchedule (fun k => Keys (0 + k))).getD i 0
      = forwardSchedule (keyAt Keys 0) i) ∧
    (∀ i, (_cipherKeySchedule (fun k => Keys (8 + k))).getD i 0
      = forwardSchedule (keyAt Keys 1) i) ∧
    (∀ i, (_cipherKeySchedule (fun k => Keys (16 + k))).getD i 0
      = forwardSchedule (keyAt Keys 2) i) ∧
    (∀ i, i < 16 → (_cipherKeyScheduleReverse (fun k => Keys (0 + k))).getD i 0
      = reverseSchedule (keyAt Keys 0) i) ∧
    (∀ i, i < 16 → (_cipherKeyScheduleReverse (fun k => Keys (8 + k))).getD i 0
      = reverseSchedule (keyAt Keys 1) i) ∧
    (∀ i, i < 16 → (_cipherKeyScheduleReverse (fun k => Keys (16 + k))).getD i 0
      = reverseSchedule (keyAt Keys 2) i) := by
  have e0 : read_be_uint64 (fun k => Keys (0 + k)) = keyAt Keys 0 :=
    read_be_uint64_keyAt Keys 0
  have e1 : read_be_uint64 (fun k => Keys (8 + k)) = keyAt Keys 1 :=
    read_be_uint64_keyAt Keys 1
  have e2 : read_be_uint64 (fun k => Keys (16 + k)) = keyAt Keys 2 :=
    read_be_uint64_keyAt Keys 2
  refine ⟨fun i => ?_, fun i => ?_, fun i => ?_, fun i hi => ?_, fun i hi => ?_,
    fun i hi => ?_⟩
  · simp only [_cipherKeySchedule, e0, forwardSchedule]
  · simp only [_cipherKeySchedule, e1, forwardSchedule]
  · simp only [_cipherKeySchedule, e2, forwardSchedule]
  · rw [reverse_getD _ i hi]; simp only [_cipherKeySchedule, e0, reverseSchedule]
  · rw [reverse_getD _ i hi]; simp only [_cipherKeySchedule, e1, reverseSchedule]
  · rw [reverse_getD _ i hi]; simp only [_cipherKeySchedule, e2, reverseSchedule]

/-- C12. Forward-biased multi-key schedule: `cipherKeySchedule` returns -1
and leaves the table as it was when `KeyCount` is none of 1, 2, 3; otherwise
it returns `KeyCount`, entries 0..15 hold the Forward schedule of key 0,
entries 16..31 the Reverse schedule of key 1 when `KeyCount ≥ 2`, entries
32..47 the Forward schedule of key 2 when `KeyCount = 3`, and every entry
from `16 * KeyCount` on is untouched; key `k` is bytes `8k..8k+7` of `Keys`
read big-endian. -/
theorem forward_biased_schedule (RK Keys : Nat → Nat) (n : Int) :
    ((n ≠ 1 ∧ n ≠ 2 ∧ n ≠ 3) → cipherKeySchedule RK Keys n = (-1, RK)) ∧
    ((n = 1 ∨ n = 2 ∨ n = 3) →
      (cipherKeySchedule RK Keys n).1 = n ∧
      (∀ i, i < 16 →
        (cipherKeySchedule RK Keys n).2 i = forwardSchedule (keyAt Keys 0) i ∧
        (2 ≤ n → (cipherKeySchedule RK Keys n).2 (16 + i) = reverseSchedule (keyAt Keys 1) i) ∧
        (n = 3 → (cipherKeySchedule RK Keys n).2 (32 + i) = forwardSchedule (keyAt Keys 2) i)) ∧
      (∀ j : Nat, 16 * n ≤ (j : Int) → (cipherKeySchedule RK Keys n).2 j = RK j)) := by
  obtain ⟨f0, -, f2, -, r1, -⟩ := keySchedule_keyAt Keys
  refine ⟨cipherKeySchedule_invalid RK Keys n, fun hn => ⟨?_, fun i hi => ⟨?_, ?_, ?_⟩, ?_⟩⟩
  · exact (cipherKeySchedule_table RK Keys n hn 0 (by omega)).1
  · rw [(cipherKeySchedule_table RK Keys n hn i hi).2.1, f0]
  · intro h2
    rw [(cipherKeySchedule_table RK Keys n hn i hi).2.2.1 (by omega), r1 i hi]
  · intro h3
    rw [(cipherKeySchedule_table RK Keys n hn i hi).2.2.2 h3, f2]
  · intro j hj
    rcases hn with h | h | h <;> subst h
    · rw [cipherKeySchedule_one]
      exact storeRoundKeys_out _ _ _ _ (by omega)
    · rw [cipherKeySchedule_two]
      show storeRoundKeys _ 16 _ j = RK j
      rw [storeRoundKeys_out _ _ _ _ (by omega), storeRoundKeys_out _ _ _ _ (by omega)]
    · rw [cipherKeySchedule_three]
      show storeRoundKeys _ 32 _ j = RK j
      rw [storeRoundKeys_out _ _ _ _ (by omega), storeRoundKeys_out _ _ _ _ (by omega),
        storeRoundKeys_out _ _ _ _ (by omega)]

/-- C12, at three sample keys and at key count 4. -/
theorem forward_biased_schedule_witness :
    cipherKeySchedule zeroBuf sampleKeys 4 = (-1, zeroBuf) ∧
    (cipherKeySchedule zeroBuf sampleKeys 3).1 = 3 ∧
    (∀ i, i < 16 →
      (cipherKeySchedule zeroBuf sampleKeys 3).2 i = forwardSchedule (keyAt sampleKeys 0) i ∧
      ((2 : Int) ≤ 3 → (cipherKeySchedule zeroBuf sampleKeys 3).2 (16 + i)
        = reverseSchedule (keyAt sampleKeys 1) i) ∧
      ((3 : Int) = 3 → (cipherKeySchedule zeroBuf sampleKeys 3).2 (32 + i)
        = forwardSchedule (keyAt sampleKeys 2) i)) ∧
    (∀ j : Nat, 16 * (3 : Int) ≤ (j : Int) →
      (cipherKeySchedule zeroBuf sampleKeys 3).2 j = zeroBuf j) :=
  ⟨(forward_biased_schedule zeroBuf sampleKeys 4).1 (by decide),
    (forward_biased_schedule zeroBuf sampleKeys 3).2 (by decide)⟩

/-- C18. Reverse-biased schedule layout: `cipherKeyScheduleReverse` with
`KeyCount = 3` returns 3 and leaves Reverse(key 2) in entries 0..15,
Forward(key 1) in 16..31 and Reverse(key 0) in 32..47; with `KeyCount = 2`
it returns 2 and leaves Reverse(key 0) in 0..15 and Forward(key 1) in
16..31; with `KeyCount = 1` it returns 1 and leaves Reverse(key 0) in 0..15;
for any other `KeyCount` it returns -1 (and leaves the table as it was). -/
theorem reverse_biased_schedule_layout (RK Keys : Nat → Nat) (n : Int) :
    ((cipherKeyScheduleReverse RK Keys 3).1 = 3 ∧ ∀ i, i < 16 →
      (cipherKeyScheduleReverse RK Keys 3).2 i = reverseSchedule (keyAt Keys 2) i ∧
      (cipherKeyScheduleReverse RK Keys 3).2 (16 + i) = forwardSchedule (keyAt Keys 1) i ∧
      (cipherKeyScheduleReverse RK Keys 3).2 (32 + i) = reverseSchedule (keyAt Keys 0) i) ∧
    ((cipherKeyScheduleReverse RK Keys 2).1 = 2 ∧ ∀ i, i < 16 →
      (cipherKeyScheduleReverse RK Keys 2).2 i = reverseSchedule (keyAt Keys 0) i ∧
      (cipherKeyScheduleReverse RK Keys 2).2 (16 + i) = forwardSchedule (keyAt Keys 1) i) ∧
    ((cipherKeyScheduleReverse RK Keys 1).1 = 1 ∧ ∀ i, i < 16 →
      (cipherKeyScheduleReverse RK Keys 1).2 i = reverseSchedule (keyAt Keys 0) i) ∧
    ((n ≠ 1 ∧ n ≠ 2 ∧ n ≠ 3) → cipherKeyScheduleReverse RK Keys n = (-1, RK)) := by
  obtain ⟨-, f1, -, r0, -, r2⟩ := keySchedule_keyAt Keys
  have t3 := cipherKeyScheduleReverse_table RK Keys 3 (by decide)
  have t2 := cipherKeyScheduleReverse_table RK Keys 2 (by decide)
  have t1 := cipherKeyScheduleReverse_table RK Keys 1 (by decide)
  refine ⟨⟨(t3 0 (by omega)).1, fun i hi => ⟨?_, ?_, ?_⟩⟩,
    ⟨(t2 0 (by omega)).1, fun i hi => ⟨?_, ?_⟩⟩, ⟨(t1 0 (by omega)).1, fun i hi => ?_⟩,
    cipherKeyScheduleReverse_invalid RK Keys n⟩
  · rw [((t3 i hi).2.2.2 rfl).1, r2 i hi]
  · rw [(t3 i hi).2.2.1 (by decide), f1]
  · rw [((t3 i hi).2.2.2 rfl).2, r0 i hi]
  · rw [(t2 i hi).2.1 (by decide), r0 i hi]
  · rw [(t2 i hi).2.2.1 (by decide), f1]
  · rw [(t1 i hi).2.1 (by decide), r0 i hi]

/-- C13. Chained block invocation order: `cipherSingleBlock` loads the
block big-endian and stores, big-endian, `cipherForward` with schedule 0
when `KeyCount = 1`; with schedule 0, then 1, then 0 again when
`KeyCount = 2`; with schedule 0, then 1, then 2 when `KeyCount = 3`, where
schedule `s` is table entries `16 s .. 16 s + 15`. -/
theorem chained_block_invocation_order (Data RK : Nat → Nat) :
    read_be_uint64 Data = keyAt Data 0 ∧
    (∀ v, write_be_uint64 v = [v / 256 ^ 7 % 256, v / 256 ^ 6 % 256, v / 256 ^ 5 % 256,
      v / 256 ^ 4 % 256, v / 256 ^ 3 % 256, v / 256 ^ 2 % 256, v / 256 ^ 1 % 256,
      v / 256 ^ 0 % 256]) ∧
    cipherSingleBlock Data RK 1
      = write_be_uint64 (cipherForward (read_be_uint64 Data) (fun j => RK (16 * 0 + j))) ∧
    cipherSingleBlock Data RK 2
      = write_be_uint64 (cipherForward (cipherForward (cipherForward (read_be_uint64 Data)
          (fun j => RK (16 * 0 + j))) (fun j => RK (16 * 1 + j))) (fun j => RK (16 * 0 + j))) ∧
    cipherSingleBlock Data RK 3
      = write_be_uint64 (cipherForward (cipherForward (cipherForward (read_be_uint64 Data)
          (fun j => RK (16 * 0 + j))) (fun j => RK (16 * 1 + j))) (fun j => RK (16 * 2 + j))) := by
  have d1 : (2 : Int) ≠ 1 := by decide
  have d2 : (3 : Int) ≠ 1 := by decide
  have d3 : (3 : Int) ≠ 2 := by decide
  have e0 : (fun j => RK (16 * 0 + j)) = RK := by funext j; simp
  refine ⟨?_, write_be_uint64_eq, ?_, ?_, ?_⟩
  · have := read_be_uint64_keyAt Data 0
    simpa using this
  · rw [cipherSingleBlock_eq, e0]; simp only [cipherChain, if_true]
  · rw [cipherSingleBlock_eq, e0]; simp only [cipherChain, if_neg d1, if_true]
  · rw [cipherSingleBlock_eq, e0]; simp only [cipherChain, if_neg d2, if_neg d3]

/-- C18, at key count 0. -/
theorem reverse_biased_schedule_layout_witness :
    cipherKeyScheduleReverse zeroBuf sampleKeys 0 = (-1, zeroBuf) :=
  (reverse_biased_schedule_layout zeroBuf sampleKeys 0).2.2.2 (by decide)

theorem IP_tables_perm :
    IP_table.Perm (List.range' 1 64) ∧ IPinv_table.Perm (List.range' 1 64) := by
  decide

theorem IP_tables_inverse : ∀ i, i < 64 →
    IPinv_table.getD (IP_table.getD i 0 - 1) 0 = i + 1 ∧
    IP_table.getD (IPinv_table.getD i 0 - 1) 0 = i + 1 := by
  decide

theorem IP_tables_count : ∀ p, p < 64 →
    IP_table.count (p + 1) = 1 ∧ IPinv_table.count (p + 1) = 1 := by
  decide

/-- C14. IP table bijectivity: `IP_table` and `IPinv_table` are each a
permutation of the positions 1..64 (every position occurs exactly once),
each is the inverse permutation of the other, and `cipherIPInverse` and
`cipherIP` undo each other on every 64-bit value. -/
theorem IP_table_bijectivity (v : Nat) (hv : v < 2 ^ 64) :
    IP_table.Perm (List.range' 1 64) ∧ IPinv_table.Perm (List.range' 1 64) ∧
    (∀ p, 1 ≤ p → p ≤ 64 → IP_table.count p = 1 ∧ IPinv_table.count p = 1) ∧
    (∀ i, i < 64 → IPinv_table.getD (IP_table.getD i 0 - 1) 0 = i + 1 ∧
      IP_table.getD (IPinv_table.getD i 0 - 1) 0 = i + 1) ∧
    cipherIPInverse (cipherIP v) = v ∧ cipherIP (cipherIPInverse v) = v := by
  refine ⟨IP_tables_perm.1, IP_tables_perm.2, ?_, IP_tables_inverse,
    cipherIPInverse_cipherIP v hv, cipherIP_cipherIPInverse v hv⟩
  intro p h1 h2
  have := IP_tables_count (p - 1) (by omega)
  rwa [show p - 1 + 1 = p by omega] at this

/-- C14, at `v = 0x0123456789ABCDEF`. -/
theorem IP_table_bijectivity_witness :
    0x0123456789ABCDEF < 2 ^ 64 ∧
    cipherIPInverse (cipherIP 0x0123456789ABCDEF) = 0x0123456789ABCDEF ∧
    cipherIP (cipherIPInverse 0x0123456789ABCDEF) = 0x0123456789ABCDEF :=
  ⟨by decide, (IP_table_bijectivity 0x0123456789ABCDEF (by decide)).2.2.2.2⟩

/-- C15 (counterexample). Position 8 of the 64-bit key is used by no entry
of `PC1_table`, and position 9 of the 56-bit halves by no entry of
`PC2x_table`: not every source position is used exactly once. -/
theorem key_selection_tables_not_onto :
    PC1_table.count 8 = 0 ∧ PC2x_table.count 9 = 0 ∧
    ¬ ((∀ p, 1 ≤ p → p ≤ 64 → PC1_table.count p = 1) ∧
       (∀ p, 1 ≤ p → p ≤ 56 → PC2x_table.count p = 1)) := by
  refine ⟨by decide, by decide, fun h => ?_⟩
  have h8 := h.1 8 (by decide) (by decide)
  revert h8
  decide

/-- C15 (amended). `PC1_table` and `PC2x_table` have no duplicate source
index: `PC1_table` lists 56 positions of 1..64, each position that is not a
multiple of 8 exactly once and no multiple of 8; `PC2x_table` lists 48
positions of 1..56, each position other than 9, 18, 22, 25, 35, 38, 43, 54
exactly once and none of these eight. -/
theorem key_selection_tables_injective :
    PC1_table.length = 56 ∧ PC1_table.Nodup ∧
    (∀ p, p ≤ 64 → PC1_table.count p = if p = 0 ∨ p % 8 = 0 then 0 else 1) ∧
    (∀ p, 64 < p → PC1_table.count p = 0) ∧
    PC2x_table.length = 48 ∧ PC2x_table.Nodup ∧
    (∀ p, p ≤ 56 → PC2x_table.count p
      = if p = 0 ∨ p ∈ [9, 18, 22, 25, 35, 38, 43, 54] then 0 else 1) ∧
    (∀ p, 56 < p → PC2x_table.count p = 0) := by
  have b1 : ∀ x ∈ PC1_table, x ≤ 64 := by decide
  have b2 : ∀ x ∈ PC2x_table, x ≤ 56 := by decide
  refine ⟨rfl, by decide, by decide, ?_, rfl, by decide, by decide, ?_⟩
  · intro p hp
    exact List.count_eq_zero.mpr (fun h => by have := b1 p h; omega)
  · intro p hp
    exact List.count_eq_zero.mpr (fun h => by have := b2 p h; omega)

theorem zero_key_schedule : cipherKeyScheduleInner 0 = List.replicate 16 0 := by
  decide

theorem map_ptr_write_be_uint64 (v : Nat) :
    (List.range 8).map (ptr (write_be_uint64 v)) = write_be_uint64 v := by
  rw [write_be_uint64_eq, range8_map]
  simp [ptr]

set_option maxRecDepth 100000 in
theorem zero_block_value :
    write_be_uint64 (cipherForward 0 zeroBuf) = [0x8C, 0xA6, 0x4D, 0xE9, 0xC1, 0xB1, 0x23, 0xA7] := by
  decide

/-- C16. Zero example vector: the schedule of the all-zero key is 16 zero
round keys, and `cipherCbcEncrypt` of one all-zero 8-byte block with that
key, `KeyCount = 1` and an all-zero IV returns 0 and outputs the big-endian
bytes of `cipherForward` of 0 under the all-zero round keys, which are
`8C A6 4D E9 C1 B1 23 A7`; nothing is written past byte 7. -/
theorem zero_example_vector (R RK : Nat → Nat) :
    cipherKeyScheduleInner (keyAt zeroBuf 0) = List.replicate 16 0 ∧
    ∃ c, cipherCbcEncrypt R zeroBuf 8 zeroBuf 1 zeroBuf RK = some (0, c) ∧
      (List.range 8).map c = write_be_uint64 (cipherForward 0 zeroBuf) ∧
      (List.range 8).map c = [0x8C, 0xA6, 0x4D, 0xE9, 0xC1, 0xB1, 0x23, 0xA7] ∧
      ∀ a, 8 ≤ a → c a = R a := by
  have hk : keyAt zeroBuf 0 = 0 := by decide
  have hz : read_be_uint64 zeroBuf = 0 := by decide
  have hF : ∀ i, i < 16 → (cipherKeySchedule RK zeroBuf 1).2 i = zeroBuf i := by
    intro i hi
    rw [(cipherKeySchedule_table RK zeroBuf 1 (by decide) i hi).2.1]
    have e : read_be_uint64 (fun k => zeroBuf (0 + k)) = 0 := hz
    simp only [_cipherKeySchedule, e, zero_key_schedule]
    rw [List.getD_eq_getElem?_getD]
    cases h : (List.replicate 16 0)[i]? with
    | none => rfl
    | some x =>
      have := List.getElem?_mem h
      rw [List.eq_of_mem_replicate this]
      rfl
  have hblk : encChain zeroBuf (cipherKeySchedule RK zeroBuf 1).2 1 zeroBuf 1
      = write_be_uint64 (cipherForward 0 zeroBuf) := by
    rw [encChain, cipherSingleBlock_eq]
    have e : read_be_uint64 (ptr (memxor
        (ptr (encChain zeroBuf (cipherKeySchedule RK zeroBuf 1).2 1 zeroBuf 0))
        (fun k => zeroBuf (0 * 8 + k)) 8)) = read_be_uint64 zeroBuf := by
      apply read_be_uint64_congr
      intro k hk8
      rw [ptr_memxor _ _ 8 k hk8, encChain, ptr_map_range _ 8 k hk8]
      simp only [zeroBuf, Nat.xor_self]
    rw [e, hz]
    simp only [cipherChain, if_true]
    rw [cipherForward_congr 0 _ zeroBuf hF]
  rw [hk]
  refine ⟨zero_key_schedule, _, cipherCbcEncrypt_eq R zeroBuf 8 zeroBuf 1 zeroBuf RK (by decide)
    (by decide), ?_, ?_, ?_⟩
  · rw [← map_ptr_write_be_uint64]
    apply List.map_congr_left
    intro k hk
    have hk8 : k < 8 := List.mem_range.mp hk
    have := encOutput_block R zeroBuf 8 (cipherKeySchedule RK zeroBuf 1).2 1 zeroBuf 0 k
      (by decide) hk8
    rw [Nat.zero_mul, Nat.zero_add] at this
    rw [this, hblk]
  · rw [← zero_block_value, ← map_ptr_write_be_uint64]
    apply List.map_congr_left
    intro k hk
    have hk8 : k < 8 := List.mem_range.mp hk
    have := encOutput_block R zeroBuf 8 (cipherKeySchedule RK zeroBuf 1).2 1 zeroBuf 0 k
      (by decide) hk8
    rw [Nat.zero_mul, Nat.zero_add] at this
    rw [this, hblk]
  · intro a ha
    have h0 : ¬ a < 8 / 8 * 8 := by omega
    have h1 : ¬ a < 8 := by omega
    rw [encOutput, if_neg h0, if_neg h1]

/-- C20. Short-buffer encryption: for `Length` in 1..7 and a key count in
{1,2,3}, `cipherCbcEncrypt` returns 0 and `Result[k] = Data[k] XOR S[k]` for
every `k < Length`, where `S` is `cipherSingleBlock` applied to the IV under
the forward-biased schedule; bytes from `Length` on are untouched. -/
theorem short_buffer_encryption (R D : Nat → Nat) (L : Nat) (Keys : Nat → Nat) (n : Int)
    (IV RK : Nat → Nat) (h1 : 1 ≤ L) (h7 : L ≤ 7) (hn : n = 1 ∨ n = 2 ∨ n = 3) :
    ∃ c, cipherCbcEncrypt R D L Keys n IV RK = some (0, c) ∧
      (∀ k, k < L →
        c k = D k ^^^ ptr (cipherSingleBlock IV (cipherKeySchedule RK Keys n).2 n) k) ∧
      ∀ a, L ≤ a → c a = R a := by
  have hd : L / 8 = 0 := by omega
  refine ⟨_, cipherCbcEncrypt_eq R D L Keys n IV RK (by omega) hn, ?_, ?_⟩
  · intro k hk
    have h0 : ¬ k < L / 8 * 8 := by omega
    rw [encOutput, if_neg h0, if_pos hk, hd, encChain, Nat.zero_mul, Nat.sub_zero,
      cipherSingleBlock_congr_data (ptr ((List.range 8).map IV)) IV _ n
        (fun j hj => ptr_map_range IV 8 j hj), Nat.xor_comm]
  · intro a ha
    have h0 : ¬ a < L / 8 * 8 := by omega
    have h2 : ¬ a < L := by omega
    rw [encOutput, if_neg h0, if_neg h2]

/-- C20, at 5 bytes and two keys. -/
theorem short_buffer_encryption_witness :
    ∃ c, cipherCbcEncrypt zeroBuf sampleData 5 sampleKeys 2 sampleData zeroBuf = some (0, c) ∧
      (∀ k, k < 5 →
        c k = sampleData k
          ^^^ ptr (cipherSingleBlock sampleData (cipherKeySchedule zeroBuf sampleKeys 2).2 2) k) ∧
      ∀ a, 5 ≤ a → c a = zeroBuf a :=
  short_buffer_encryption zeroBuf sampleData 5 sampleKeys 2 sampleData zeroBuf (by decide)
    (by decide) (by decide)

theorem cipherKeyScheduleInner_eq_keyState (Key : Nat) :
    cipherKeyScheduleInner Key = (keyState Key 16).2.2 := rfl

theorem keyState_eq (Key n : Nat) :
    keyState Key n
      = ((keyHalves (FIPS46.CD Key 0).1 (FIPS46.CD Key 0).2 n).1,
         (keyHalves (FIPS46.CD Key 0).1 (FIPS46.CD Key 0).2 n).2,
         (List.range n).map (fun i =>
            keySelect (keyHalves (FIPS46.CD Key 0).1 (FIPS46.CD Key 0).2 (i + 1)).1
              (keyHalves (FIPS46.CD Key 0).1 (FIPS46.CD Key 0).2 (i + 1)).2)) := by
  unfold keyState
  simp only [(keyHalves_zero Key).1, (keyHalves_zero Key).2, keyRound_foldl]

theorem roundKey_eq_keyState (Key i : Nat) (hi : i < 16) :
    (cipherKeyScheduleInner Key).getD i 0
      = keySelect (keyState Key (i + 1)).1 (keyState Key (i + 1)).2.1 := by
  rw [roundKey_eq Key i hi, keyState_eq]

theorem mask_C0_testBit : ∀ p, p < 64 →
    (0xC0C0C0C0C0C0C0C0 : Nat).testBit p = decide (6 ≤ p % 8) := by
  decide

theorem keySelect_testBit_true (C D p : Nat) (h : (keySelect C D).testBit p = true) :
    ∃ j, j < 48 ∧ p = 61 - 8 * (j / 6) - j % 6 := by
  unfold keySelect at h
  simp only [] at h
  rw [testBit_selectLoop
    (fun j => (((C &&& 0x0FFFFFFF) <<< 28) ||| (D &&& 0x0FFFFFFF))
      &&& (1 <<< (56 - PC2x_table.getD j 0)) ≠ 0)
    (fun j => 63 - 2 - (j / 6 * 8 + j % 6))] at h
  simp only [decide_eq_true_eq] at h
  obtain ⟨j, hj, -, h2⟩ := h
  exact ⟨j, hj, by omega⟩

theorem keySelect_and_mask (C D : Nat) : keySelect C D &&& 0xC0C0C0C0C0C0C0C0 = 0 := by
  apply Nat.eq_of_testBit_eq
  intro p
  rw [Nat.testBit_and, Nat.zero_testBit]
  cases h : (keySelect C D).testBit p with
  | false => rfl
  | true =>
    obtain ⟨j, hj, hp⟩ := keySelect_testBit_true C D p h
    rw [Bool.true_and, mask_C0_testBit p (by omega)]
    have : ¬ 6 ≤ p % 8 := by omega
    simp [this]

theorem testBit_keySelect_keyCD (C D j : Nat) (hj : j < 48) :
    (keySelect C D).testBit (61 - 8 * (j / 6) - j % 6)
      = (keyCD C D).testBit (56 - PC2x_table.getD j 0) := by
  have hcd : keyCD C D = (C % 2 ^ 28) * 2 ^ 28 + D % 2 ^ 28 := by
    unfold keyCD
    rw [and_mask28, and_mask28, Nat.shiftLeft_eq, Nat.mul_comm]
    rw [Nat.mul_add_lt_is_or (Nat.mod_lt _ (by decide))]
  rw [hcd, ← testBit_keySelect C D j hj]
  congr 1
  omega

/-- C19. Round-key layout invariant: for every key and round `i` in 0..15,
round key `i` is the PC-2x selection of that round's halves; it has the two
most significant bits of each of its 8 bytes zero; the bit of `CD` selected
by `PC2x_table[j]` is stored at bit `61 - 8 (j div 6) - (j mod 6)`; these 48
positions are distinct, position `j` lying in byte `7 - j div 6` at bit
`5 - j mod 6` of that byte; and no other bit of the round key is set. -/
theorem round_key_layout_invariant (Key i : Nat) (hi : i < 16) :
    (cipherKeyScheduleInner Key).getD i 0
      = keySelect (keyState Key (i + 1)).1 (keyState Key (i + 1)).2.1 ∧
    (cipherKeyScheduleInner Key).getD i 0 &&& 0xC0C0C0C0C0C0C0C0 = 0 ∧
    (∀ j, j < 48 →
      ((cipherKeyScheduleInner Key).getD i 0).testBit (61 - 8 * (j / 6) - j % 6)
        = (keyCD (keyState Key (i + 1)).1 (keyState Key (i + 1)).2.1).testBit
            (56 - PC2x_table.getD j 0)) ∧
    (∀ j j', j < 48 → j' < 48 →
      61 - 8 * (j / 6) - j % 6 = 61 - 8 * (j' / 6) - j' % 6 → j = j') ∧
    (∀ j, j < 48 → (61 - 8 * (j / 6) - j % 6) / 8 = 7 - j / 6 ∧
      (61 - 8 * (j / 6) - j % 6) % 8 = 5 - j % 6) ∧
    (∀ p, ((cipherKeyScheduleInner Key).getD i 0).testBit p = true →
      ∃ j, j < 48 ∧ p = 61 - 8 * (j / 6) - j % 6) := by
  rw [roundKey_eq_keyState Key i hi]
  refine ⟨rfl, keySelect_and_mask _ _, fun j hj => testBit_keySelect_keyCD _ _ j hj,
    fun j j' hj hj' h => by omega, fun j hj => by omega,
    fun p hp => keySelect_testBit_true _ _ p hp⟩

/-- C19, at the key `133457799BBCDFF1` and round 0. -/
theorem round_key_layout_invariant_witness :
    (cipherKeyScheduleInner 0x133457799BBCDFF1).getD 0 0 &&& 0xC0C0C0C0C0C0C0C0 = 0 ∧
    (cipherKeyScheduleInner 0x133457799BBCDFF1).getD 0 0 = 0x060B3F01302F0732 :=
  ⟨(round_key_layout_invariant 0x133457799BBCDFF1 0 (by decide)).2.1, by decide⟩

theorem rotl28_lt (c s : Nat) (hc : c < 2 ^ 28) : rotl28 c s < 2 ^ 28 := by
  unfold rotl28
  refine Nat.or_lt_two_pow (Nat.mod_lt _ (by decide)) ?_
  rw [Nat.shiftRight_eq_div_pow]
  exact lt_of_le_of_lt (Nat.div_le_self _ _) hc

/-- Bits of a 28-bit rotation: bit `j` comes from bit `j - s` modulo 28. -/
theorem testBit_rotl28 (c s j : Nat) (hc : c < 2 ^ 28) :
    (rotl28 c s).testBit j = (decide (j < 28) && c.testBit ((j + 28 - s % 28) % 28)) := by
  have ha : s % 28 < 28 := Nat.mod_lt _ (by decide)
  unfold rotl28
  simp only [Nat.testBit_or, Nat.testBit_mod_two_pow, Nat.testBit_shiftLeft,
    Nat.testBit_shiftRight, ge_iff_le]
  by_cases h1 : j < 28
  · by_cases h2 : s % 28 ≤ j
    · rw [testBit_ge_of_lt c 28 (28 - s % 28 + j) hc (by omega),
        show (j + 28 - s % 28) % 28 = j - s % 28 by omega]
      simp [h1, h2]
    · rw [show (j + 28 - s % 28) % 28 = 28 - s % 28 + j by omega]
      simp [h1, h2]
  · rw [testBit_ge_of_lt c 28 (28 - s % 28 + j) hc (by omega)]
    simp [h1]

theorem rotl28_zero (c : Nat) (hc : c < 2 ^ 28) : rotl28 c 0 = c ∧ rotl28 c 28 = c := by
  constructor <;>
  · apply Nat.eq_of_testBit_eq
    intro j
    rw [testBit_rotl28 _ _ _ hc]
    by_cases h : j < 28
    · simp [h, show (j + 28) % 28 = j by omega]
    · simp [h, testBit_ge_of_lt c 28 j hc (by omega)]

theorem leftShift_rotl28 (c s : Nat) (hc : c < 2 ^ 28) :
    FIPS46.leftShift (rotl28 c s) = rotl28 c (s + 1) := by
  apply Nat.eq_of_testBit_eq
  intro j
  rw [testBit_leftShift _ _ (rotl28_lt c s hc), testBit_rotl28 _ _ _ hc,
    testBit_rotl28 _ _ _ hc]
  by_cases h : j < 28
  · have e : ((j + 27) % 28 + 28 - s % 28) % 28 = (j + 28 - (s + 1) % 28) % 28 := by omega
    have h2 : (j + 27) % 28 < 28 := Nat.mod_lt _ (by decide)
    simp [h, h2, e]
  · simp [h]

theorem leftShift_iterate_rotl28 (c s : Nat) (hc : c < 2 ^ 28) (k : Nat) :
    FIPS46.leftShift^[k] (rotl28 c s) = rotl28 c (s + k) := by
  induction k generalizing s with
  | zero => rfl
  | succ k ih =>
    rw [Function.iterate_succ_apply, leftShift_rotl28 c s hc, ih (s + 1)]
    congr 1; omega

theorem shiftSum_succ (i : Nat) : shiftSum (i + 1) = shiftSum i + LS_table.getD (i + 1) 0 := by
  unfold shiftSum
  rw [List.range_succ, List.map_append, List.sum_append]
  simp

theorem shiftSum_values : shiftSum 0 = 1 ∧ shiftSum 15 = 28 := by
  decide

theorem CD_succ (Key n : Nat) :
    FIPS46.CD Key (n + 1)
      = (FIPS46.leftShift^[FIPS46.shifts.getD n 0] (FIPS46.CD Key n).1,
         FIPS46.leftShift^[FIPS46.shifts.getD n 0] (FIPS46.CD Key n).2) := rfl

/-- The FIPS 46-3 halves `C_(i+1)`, `D_(i+1)` are `C_0`, `D_0` rotated by
the cumulative amount. -/
theorem CD_eq_rotl28 (Key i : Nat) (hi : i < 16) :
    (FIPS46.CD Key (i + 1)).1 = rotl28 (FIPS46.CD Key 0).1 (shiftSum i) ∧
    (FIPS46.CD Key (i + 1)).2 = rotl28 (FIPS46.CD Key 0).2 (shiftSum i) := by
  have h0 := CD_lt Key 0
  induction i with
  | zero =>
    have e : FIPS46.shifts.getD 0 0 = 1 := rfl
    have r1 := leftShift_iterate_rotl28 _ 0 h0.1 1
    have r2 := leftShift_iterate_rotl28 _ 0 h0.2 1
    rw [(rotl28_zero _ h0.1).1] at r1
    rw [(rotl28_zero _ h0.2).1] at r2
    rw [shiftSum_values.1, CD_succ Key 0, e]
    exact ⟨r1, r2⟩
  | succ i ih =>
    obtain ⟨h1, h2⟩ := ih (by omega)
    have e : FIPS46.shifts.getD (i + 1) 0 = LS_table.getD (i + 1) 0 :=
      ((LS_table_values (i + 1) hi).1).symm
    rw [shiftSum_succ, CD_succ Key (i + 1), h1, h2, e]
    exact ⟨leftShift_iterate_rotl28 _ _ h0.1 _, leftShift_iterate_rotl28 _ _ h0.2 _⟩

theorem keySelect_mod (C D : Nat) : keySelect C D = keySelect (C % 2 ^ 28) (D % 2 ^ 28) := by
  unfold keySelect
  simp only [and_mask28, Nat.mod_mod]

/-- C17. Cumulative 28-bit rotation despite unmasked 32-bit shifts: for
every key and every round `i` in 0..15, the low 28 bits of `C` and of `D`
after round `i` of `cipherKeyScheduleInner` are the initial halves `C0`,
`D0` rotated left (as 28-bit blocks) by `s_i = LS_table[0] + ... +
LS_table[i]`; round key `i` is the PC-2x selection of those rotated halves;
and since `s_15 = 28`, round key 15 is selected from `C0`, `D0` themselves. -/
theorem cumulative_rotation (Key i : Nat) (hi : i < 16) :
    (keyState Key 0).1 < 2 ^ 28 ∧ (keyState Key 0).2.1 < 2 ^ 28 ∧
    (keyState Key (i + 1)).1 % 2 ^ 28 = rotl28 (keyState Key 0).1 (shiftSum i) ∧
    (keyState Key (i + 1)).2.1 % 2 ^ 28 = rotl28 (keyState Key 0).2.1 (shiftSum i) ∧
    (cipherKeyScheduleInner Key).getD i 0
      = keySelect (rotl28 (keyState Key 0).1 (shiftSum i))
          (rotl28 (keyState Key 0).2.1 (shiftSum i)) ∧
    shiftSum 15 = 28 ∧
    (cipherKeyScheduleInner Key).getD 15 0
      = keySelect (keyState Key 0).1 (keyState Key 0).2.1 := by
  have h0 := CD_lt Key 0
  have hs := keyHalves_spec Key
  have e0 : keyState Key 0 = ((FIPS46.CD Key 0).1, (FIPS46.CD Key 0).2, []) := by
    rw [keyState_eq]; rfl
  have key : ∀ r, r < 16 →
      (keyState Key (r + 1)).1 % 2 ^ 28 = rotl28 (FIPS46.CD Key 0).1 (shiftSum r) ∧
      (keyState Key (r + 1)).2.1 % 2 ^ 28 = rotl28 (FIPS46.CD Key 0).2 (shiftSum r) := by
    intro r hr
    obtain ⟨-, -, h3, h4⟩ := hs (r + 1) (by omega)
    obtain ⟨c1, c2⟩ := CD_eq_rotl28 Key r hr
    rw [keyState_eq]
    exact ⟨h3.trans c1, h4.trans c2⟩
  rw [e0]
  refine ⟨h0.1, h0.2, (key i hi).1, (key i hi).2, ?_, shiftSum_values.2, ?_⟩
  · rw [roundKey_eq_keyState Key i hi, keySelect_mod, (key i hi).1, (key i hi).2]
  · rw [roundKey_eq_keyState Key 15 (by decide), keySelect_mod, (key 15 (by decide)).1,
      (key 15 (by decide)).2, shiftSum_values.2, (rotl28_zero _ h0.1).2,
      (rotl28_zero _ h0.2).2]

/-- C17, at the key `133457799BBCDFF1` and round 2. -/
theorem cumulative_rotation_witness :
    (keyState 0x133457799BBCDFF1 (2 + 1)).1 % 2 ^ 28
      = rotl28 (keyState 0x133457799BBCDFF1 0).1 (shiftSum 2) ∧
    shiftSum 2 = 4 ∧ (keyState 0x133457799BBCDFF1 0).1 = 0xF0CCAAF :=
  ⟨(cumulative_rotation 0x133457799BBCDFF1 2 (by decide)).2.2.1, by decide, by decide⟩

set_option maxRecDepth 100000 in
/-- C11 (counterexample). Under the key `13 34 57 79 9B BC DF F1`, key count
1 and an all-zero IV, sixteen zero bytes and `divergeData` differ within
block 0 (there is no earlier block); `cipherCbcEncrypt` gives them different
ciphertext blocks 0 (`94 8A 43 F9 8A 83 4F 7E` and `38 D4 73 A1 97 48 34 0F`)
but the same ciphertext block 1, `3E F9 BC D7 5E 69 65 F2`: block 1 of
`divergeData` is the XOR of the two ciphertext blocks 0. -/
theorem chaining_divergence_fails :
    ∃ c₁ c₂,
      cipherCbcEncrypt zeroBuf zeroBuf 16 exampleKey 1 zeroBuf zeroBuf = some (0, c₁) ∧
      cipherCbcEncrypt zeroBuf divergeData 16 exampleKey 1 zeroBuf zeroBuf = some (0, c₂) ∧
      zeroBuf 0 ≠ divergeData 0 ∧
      (List.range 8).map c₁ = [0x94, 0x8A, 0x43, 0xF9, 0x8A, 0x83, 0x4F, 0x7E] ∧
      (List.range 8).map c₂ = [0x38, 0xD4, 0x73, 0xA1, 0x97, 0x48, 0x34, 0x0F] ∧
      (List.range 8).map (fun k => c₁ (8 + k))
        = [0x3E, 0xF9, 0xBC, 0xD7, 0x5E, 0x69, 0x65, 0xF2] ∧
      (List.range 8).map (fun k => c₂ (8 + k))
        = [0x3E, 0xF9, 0xBC, 0xD7, 0x5E, 0x69, 0x65, 0xF2] := by
  refine ⟨_, _, cipherCbcEncrypt_eq zeroBuf zeroBuf 16 exampleKey 1 zeroBuf zeroBuf (by decide)
    (by decide), cipherCbcEncrypt_eq zeroBuf divergeData 16 exampleKey 1 zeroBuf zeroBuf
    (by decide) (by decide), by decide, by decide, by decide, by decide, by decide⟩

theorem eq_of_ptr_eq (l₁ l₂ : List Nat) (h1 : l₁.length = 8) (h2 : l₂.length = 8)
    (h : ∀ k, k < 8 → ptr l₁ k = ptr l₂ k) : l₁ = l₂ := by
  apply List.ext_getElem (h1.trans h2.symm)
  intro k hk1 hk2
  have := h k (by omega)
  simp only [ptr, List.getD_eq_getElem?_getD, List.getElem?_eq_getElem hk1,
    List.getElem?_eq_getElem hk2, Option.getD_some] at this
  exact this

/-- The chained invocation under a forward-biased table is injective on
blocks of bytes. -/
theorem cipherSingleBlock_injective (B B' RK Keys : Nat → Nat) (n : Int)
    (hn : n = 1 ∨ n = 2 ∨ n = 3) (hB : ∀ k, k < 8 → B k < 256) (hB' : ∀ k, k < 8 → B' k < 256)
    (h : cipherSingleBlock B (cipherKeySchedule RK Keys n).2 n
      = cipherSingleBlock B' (cipherKeySchedule RK Keys n).2 n) :
    ∀ k, k < 8 → B k = B' k := by
  have e1 := (cipherSingleBlock_inverse B RK RK Keys n hn hB).1
  have e2 := (cipherSingleBlock_inverse B' RK RK Keys n hn hB').1
  rw [h, e2] at e1
  intro k hk
  have := congrArg (fun l => ptr l k) e1
  simp only [ptr_map_range _ 8 k hk] at this
  exact this.symm

theorem xor_right_cancel (a b d : Nat) (h : a ^^^ d = b ^^^ d) : a = b := by
  have := congrArg (fun x => x ^^^ d) h
  simp only [Nat.xor_assoc, Nat.xor_self, Nat.xor_zero] at this
  exact this

theorem xor_left_cancel (a b d : Nat) (h : d ^^^ a = d ^^^ b) : a = b := by
  rw [Nat.xor_comm d a, Nat.xor_comm d b] at h
  exact xor_right_cancel a b d h

theorem encChain_length (D F : Nat → Nat) (n : Int) (IV : Nat → Nat) (j : Nat) :
    (encChain D F n IV j).length = 8 := by
  cases j with
  | zero => simp [encChain]
  | succ j => rw [encChain, cipherSingleBlock_length]

/-- One step of the chain: if the inputs to the chained invocation differ in
some byte, so do the output blocks. -/
theorem encChain_succ_ne (D₁ D₂ RK Keys : Nat → Nat) (n : Int) (IV : Nat → Nat) (j : Nat)
    (hn : n = 1 ∨ n = 2 ∨ n = 3) (hIV : ∀ k, k < 8 → IV k < 256)
    (h1 : ∀ k, k < 8 → D₁ (j * 8 + k) < 256) (h2 : ∀ k, k < 8 → D₂ (j * 8 + k) < 256)
    (hne : ∃ k, k < 8 ∧
      ptr (encChain D₁ (cipherKeySchedule RK Keys n).2 n IV j) k ^^^ D₁ (j * 8 + k)
        ≠ ptr (encChain D₂ (cipherKeySchedule RK Keys n).2 n IV j) k ^^^ D₂ (j * 8 + k)) :
    encChain D₁ (cipherKeySchedule RK Keys n).2 n IV (j + 1)
      ≠ encChain D₂ (cipherKeySchedule RK Keys n).2 n IV (j + 1) := by
  intro heq
  obtain ⟨k, hk, hne⟩ := hne
  rw [encChain, encChain] at heq
  have := cipherSingleBlock_injective _ _ RK Keys n hn
    (fun k hk => by
      rw [ptr_memxor _ _ 8 k hk]
      exact xor_lt_256 _ _ (encChain_lt D₁ _ n IV hIV _ _) (h1 k hk))
    (fun k hk => by
      rw [ptr_memxor _ _ 8 k hk]
      exact xor_lt_256 _ _ (encChain_lt D₂ _ n IV hIV _ _) (h2 k hk))
    heq k hk
  rw [ptr_memxor _ _ 8 k hk, ptr_memxor _ _ 8 k hk] at this
  exact hne this

theorem exists_ptr_ne (l₁ l₂ : List Nat) (h1 : l₁.length = 8) (h2 : l₂.length = 8)
    (h : l₁ ≠ l₂) : ∃ k, k < 8 ∧ ptr l₁ k ≠ ptr l₂ k := by
  by_contra hc
  apply h
  apply eq_of_ptr_eq l₁ l₂ h1 h2
  intro k hk
  by_contra hk'
  exact hc ⟨k, hk, hk'⟩

/-- The chain blocks of two plaintexts that agree before block `i`, differ
within block `i` and agree on blocks `i + 1 .. j` differ after block `j`. -/
theorem encChain_diverge (D₁ D₂ RK Keys : Nat → Nat) (n : Int) (IV : Nat → Nat) (L i : Nat)
    (hn : n = 1 ∨ n = 2 ∨ n = 3) (hIV : ∀ k, k < 8 → IV k < 256)
    (h1 : ∀ a, a < L → D₁ a < 256) (h2 : ∀ a, a < L → D₂ a < 256)
    (hpre : ∀ j k, j < i → k < 8 → D₁ (j * 8 + k) = D₂ (j * 8 + k))
    (hdiff : ∃ k, k < 8 ∧ D₁ (i * 8 + k) ≠ D₂ (i * 8 + k)) :
    ∀ d, i + d < L / 8 →
      (∀ j' k, i < j' → j' ≤ i + d → k < 8 → D₁ (j' * 8 + k) = D₂ (j' * 8 + k)) →
      encChain D₁ (cipherKeySchedule RK Keys n).2 n IV (i + d + 1)
        ≠ encChain D₂ (cipherKeySchedule RK Keys n).2 n IV (i + d + 1) := by
  intro d
  induction d with
  | zero =>
    intro hi _
    apply encChain_succ_ne D₁ D₂ RK Keys n IV i hn hIV (fun k hk => h1 _ (by omega))
      (fun k hk => h2 _ (by omega))
    obtain ⟨k, hk, hne⟩ := hdiff
    refine ⟨k, hk, ?_⟩
    rw [ encChain_prefix D₁ D₂ _ n IV i hpre]
    intro h
    exact hne (xor_left_cancel _ _ _ h)
  | succ d ih =>
    intro hi hpost
    have hprev := ih (by omega) (fun j' k a b c => hpost j' k a (by omega) c)
    obtain ⟨k, hk, hne⟩ := exists_ptr_ne _ _ (encChain_length _ _ _ _ _)
      (encChain_length _ _ _ _ _) hprev
    have e : i + (d + 1) = i + d + 1 := by omega
    rw [e]
    apply encChain_succ_ne D₁ D₂ RK Keys n IV (i + d + 1) hn hIV (fun k hk => h1 _ (by omega))
      (fun k hk => h2 _ (by omega))
    refine ⟨k, hk, ?_⟩
    rw [hpost (i + d + 1) k (by omega) (by omega) hk]
    intro h
    exact hne (xor_right_cancel _ _ _ h)

/-- C11 (amended). Chaining divergence: for fixed keys, key count in
{1,2,3} and IV, if two plaintexts of the same length agree on all full
blocks with index below `i` and differ within full block `i`, then the
outputs of `cipherCbcEncrypt` differ in block `i`, and they differ in every
later full block `j` up to which the plaintexts agree again (blocks
`i + 1 .. j` equal). -/
theorem chaining_divergence (R D₁ D₂ : Nat → Nat) (L : Nat) (Keys : Nat → Nat) (n : Int)
    (IV RK : Nat → Nat) (i : Nat) (hn : n = 1 ∨ n = 2 ∨ n = 3) (hi : i < L / 8)
    (hIV : ∀ k, k < 8 → IV k < 256)
    (h1 : ∀ a, a < L → D₁ a < 256) (h2 : ∀ a, a < L → D₂ a < 256)
    (hpre : ∀ j k, j < i → k < 8 → D₁ (j * 8 + k) = D₂ (j * 8 + k))
    (hdiff : ∃ k, k < 8 ∧ D₁ (i * 8 + k) ≠ D₂ (i * 8 + k)) :
    ∃ c₁ c₂,
      cipherCbcEncrypt R D₁ L Keys n IV RK = some (0, c₁) ∧
      cipherCbcEncrypt R D₂ L Keys n IV RK = some (0, c₂) ∧
      (∃ k, k < 8 ∧ c₁ (i * 8 + k) ≠ c₂ (i * 8 + k)) ∧
      ∀ j, i < j → j < L / 8 →
        (∀ j' k, i < j' → j' ≤ j → k < 8 → D₁ (j' * 8 + k) = D₂ (j' * 8 + k)) →
        ∃ k, k < 8 ∧ c₁ (j * 8 + k) ≠ c₂ (j * 8 + k) := by
  have hL : 0 < L := by omega
  have key := encChain_diverge D₁ D₂ RK Keys n IV L i hn hIV h1 h2 hpre hdiff
  have blk : ∀ j, j < L / 8 →
      encChain D₁ (cipherKeySchedule RK Keys n).2 n IV (j + 1)
        ≠ encChain D₂ (cipherKeySchedule RK Keys n).2 n IV (j + 1) →
      ∃ k, k < 8 ∧ encOutput R D₁ L (cipherKeySchedule RK Keys n).2 n IV (j * 8 + k)
        ≠ encOutput R D₂ L (cipherKeySchedule RK Keys n).2 n IV (j * 8 + k) := by
    intro j hj hne
    obtain ⟨k, hk, h⟩ := exists_ptr_ne _ _ (encChain_length _ _ _ _ _)
      (encChain_length _ _ _ _ _) hne
    refine ⟨k, hk, ?_⟩
    rw [encOutput_block R D₁ L _ n IV j k hj hk, encOutput_block R D₂ L _ n IV j k hj hk]
    exact h
  refine ⟨_, _, cipherCbcEncrypt_eq R D₁ L Keys n IV RK hL hn,
    cipherCbcEncrypt_eq R D₂ L Keys n IV RK hL hn, ?_, ?_⟩
  · exact blk i hi (key 0 (by omega) (fun j' k a b _ => by omega))
  · intro j hij hj hpost
    have e : j = i + (j - i) := by omega
    have := key (j - i) (by omega) (fun j' k a b c => hpost j' k a (by omega) c)
    rw [← e] at this
    exact blk j hj this

/-- C11 (amended), at 24 bytes and three keys: the sample data and a copy
whose byte 8 is changed differ within block 1 only. -/
theorem chaining_divergence_witness :
    ∃ c₁ c₂,
      cipherCbcEncrypt zeroBuf sampleData 24 sampleKeys 3 zeroBuf zeroBuf = some (0, c₁) ∧
      cipherCbcEncrypt zeroBuf (Function.update sampleData 8 0) 24 sampleKeys 3 zeroBuf zeroBuf
        = some (0, c₂) ∧
      (∃ k, k < 8 ∧ c₁ (1 * 8 + k) ≠ c₂ (1 * 8 + k)) ∧
      ∀ j, 1 < j → j < 24 / 8 →
        (∀ j' k, 1 < j' → j' ≤ j → k < 8 →
          sampleData (j' * 8 + k) = Function.update sampleData 8 0 (j' * 8 + k)) →
        ∃ k, k < 8 ∧ c₁ (j * 8 + k) ≠ c₂ (j * 8 + k) :=
  chaining_divergence zeroBuf sampleData (Function.update sampleData 8 0) 24 sampleKeys 3
    zeroBuf zeroBuf 1 (by decide) (by decide) (fun _ _ => Nat.zero_lt_succ _)
    (fun a _ => Nat.mod_lt _ (by decide))
    (fun a _ => by
      by_cases h : a = 8
      · subst h; simp
      · rw [Function.update_noteq h]; exact Nat.mod_lt _ (by decide))
    (fun j k hj hk => by rw [Function.update_noteq (by omega)])
    ⟨0, by decide, by decide⟩

/-- The permutation IP reads only the low 64 bits of its argument. -/
theorem cipherIP_mod (x : Nat) : cipherIP (x % 2 ^ 64) = cipherIP x := by
  apply Nat.eq_of_testBit_eq
  intro b
  rw [testBit_cipherIP, testBit_cipherIP, Nat.testBit_mod_two_pow]
  by_cases hb : b < 64
  · have h := (IP_IPinv_table b hb).2.1
    rw [decide_eq_true h, Bool.true_and]
  · rw [decide_eq_false hb, Bool.false_and, Bool.false_and]

theorem cipherForward_mod (x : Nat) (rk : Nat → Nat) :
    cipherForward (x % 2 ^ 64) rk = cipherForward x rk := by
  unfold cipherForward
  simp only [cipherIP_mod]

/-- A stage under the reversed schedule cancels the stage before it. -/
theorem cipherForward_cancel (x : Nat) (rk rk' : Nat → Nat)
    (h : ∀ i, i < 16 → rk' i = rk (15 - i)) :
    cipherForward (cipherForward x rk) rk' = x % 2 ^ 64 := by
  rw [← cipherForward_mod x rk]
  exact cipherForward_reverse _ (Nat.mod_lt _ (by decide)) rk rk' h

/-- With `K || K` and key count 2, or `K || K || K` and key count 3, the
chained invocation is the single invocation under `K`. -/
theorem cipherSingleBlock_degenerate (B K Keys₂ Keys₃ RK RK₂ RK₃ : Nat → Nat)
    (h2 : ∀ k, k < 8 → Keys₂ k = K k ∧ Keys₂ (8 + k) = K k)
    (h3 : ∀ k, k < 8 → Keys₃ k = K k ∧ Keys₃ (8 + k) = K k ∧ Keys₃ (16 + k) = K k) :
    cipherSingleBlock B (cipherKeySchedule RK₂ Keys₂ 2).2 2
      = cipherSingleBlock B (cipherKeySchedule RK K 1).2 1 ∧
    cipherSingleBlock B (cipherKeySchedule RK₃ Keys₃ 3).2 3
      = cipherSingleBlock B (cipherKeySchedule RK K 1).2 1 := by
  have t1 := cipherKeySchedule_table RK K 1 (by decide)
  have t2 := cipherKeySchedule_table RK₂ Keys₂ 2 (by decide)
  have t3 := cipherKeySchedule_table RK₃ Keys₃ 3 (by decide)
  generalize (cipherKeySchedule RK K 1).2 = F1 at t1
  generalize (cipherKeySchedule RK₂ Keys₂ 2).2 = F2 at t2
  generalize (cipherKeySchedule RK₃ Keys₃ 3).2 = F3 at t3
  have d1 : (2 : Int) ≠ 1 := by decide
  have d2 : (3 : Int) ≠ 1 := by decide
  have d3 : (3 : Int) ≠ 2 := by decide
  have a0 := keySchedule_congr (fun k => Keys₂ (0 + k)) (fun k => K (0 + k))
    (fun k hk => by simp only [Nat.zero_add]; exact (h2 k hk).1)
  have a1 := keySchedule_congr (fun k => Keys₂ (8 + k)) (fun k => K (0 + k))
    (fun k hk => by simp only [Nat.zero_add]; exact (h2 k hk).2)
  have b0 := keySchedule_congr (fun k => Keys₃ (0 + k)) (fun k => K (0 + k))
    (fun k hk => by simp only [Nat.zero_add]; exact (h3 k hk).1)
  have b1 := keySchedule_congr (fun k => Keys₃ (8 + k)) (fun k => K (0 + k))
    (fun k hk => by simp only [Nat.zero_add]; exact (h3 k hk).2.1)
  have b2 := keySchedule_congr (fun k => Keys₃ (16 + k)) (fun k => K (0 + k))
    (fun k hk => by simp only [Nat.zero_add]; exact (h3 k hk).2.2)
  have e20 : ∀ i, i < 16 → F2 i = F1 i := fun i hi => by
    rw [(t2 i hi).2.1, (t1 i hi).2.1, a0.1]
  have e21 : ∀ i, i < 16 → F2 (16 + i) = F2 (15 - i) := fun i hi => by
    rw [(t2 i hi).2.2.1 d1, (t2 (15 - i) (by omega)).2.1, a1.2, a0.1, reverse_getD _ i hi]
  have e30 : ∀ i, i < 16 → F3 i = F1 i := fun i hi => by
    rw [(t3 i hi).2.1, (t1 i hi).2.1, b0.1]
  have e31 : ∀ i, i < 16 → F3 (16 + i) = F3 (15 - i) := fun i hi => by
    rw [(t3 i hi).2.2.1 d2, (t3 (15 - i) (by omega)).2.1, b1.2, b0.1, reverse_getD _ i hi]
  have e32 : ∀ i, i < 16 → F3 (32 + i) = F1 i := fun i hi => by
    rw [(t3 i hi).2.2.2 rfl, (t1 i hi).2.1, b2.1]
  rw [cipherSingleBlock_eq, cipherSingleBlock_eq, cipherSingleBlock_eq]
  simp only [cipherChain, if_neg d1, if_neg d2, if_neg d3, if_true]
  constructor
  · rw [cipherForward_cancel (read_be_uint64 B) F2 (fun j => F2 (16 + j)) e21,
      cipherForward_mod, cipherForward_congr (read_be_uint64 B) F2 F1 e20]
  · rw [cipherForward_cancel (read_be_uint64 B) F3 (fun j => F3 (16 + j)) e31,
      cipherForward_mod, cipherForward_congr (read_be_uint64 B) (fun j => F3 (32 + j)) F1 e32]

/-- C21. Degenerate multi-key equals single-key: for every plaintext (empty
or not), IV and 8-byte key `K`, `cipherCbcEncrypt` with `KeyCount = 2` and
keys `K || K`, and with `KeyCount = 3` and keys `K || K || K`, gives the same
return value and the same output buffer as with `KeyCount = 1` and key `K`. -/
theorem degenerate_multi_key (R D : Nat → Nat) (L : Nat) (K Keys₂ Keys₃ IV RK RK₂ RK₃ : Nat → Nat)
    (h2 : ∀ k, k < 8 → Keys₂ k = K k ∧ Keys₂ (8 + k) = K k)
    (h3 : ∀ k, k < 8 → Keys₃ k = K k ∧ Keys₃ (8 + k) = K k ∧ Keys₃ (16 + k) = K k) :
    cipherCbcEncrypt R D L Keys₂ 2 IV RK₂ = cipherCbcEncrypt R D L K 1 IV RK ∧
    cipherCbcEncrypt R D L Keys₃ 3 IV RK₃ = cipherCbcEncrypt R D L K 1 IV RK := by
  by_cases hL : L = 0
  · subst hL
    rw [cipherCbcEncrypt_zero, cipherCbcEncrypt_zero, cipherCbcEncrypt_zero]
    exact ⟨rfl, rfl⟩
  · have hL' : 0 < L := Nat.pos_of_ne_zero hL
    rw [cipherCbcEncrypt_eq R D L Keys₂ 2 IV RK₂ hL' (by decide),
      cipherCbcEncrypt_eq R D L Keys₃ 3 IV RK₃ hL' (by decide),
      cipherCbcEncrypt_eq R D L K 1 IV RK hL' (by decide),
      encOutput_congr_block R D L (cipherKeySchedule RK₂ Keys₂ 2).2
        (cipherKeySchedule RK K 1).2 2 1 IV
        (fun B => (cipherSingleBlock_degenerate B K Keys₂ Keys₃ RK RK₂ RK₃ h2 h3).1),
      encOutput_congr_block R D L (cipherKeySchedule RK₃ Keys₃ 3).2
        (cipherKeySchedule RK K 1).2 3 1 IV
        (fun B => (cipherSingleBlock_degenerate B K Keys₂ Keys₃ RK RK₂ RK₃ h2 h3).2)]
    exact ⟨rfl, rfl⟩

/-- C21, at 11 bytes of sample data and the key `13 34 57 79 9B BC DF F1`. -/
theorem degenerate_multi_key_witness :
    cipherCbcEncrypt zeroBuf sampleData 11 exampleKeyThrice 2 zeroBuf zeroBuf
      = cipherCbcEncrypt zeroBuf sampleData 11 exampleKey 1 zeroBuf zeroBuf ∧
    cipherCbcEncrypt zeroBuf sampleData 11 exampleKeyThrice 3 zeroBuf zeroBuf
      = cipherCbcEncrypt zeroBuf sampleData 11 exampleKey 1 zeroBuf zeroBuf :=
  degenerate_multi_key zeroBuf sampleData 11 exampleKey exampleKeyThrice exampleKeyThrice
    zeroBuf zeroBuf zeroBuf zeroBuf (by decide) (by decide)

theorem parity_mask_testBit : ∀ p, p < 64 →
    (0x0101010101010101 : Nat).testBit p = decide (p % 8 = 0) := by
  decide

theorem PC1_skips_parity : ∀ b, b < 56 →
    64 - PC1_table.getD (55 - b) 0 < 64 ∧ (64 - PC1_table.getD (55 - b) 0) % 8 ≠ 0 := by
  decide

/-- Two keys whose difference lies within the mask `0x0101010101010101`
agree on every bit that is not the lowest bit of a byte. -/
theorem testBit_eq_of_parity (K K' : Nat)
    (hK : (K ^^^ K') &&& 0x0101010101010101 = K ^^^ K') (p : Nat) (hp : p < 64)
    (h8 : p % 8 ≠ 0) : K.testBit p = K'.testBit p := by
  have h := congrArg (fun x => x.testBit p) hK
  simp only [Nat.testBit_and, Nat.testBit_xor, parity_mask_testBit p hp, decide_eq_false h8,
    Bool.and_false] at h
  revert h
  cases K.testBit p <;> cases K'.testBit p <;> simp

theorem keyInput_parity (K K' : Nat)
    (hK : (K ^^^ K') &&& 0x0101010101010101 = K ^^^ K') : keyInput K = keyInput K' := by
  rw [keyInput_eq_select, keyInput_eq_select]
  apply Nat.eq_of_testBit_eq
  intro b
  rw [testBit_select, testBit_select]
  by_cases hb : b < 56
  · have hl : FIPS46.PC1.length = 56 := rfl
    obtain ⟨h1, h2⟩ := PC1_skips_parity b hb
    rw [hl]
    have e : 56 - 1 - b = 55 - b := by omega
    rw [e]
    have := testBit_eq_of_parity K K' hK _ h1 h2
    exact congrArg (fun x => decide (b < 56) && x) this
  · have hl : FIPS46.PC1.length = 56 := rfl
    rw [hl, decide_eq_false hb, Bool.false_and, Bool.false_and]

/-- The key schedule does not read the lowest bit of any key byte. -/
theorem cipherKeyScheduleInner_parity (K K' : Nat)
    (hK : (K ^^^ K') &&& 0x0101010101010101 = K ^^^ K') :
    cipherKeyScheduleInner K = cipherKeyScheduleInner K' := by
  unfold cipherKeyScheduleInner
  rw [keyInput_parity K K' hK]

theorem slot_schedules_parity (Keys Keys' : Nat → Nat) (k : Nat)
    (h : (keyAt Keys k ^^^ keyAt Keys' k) &&& 0x0101010101010101
      = keyAt Keys k ^^^ keyAt Keys' k) :
    _cipherKeySchedule (fun j => Keys (8 * k + j))
      = _cipherKeySchedule (fun j => Keys' (8 * k + j)) ∧
    _cipherKeyScheduleReverse (fun j => Keys (8 * k + j))
      = _cipherKeyScheduleReverse (fun j => Keys' (8 * k + j)) := by
  have e := cipherKeyScheduleInner_parity _ _ h
  constructor
  · simp only [_cipherKeySchedule, read_be_uint64_keyAt, e]
  · simp only [_cipherKeyScheduleReverse, read_be_uint64_keyAt, e]

/-- Both multi-key schedules are the same for key material that differs only
in the lowest bit of bytes of the keys in use. -/
theorem schedules_parity (Keys Keys' : Nat → Nat) (n : Int)
    (h : ∀ k : Nat, (k : Int) < n →
      (keyAt Keys k ^^^ keyAt Keys' k) &&& 0x0101010101010101
        = keyAt Keys k ^^^ keyAt Keys' k) (RK : Nat → Nat) :
    cipherKeySchedule RK Keys n = cipherKeySchedule RK Keys' n ∧
    cipherKeyScheduleReverse RK Keys n = cipherKeyScheduleReverse RK Keys' n := by
  by_cases hn : n = 1 ∨ n = 2 ∨ n = 3
  · have s0 : _cipherKeySchedule (fun j => Keys (0 + j))
          = _cipherKeySchedule (fun j => Keys' (0 + j)) ∧
        _cipherKeyScheduleReverse (fun j => Keys (0 + j))
          = _cipherKeyScheduleReverse (fun j => Keys' (0 + j)) :=
      slot_schedules_parity Keys Keys' 0 (h 0 (by omega))
    rcases hn with h1 | h1 | h1 <;> subst h1
    · rw [cipherKeySchedule_one, cipherKeySchedule_one, cipherKeyScheduleReverse_one,
        cipherKeyScheduleReverse_one, s0.1, s0.2]
      exact ⟨rfl, rfl⟩
    · have s1 : _cipherKeySchedule (fun j => Keys (8 + j))
            = _cipherKeySchedule (fun j => Keys' (8 + j)) ∧
          _cipherKeyScheduleReverse (fun j => Keys (8 + j))
            = _cipherKeyScheduleReverse (fun j => Keys' (8 + j)) :=
        slot_schedules_parity Keys Keys' 1 (h 1 (by decide))
      rw [cipherKeySchedule_two, cipherKeySchedule_two, cipherKeyScheduleReverse_two,
        cipherKeyScheduleReverse_two, s0.1, s0.2, s1.1, s1.2]
      exact ⟨rfl, rfl⟩
    · have s1 : _cipherKeySchedule (fun j => Keys (8 + j))
            = _cipherKeySchedule (fun j => Keys' (8 + j)) ∧
          _cipherKeyScheduleReverse (fun j => Keys (8 + j))
            = _cipherKeyScheduleReverse (fun j => Keys' (8 + j)) :=
        slot_schedules_parity Keys Keys' 1 (h 1 (by decide))
      have s2 : _cipherKeySchedule (fun j => Keys (16 + j))
            = _cipherKeySchedule (fun j => Keys' (16 + j)) ∧
          _cipherKeyScheduleReverse (fun j => Keys (16 + j))
            = _cipherKeyScheduleReverse (fun j => Keys' (16 + j)) :=
        slot_schedules_parity Keys Keys' 2 (h 2 (by decide))
      rw [cipherKeySchedule_three, cipherKeySchedule_three, cipherKeyScheduleReverse_three,
        cipherKeyScheduleReverse_three, s0.1, s0.2, s1.1, s1.2, s2.1, s2.2]
      exact ⟨rfl, rfl⟩
  · have hn' : n ≠ 1 ∧ n ≠ 2 ∧ n ≠ 3 := by omega
    rw [cipherKeySchedule_invalid RK Keys n hn', cipherKeySchedule_invalid RK Keys' n hn',
      cipherKeyScheduleReverse_invalid RK Keys n hn',
      cipherKeyScheduleReverse_invalid RK Keys' n hn']
    exact ⟨rfl, rfl⟩

/-- C22. Parity bits are ignored: if two 64-bit keys differ only within the
mask `0x0101010101010101` (the least significant bit of each byte),
`cipherKeyScheduleInner` produces the same 16 round keys for both; and if
each of the `KeyCount` keys of two key buffers differs only so, then
`cipherCbcEncrypt` and `cipherCbcDecrypt` return the same code and the same
output for both buffers on every input. -/
theorem parity_bits_ignored (K K' : Nat)
    (hK : (K ^^^ K') &&& 0x0101010101010101 = K ^^^ K')
    (R D : Nat → Nat) (L : Nat) (Keys Keys' : Nat → Nat) (n : Int) (IV RK : Nat → Nat)
    (TB : List Nat)
    (hKeys : ∀ k : Nat, (k : Int) < n →
      (keyAt Keys k ^^^ keyAt Keys' k) &&& 0x0101010101010101
        = keyAt Keys k ^^^ keyAt Keys' k) :
    cipherKeyScheduleInner K = cipherKeyScheduleInner K' ∧
    cipherCbcEncrypt R D L Keys n IV RK = cipherCbcEncrypt R D L Keys' n IV RK ∧
    cipherCbcDecrypt R D L Keys n IV RK TB = cipherCbcDecrypt R D L Keys' n IV RK TB := by
  refine ⟨cipherKeyScheduleInner_parity K K' hK, ?_, ?_⟩
  · unfold cipherCbcEncrypt
    rw [(schedules_parity Keys Keys' n hKeys RK).1]
  · rcases cbc_return_cases R D L Keys n IV RK TB with ⟨_, _, hD⟩ | ⟨_, _, _, hD⟩ |
      ⟨h0, h1, _, hD⟩
    · rcases cbc_return_cases R D L Keys' n IV RK TB with ⟨_, _, hD'⟩ | ⟨_, _, _, hD'⟩ |
        ⟨_, _, _, hD'⟩
      · rw [hD, hD']
      · omega
      · omega
    · rw [hD, cipherCbcDecrypt_invalid R D L Keys' IV RK n TB (by omega) (by omega)]
    · rw [hD, cipherCbcDecrypt_eq R D L Keys' n IV RK TB h0 h1,
        (schedules_parity Keys Keys' n hKeys RK).2,
        (schedules_parity Keys Keys' n hKeys _).1]

/-- C22, at the keys `133457799BBCDFF1` and `123456789ABCDEF0`. -/
theorem parity_bits_ignored_witness :
    (0x133457799BBCDFF1 ^^^ 0x123456789ABCDEF0) &&& 0x0101010101010101
      = 0x133457799BBCDFF1 ^^^ 0x123456789ABCDEF0 ∧
    cipherKeyScheduleInner 0x133457799BBCDFF1 = cipherKeyScheduleInner 0x123456789ABCDEF0 ∧
    cipherCbcEncrypt zeroBuf sampleData 11 exampleKey 1 zeroBuf zeroBuf
      = cipherCbcEncrypt zeroBuf sampleData 11 exampleKeyEven 1 zeroBuf zeroBuf ∧
    cipherCbcDecrypt zeroBuf sampleData 11 exampleKey 1 zeroBuf zeroBuf [0, 0, 0, 0, 0, 0, 0, 0]
      = cipherCbcDecrypt zeroBuf sampleData 11 exampleKeyEven 1 zeroBuf zeroBuf
          [0, 0, 0, 0, 0, 0, 0, 0] :=
  ⟨by decide,
    parity_bits_ignored 0x133457799BBCDFF1 0x123456789ABCDEF0 (by decide) zeroBuf sampleData 11
      exampleKey exampleKeyEven 1 zeroBuf zeroBuf [0, 0, 0, 0, 0, 0, 0, 0]
      (fun k hk => by
        have hk0 : k = 0 := by omega
        subst hk0
        decide)⟩

end Mechacrypto
